import Mathlib

/-!
Verification of the `poly_algebra` equation-processor core
(`src/py/equation_processor.py`) against its natural-language specification.

The Python module is embedded shallowly:

* The process-wide globals (`current_var`, `equations`, `compute_float_initial`)
  become an explicit state record `EPState` threaded through every operation.
  Python mutates globals in place and exceptions leave the partially mutated
  globals behind, so each operation returns `Except Err α × EPState`: the
  second component is the state at the point of return *or* at the point the
  exception was raised.
* Python `int` becomes `Int`; the dense unknown identifiers produced by
  `next_var` become `Nat`.
* Python exceptions become the `Err` enumeration.
* `float` witnesses are embedded symbolically: binary floating point is not
  faithfully representable, but no float value ever reaches an equation text
  (equation strings are built from `var`/`initial` only), so the witness track
  only needs (a) presence/absence and (b) a failure condition for division by
  zero.  `FloatV` records the computation tree and `evalQ` evaluates it in `ℚ`
  where possible in order to decide Python's `ZeroDivisionError` on `/`.
  The exact-rational `n / d` check in `RationalValue` is decided exactly on
  the integers, as in Python.
-/

namespace EqProc

/-- Symbolic embedding of a Python `float` witness value: the tree of the
float operations that produced it. -/
inductive FloatV : Type where
  | ofInt (n : Int)
  | ratDiv (n d : Int)
  | fneg (a : FloatV)
  | fadd (a b : FloatV)
  | fsub (a b : FloatV)
  | fmul (a b : FloatV)
  | fdiv (a b : FloatV)
  | fpow (a b : FloatV)
  | fabs (a : FloatV)
  deriving DecidableEq, Repr

/-- Rational evaluation of a float-witness tree, where defined.  `none` means
the value is (potentially) irrational (any use of `**`), in which case the
model treats a division by it as succeeding. -/
def evalQ : FloatV → Option ℚ
  | .ofInt n => some (n : ℚ)
  | .ratDiv n d => some ((n : ℚ) / (d : ℚ))
  | .fneg a => (evalQ a).map (fun x => -x)
  | .fadd a b =>
    match evalQ a, evalQ b with
    | some x, some y => some (x + y)
    | _, _ => none
  | .fsub a b =>
    match evalQ a, evalQ b with
    | some x, some y => some (x - y)
    | _, _ => none
  | .fmul a b =>
    match evalQ a, evalQ b with
    | some x, some y => some (x * y)
    | _, _ => none
  | .fdiv a b =>
    match evalQ a, evalQ b with
    | some x, some y => if y = 0 then none else some (x / y)
    | _, _ => none
  | .fpow _ _ => none
  | .fabs a => (evalQ a).map (fun x => |x|)

/-- The exceptions the Python module can raise, one constructor per distinct
`raise` site (plus Python's own `ZeroDivisionError`). -/
inductive Err : Type where
  /-- "Value without a var must have an integer initial" (`Value.__init__`). -/
  | malformedValue
  /-- "Value without an initial is not an integer" (`maybe_int`). -/
  | notAnInteger
  /-- "Integer initial value not found" (`initial_as_int`). -/
  | integerInitialNotFound
  /-- "Float initial value not found" (`float_initial_as_float`). -/
  | floatInitialNotFound
  /-- "Only constant integer powers are supported" (`Value.__pow__`). -/
  | unsupportedPower
  /-- Python `ZeroDivisionError`. -/
  | divisionByZero
  /-- "is_zero() call for a non-zero constant ... is not allowed" (`is_zero`). -/
  | inconsistentConstant
  /-- "is_constant() call for an unknown value is not allowed" (`is_constant`). -/
  | unknownWithoutSample
  deriving DecidableEq, Repr

instance {e a : Type} [DecidableEq e] [DecidableEq a] :
    DecidableEq (Except e a) := fun x y =>
  match x, y with
  | .error u, .error v => decidable_of_iff (u = v) (by simp)
  | .error _, .ok _ => isFalse (fun h => Except.noConfusion h)
  | .ok _, .error _ => isFalse (fun h => Except.noConfusion h)
  | .ok u, .ok v => decidable_of_iff (u = v) (by simp)

/-- The process-wide mutable globals of the module. -/
structure EPState : Type where
  /-- `current_var[0]`: next unused unknown identifier. -/
  currentVar : Nat
  /-- `equations`: the append-only equation store (each string is an
  expression implicitly equated to zero). -/
  equations : List String
  /-- `compute_float_initial[0]`: the float-witness toggle. -/
  computeFloatInitial : Bool
  deriving DecidableEq, Repr

/-- `next_var()`: returns the next unused identifier and advances the
counter. -/
def next_var (s : EPState) : Nat × EPState :=
  (s.currentVar, { s with currentVar := s.currentVar + 1 })

/-- `maybe_float_initial(f)`: runs the float computation `f` only when the
toggle is enabled.  The computation itself may raise. -/
def maybe_float_initial (f : Unit → Except Err FloatV) (s : EPState) :
    Except Err (Option FloatV) :=
  if s.computeFloatInitial then (f ()).map some else .ok none

/-- The scalar `Value`.  Fields as in the source: `var` (unknown identifier,
`none` for a literal), `initial` (the sample: an integer, another `Value`, or
absent), `float_initial`.  `ratND` is `some (n, d)` exactly on values built by
`RationalValue.__init__`, recording its `self.n`/`self.d` fields (Python uses
the subclass `isinstance` check in `__pow__`; here the field plays that
role). -/
inductive Value : Type where
  | mk (var : Option Nat) (initial : Option (Int ⊕ Value))
      (floatInitial : Option FloatV) (ratND : Option (Int × Int))
  deriving Repr

/-- Structural boolean equality on `Value` (all four fields). -/
def Value.beq : Value → Value → Bool
  | .mk v1 i1 f1 r1, .mk v2 i2 f2 r2 =>
    v1 = v2 && f1 = f2 && r1 = r2 &&
      (match i1, i2 with
       | none, none => true
       | some (.inl a), some (.inl b) => a = b
       | some (.inr a), some (.inr b) => Value.beq a b
       | _, _ => false)

/-- Depth of the chain of `Value`-valued samples (the recursion skeleton of
the operations and of `Value.beq`). -/
def Value.depth : Value → Nat
  | .mk _ (some (.inr w)) _ _ => Value.depth w + 1
  | _ => 0

theorem Value.beq_iff : ∀ a b : Value, (Value.beq a b = true) ↔ a = b := by
  suffices h : ∀ (n : Nat) (a b : Value), a.depth ≤ n →
      ((Value.beq a b) = true ↔ a = b) by
    exact fun a b => h a.depth a b le_rfl
  intro n
  induction n with
  | zero =>
    rintro ⟨v1, i1, f1, r1⟩ ⟨v2, i2, f2, r2⟩ h
    match i1, i2 with
    | none, none => simp only [Value.beq, Value.mk.injEq, decide_eq_true_eq, Bool.and_eq_true, Option.some.injEq, Sum.inl.injEq, Sum.inr.injEq]; tauto
    | none, some (.inl _) => simp only [Value.beq, Value.mk.injEq, decide_eq_true_eq, Bool.and_eq_true, Option.some.injEq, Sum.inl.injEq, Sum.inr.injEq]; tauto
    | none, some (.inr _) => simp only [Value.beq, Value.mk.injEq, decide_eq_true_eq, Bool.and_eq_true, Option.some.injEq, Sum.inl.injEq, Sum.inr.injEq]; tauto
    | some (.inl _), none => simp only [Value.beq, Value.mk.injEq, decide_eq_true_eq, Bool.and_eq_true, Option.some.injEq, Sum.inl.injEq, Sum.inr.injEq]; tauto
    | some (.inl a), some (.inl b) => simp only [Value.beq, Value.mk.injEq, decide_eq_true_eq, Bool.and_eq_true, Option.some.injEq, Sum.inl.injEq, Sum.inr.injEq]; tauto
    | some (.inl _), some (.inr _) => simp only [Value.beq, Value.mk.injEq, decide_eq_true_eq, Bool.and_eq_true, Option.some.injEq, Sum.inl.injEq, Sum.inr.injEq]; tauto
    | some (.inr w), _ => simp [Value.depth] at h
  | succ n ih =>
    rintro ⟨v1, i1, f1, r1⟩ ⟨v2, i2, f2, r2⟩ h
    match i1, i2 with
    | none, none => simp only [Value.beq, Value.mk.injEq, decide_eq_true_eq, Bool.and_eq_true, Option.some.injEq, Sum.inl.injEq, Sum.inr.injEq]; tauto
    | none, some (.inl _) => simp only [Value.beq, Value.mk.injEq, decide_eq_true_eq, Bool.and_eq_true, Option.some.injEq, Sum.inl.injEq, Sum.inr.injEq]; tauto
    | none, some (.inr _) => simp only [Value.beq, Value.mk.injEq, decide_eq_true_eq, Bool.and_eq_true, Option.some.injEq, Sum.inl.injEq, Sum.inr.injEq]; tauto
    | some (.inl _), none => simp only [Value.beq, Value.mk.injEq, decide_eq_true_eq, Bool.and_eq_true, Option.some.injEq, Sum.inl.injEq, Sum.inr.injEq]; tauto
    | some (.inl a), some (.inl b) => simp only [Value.beq, Value.mk.injEq, decide_eq_true_eq, Bool.and_eq_true, Option.some.injEq, Sum.inl.injEq, Sum.inr.injEq]; tauto
    | some (.inl _), some (.inr _) => simp only [Value.beq, Value.mk.injEq, decide_eq_true_eq, Bool.and_eq_true, Option.some.injEq, Sum.inl.injEq, Sum.inr.injEq]; tauto
    | some (.inr w), none => simp only [Value.beq, Value.mk.injEq, decide_eq_true_eq, Bool.and_eq_true, Option.some.injEq, Sum.inl.injEq, Sum.inr.injEq]; tauto
    | some (.inr w), some (.inl _) => simp only [Value.beq, Value.mk.injEq, decide_eq_true_eq, Bool.and_eq_true, Option.some.injEq, Sum.inl.injEq, Sum.inr.injEq]; tauto
    | some (.inr w), some (.inr u) =>
      have hd : w.depth ≤ n := by
        simp only [Value.depth] at h
        omega
      simp only [Value.beq, Value.mk.injEq, decide_eq_true_eq, Bool.and_eq_true, Option.some.injEq, Sum.inl.injEq, Sum.inr.injEq, ih w u hd]; tauto

instance : DecidableEq Value := fun a b =>
  decidable_of_iff _ (Value.beq_iff a b)

/-- Projection: the `var` field. -/
def Value.var : Value → Option Nat
  | .mk v _ _ _ => v

/-- Projection: the `initial` field. -/
def Value.initial : Value → Option (Int ⊕ Value)
  | .mk _ ini _ _ => ini

/-- Projection: the `float_initial` field. -/
def Value.floatInitial : Value → Option FloatV
  | .mk _ _ fi _ => fi

/-- Projection: the rational marker (`isinstance(·, RationalValue)` together
with the `n`, `d` fields). -/
def Value.ratND : Value → Option (Int × Int)
  | .mk _ _ _ nd => nd

/-- `Value.__init__`: rejects a literal-flagged value (`var = None`) whose
`initial` is not an integer.  All other field combinations are accepted. -/
def Value.init (var : Option Nat) (initial : Option (Int ⊕ Value))
    (floatInitial : Option FloatV) : Except Err Value :=
  match var, initial with
  | none, none => .error .malformedValue
  | none, some (.inr _) => .error .malformedValue
  | none, some (.inl n) => .ok (.mk none (some (.inl n)) floatInitial none)
  | some v, ini => .ok (.mk (some v) ini floatInitial none)

/-- `Value.__str__`: a literal prints its `initial` (Python's `str` falls
through to the sample's own rendering, printing `None` for an absent one); an
unknown prints its display name: letter `chr(ord('a') + var % 26)` followed by
the decimal suffix `var / 26` when that is nonzero. -/
def Value.str : Value → String
  | .mk none initial _ _ =>
    match initial with
    | some (.inl n) => toString n
    | some (.inr v) => Value.str v
    | none => "None"
  | .mk (some var) _ _ _ =>
    if var / 26 = 0 then String.singleton (Char.ofNat (97 + var % 26))
    else String.singleton (Char.ofNat (97 + var % 26)) ++ Nat.repr (var / 26)

/-- The display name of unknown identifier `n` (the `var = Some n` branch of
`Value.__str__`). -/
def nameOf (n : Nat) : String :=
  Value.str (Value.mk (some n) none none none)

/-- `i(x)`: wraps an integer as a literal `Value` (reading the toggle for the
float witness); returns a `Value` argument unchanged. -/
def i (x : Int ⊕ Value) (s : EPState) : Value :=
  match x with
  | .inl n =>
    Value.mk none (some (.inl n))
      (if s.computeFloatInitial then some (.ofInt n) else none) none
  | .inr v => v

/-- `new_var(x)`: allocates a fresh unknown whose sample is the literal `x`.
No equation is appended. -/
def new_var (x : Int) (s : EPState) : Value × EPState :=
  let p := next_var s
  (Value.mk (some p.1) (some (.inl x))
    (if p.2.computeFloatInitial then some (.ofInt x) else none) none, p.2)

/-- `Value.maybe_int`: a literal is unwrapped to its sample (raising when that
is absent); an unknown is returned as is. -/
def Value.maybe_int (v : Value) : Except Err (Int ⊕ Value) :=
  match v with
  | .mk none none _ _ => .error .notAnInteger
  | .mk none (some x) _ _ => .ok x
  | .mk (some k) ini fi nd => .ok (.inr (.mk (some k) ini fi nd))

/-- `Value.initial_as_int`: the sample as an integer, raising when it is not
one. -/
def Value.initial_as_int (v : Value) : Except Err Int :=
  match v.initial with
  | some (.inl n) => .ok n
  | _ => .error .integerInitialNotFound

/-- `Value.float_initial_as_float`: the float witness, raising when absent. -/
def Value.float_initial_as_float (v : Value) : Except Err FloatV :=
  match v.floatInitial with
  | some f => .ok f
  | none => .error .floatInitialNotFound

/-- Termination measure for the operation combinators. -/
def Value.meas (v : Value) : Nat :=
  2 * v.depth + (match v.var with | some _ => 1 | none => 0)

theorem meas_i_le (x : Int ⊕ Value) (v : Value) (s : EPState)
    (h : v.initial = some x) : (i x s).meas ≤ v.meas := by
  cases v with
  | mk var ini fi nd =>
    cases x with
    | inl n =>
      simp only [i, Value.meas, Value.depth, Value.var]
      omega
    | inr w =>
      simp only [Value.initial] at h
      subst h
      simp only [i, Value.meas, Value.depth]
      cases hw : w.var <;> simp <;> omega

theorem meas_i_lt (x : Int ⊕ Value) (v : Value) (s : EPState) (k : Nat)
    (hv : v.var = some k) (h : v.initial = some x) : (i x s).meas < v.meas := by
  cases v with
  | mk var ini fi nd =>
    simp only [Value.var] at hv
    subst hv
    cases x with
    | inl n =>
      simp only [i, Value.meas, Value.depth, Value.var]
      omega
    | inr w =>
      simp only [Value.initial] at h
      subst h
      simp only [i, Value.meas, Value.depth]
      cases hw : w.var <;> simp <;> omega

/-- The constant-elevation step shared by both binary-operation combinators
(lines 198–203 and 227–232 of the source): an operand with no sample, whose
partner both has a sample and is an unknown, is re-wrapped (through the
checking constructor, as in the source) so that its own sample becomes
itself. -/
def elevate (a partner : Value) : Except Err Value :=
  if a.initial = none ∧ partner.initial ≠ none ∧ partner.var ≠ none then
    Value.init a.var (some (.inr a)) a.floatInitial
  else .ok a

theorem elevate_ok (a p arg : Value) (h : elevate a p = .ok arg) :
    (arg = a ∧ ¬(a.initial = none ∧ p.initial ≠ none ∧ p.var ≠ none)) ∨
    (∃ k, a.var = some k ∧ a.initial = none ∧ p.initial ≠ none ∧ p.var ≠ none ∧
      arg = Value.mk (some k) (some (.inr a)) a.floatInitial none) := by
  by_cases hc : a.initial = none ∧ p.initial ≠ none ∧ p.var ≠ none
  · right
    rw [elevate, if_pos hc] at h
    cases hv : a.var with
    | none => rw [hv] at h; simp [Value.init] at h
    | some k =>
      rw [hv] at h
      simp only [Value.init, Except.ok.injEq] at h
      exact ⟨k, rfl, hc.1, hc.2.1, hc.2.2, h.symm⟩
  · left
    rw [elevate, if_neg hc] at h
    simp only [Except.ok.injEq] at h
    exact ⟨h.symm, hc⟩

theorem elevate_var (a p arg : Value) (h : elevate a p = .ok arg) :
    arg.var = a.var := by
  rcases elevate_ok a p arg h with ⟨ha, -⟩ | ⟨k, hk, -, -, -, ha⟩
  · rw [ha]
  · rw [ha]
    show some k = a.var
    exact hk.symm

/-- Measure decrease for the recursive sample computation of the binary
combinators. -/
theorem meas_rec_lt (self other arg1 arg2 : Value) (x1 x2 : Int ⊕ Value)
    (s t : EPState)
    (hb : ¬(arg1.var = none ∧ arg2.var = none))
    (e1 : elevate self other = .ok arg1)
    (e2 : elevate other arg1 = .ok arg2)
    (h1 : arg1.initial = some x1) (h2 : arg2.initial = some x2) :
    (i x1 s).meas + (i x2 t).meas < self.meas + other.meas := by
  rcases elevate_ok self other arg1 e1 with ⟨ha1, hno1⟩ | ⟨k, hk, hsi, hoi, hov, ha1⟩
  · -- arg1 = self
    rw [ha1] at h1 e2 hb
    rcases elevate_ok other self arg2 e2 with ⟨ha2, hno2⟩ | ⟨m, hm, hoi, hsi, hsv, ha2⟩
    · -- arg2 = other: no elevation happened
      rw [ha2] at h2 hb
      cases hv : self.var with
      | none =>
        cases ho : other.var with
        | none => exact absurd ⟨hv, ho⟩ hb
        | some m =>
          have l1 := meas_i_le x1 self s h1
          have l2 := meas_i_lt x2 other t m ho h2
          omega
      | some k =>
        have l1 := meas_i_lt x1 self s k hv h1
        have l2 := meas_i_le x2 other t h2
        omega
    · -- arg2 is the elevated other (so self has a sample and is an unknown)
      rw [ha2] at h2
      simp only [Value.initial, Option.some.injEq] at h2
      obtain ⟨kk, hkk⟩ : ∃ kk, self.var = some kk := by
        cases hvv : self.var with
        | none => exact absurd hvv hsv
        | some kk => exact ⟨kk, rfl⟩
      have l1 := meas_i_lt x1 self s kk hkk h1
      have hieq : i x2 t = other := by subst h2; rfl
      rw [hieq]
      omega
  · -- arg1 is the elevated self (so other has a sample and is an unknown)
    rw [ha1] at h1 e2
    simp only [Value.initial, Option.some.injEq] at h1
    have harg2 : arg2 = other := by
      rcases elevate_ok other _ arg2 e2 with ⟨ha2, -⟩ | ⟨m, -, hoi2, -, -, -⟩
      · exact ha2
      · exact absurd hoi2 hoi
    rw [harg2] at h2
    obtain ⟨m, hm⟩ : ∃ m, other.var = some m := by
      cases hvv : other.var with
      | none => exact absurd hvv hov
      | some m => exact ⟨m, rfl⟩
    have l2 := meas_i_lt x2 other t m hm h2
    have hieq : i x1 s = self := by subst h1; rfl
    rw [hieq]
    omega

/-- `Value.integer_valued_operation(eq, v, vf)`: the unary combinator for
integer-valued operations.  A literal folds via the exact transform `v`;
otherwise a fresh unknown is allocated, its sample is derived recursively
from the operand's sample (when present), and the defining equation is
appended.  The equation template may read the state (needed by the
negative-literal-power template, which re-runs a fold) and may raise. -/
def Value.integer_valued_operation
    (eqT : Value → Value → EPState → Except Err String)
    (v : Int → Int) (vf : FloatV → Except Err FloatV)
    (self : Value) (s : EPState) : Except Err Value × EPState :=
  match maybe_float_initial
      (fun _ => (self.float_initial_as_float).bind vf) s with
  | .error e => (.error e, s)
  | .ok float_initial =>
    match hv : self.var with
    | none =>
      match self.initial_as_int with
      | .error e => (.error e, s)
      | .ok n =>
        (.ok (Value.mk none (some (.inl (v n))) float_initial none), s)
    | some _ =>
      match hi : self.initial with
      | none =>
        let p := next_var s
        let result := Value.mk (some p.1) none float_initial none
        match eqT self result p.2 with
        | .error e => (.error e, p.2)
        | .ok eqs =>
          (.ok result, { p.2 with equations := p.2.equations ++ [eqs] })
      | some ini =>
        match Value.integer_valued_operation eqT v vf (i ini s) s with
        | (.error e, s1) => (.error e, s1)
        | (.ok r, s1) =>
          match r.maybe_int with
          | .error e => (.error e, s1)
          | .ok x =>
            let p := next_var s1
            let result := Value.mk (some p.1) (some x) float_initial none
            match eqT self result p.2 with
            | .error e => (.error e, p.2)
            | .ok eqs =>
              (.ok result, { p.2 with equations := p.2.equations ++ [eqs] })
termination_by self.meas
decreasing_by
  exact meas_i_lt ini self s _ hv hi

/-- `Value.non_integer_valued_operation(eq, vf)`: the unary combinator for
non-integer-valued operations.  It never folds: even a literal operand
allocates a fresh unknown and appends an equation; the sample recursion only
runs when the operand is an unknown with a sample. -/
def Value.non_integer_valued_operation
    (eqT : Value → Value → EPState → Except Err String)
    (vf : FloatV → Except Err FloatV)
    (self : Value) (s : EPState) : Except Err Value × EPState :=
  match maybe_float_initial
      (fun _ => (self.float_initial_as_float).bind vf) s with
  | .error e => (.error e, s)
  | .ok float_initial =>
    match
      (match hv : self.var, hi : self.initial with
       | none, _ => ((.ok none : Except Err (Option (Int ⊕ Value))), s)
       | some _, none => (.ok none, s)
       | some _, some ini =>
         match Value.non_integer_valued_operation eqT vf (i ini s) s with
         | (.error e, s1) => (.error e, s1)
         | (.ok r, s1) =>
           match r.maybe_int with
           | .error e => (.error e, s1)
           | .ok x => (.ok (some x), s1)) with
    | (.error e, s1) => (.error e, s1)
    | (.ok initial, s1) =>
      let p := next_var s1
      let result := Value.mk (some p.1) initial float_initial none
      match eqT self result p.2 with
      | .error e => (.error e, p.2)
      | .ok eqs =>
        (.ok result, { p.2 with equations := p.2.equations ++ [eqs] })
termination_by self.meas
decreasing_by
  exact meas_i_lt ini self s _ hv hi

/-- `Value.integer_valued_binary_operation(other, eq, v, vf)`: two literals
fold via the exact transform with no equation; otherwise both operands go
through constant elevation, the sample is derived recursively when both
samples are present, and exactly one equation — built from the *original*
operands — is appended. -/
def Value.integer_valued_binary_operation
    (eqT : Value → Value → Value → EPState → Except Err String)
    (v : Int → Int → Int) (vf : FloatV → FloatV → Except Err FloatV)
    (self other : Value) (s : EPState) : Except Err Value × EPState :=
  match maybe_float_initial
      (fun _ => (self.float_initial_as_float).bind (fun x =>
        (other.float_initial_as_float).bind (fun y => vf x y))) s with
  | .error e => (.error e, s)
  | .ok float_initial =>
    if hb : self.var = none ∧ other.var = none then
      match self.initial_as_int with
      | .error e => (.error e, s)
      | .ok a =>
        match other.initial_as_int with
        | .error e => (.error e, s)
        | .ok b =>
          (.ok (Value.mk none (some (.inl (v a b))) float_initial none), s)
    else
      match e1 : elevate self other with
      | .error e => (.error e, s)
      | .ok arg1 =>
        match e2 : elevate other arg1 with
        | .error e => (.error e, s)
        | .ok arg2 =>
          match
            (match h1 : arg1.initial, h2 : arg2.initial with
             | none, _ => ((.ok none : Except Err (Option (Int ⊕ Value))), s)
             | _, none => (.ok none, s)
             | some x1, some x2 =>
               match Value.integer_valued_binary_operation eqT v vf
                   (i x1 s) (i x2 s) s with
               | (.error e, s1) => (.error e, s1)
               | (.ok r, s1) =>
                 match r.maybe_int with
                 | .error e => (.error e, s1)
                 | .ok x => (.ok (some x), s1)) with
          | (.error e, s1) => (.error e, s1)
          | (.ok initial, s1) =>
            let p := next_var s1
            let result := Value.mk (some p.1) initial float_initial none
            match eqT self other result p.2 with
            | .error e => (.error e, p.2)
            | .ok eqs =>
              (.ok result, { p.2 with equations := p.2.equations ++ [eqs] })
termination_by self.meas + other.meas
decreasing_by
  refine meas_rec_lt self other arg1 arg2 x1 x2 s s ?_ e1 e2 h1 h2
  have hv1 := elevate_var self other arg1 e1
  have hv2 := elevate_var other arg1 arg2 e2
  rw [hv1, hv2]
  exact fun hc => hb ⟨hc.1, hc.2⟩

/-- `Value.non_integer_valued_binary_operation(other, eq, vf)`: like the
integer-valued combinator but with no literal fold (two literals still
allocate and emit), no exact transform, and the appended equation is built
from the *elevated* operands. -/
def Value.non_integer_valued_binary_operation
    (eqT : Value → Value → Value → EPState → Except Err String)
    (vf : FloatV → FloatV → Except Err FloatV)
    (self other : Value) (s : EPState) : Except Err Value × EPState :=
  match maybe_float_initial
      (fun _ => (self.float_initial_as_float).bind (fun x =>
        (other.float_initial_as_float).bind (fun y => vf x y))) s with
  | .error e => (.error e, s)
  | .ok float_initial =>
    match e1 : elevate self other with
    | .error e => (.error e, s)
    | .ok arg1 =>
      match e2 : elevate other arg1 with
      | .error e => (.error e, s)
      | .ok arg2 =>
        match
          (match h1 : arg1.initial, h2 : arg2.initial with
           | none, _ => ((.ok none : Except Err (Option (Int ⊕ Value))), s)
           | _, none => (.ok none, s)
           | some x1, some x2 =>
             if hb : arg1.var = none ∧ arg2.var = none then (.ok none, s)
             else
               match Value.non_integer_valued_binary_operation eqT vf
                   (i x1 s) (i x2 s) s with
               | (.error e, s1) => (.error e, s1)
               | (.ok r, s1) =>
                 match r.maybe_int with
                 | .error e => (.error e, s1)
                 | .ok x => (.ok (some x), s1)) with
        | (.error e, s1) => (.error e, s1)
        | (.ok initial, s1) =>
          let p := next_var s1
          let result := Value.mk (some p.1) initial float_initial none
          match eqT arg1 arg2 result p.2 with
          | .error e => (.error e, p.2)
          | .ok eqs =>
            (.ok result, { p.2 with equations := p.2.equations ++ [eqs] })
termination_by self.meas + other.meas
decreasing_by
  exact meas_rec_lt self other arg1 arg2 x1 x2 s s hb e1 e2 h1 h2

/-- Rendering of a sample (`f"{v.initial}"` in Python): an integer renders
decimally, a `Value` through `Value.__str__`, an absent sample as `None`. -/
def strInitial : Option (Int ⊕ Value) → String
  | some (.inl n) => toString n
  | some (.inr w) => w.str
  | none => "None"

/-- `Value.__neg__`: equation template `a + b`, exact transform `-a`. -/
def Value.neg (self : Value) (s : EPState) : Except Err Value × EPState :=
  Value.integer_valued_operation
    (fun a b _ => .ok (a.str ++ " + " ++ b.str))
    (fun a => -a) (fun a => .ok (.fneg a)) self s

/-- `Value.__add__`: equation template `a + b - c`. -/
def Value.add (self other : Value) (s : EPState) : Except Err Value × EPState :=
  Value.integer_valued_binary_operation
    (fun a b c _ => .ok (a.str ++ " + " ++ b.str ++ " - " ++ c.str))
    (fun a b => a + b) (fun a b => .ok (.fadd a b)) self other s

/-- `Value.__sub__`: equation template `a - b - c`. -/
def Value.sub (self other : Value) (s : EPState) : Except Err Value × EPState :=
  Value.integer_valued_binary_operation
    (fun a b c _ => .ok (a.str ++ " - " ++ b.str ++ " - " ++ c.str))
    (fun a b => a - b) (fun a b => .ok (.fsub a b)) self other s

/-- `Value.__mul__` on two scalars: equation template `a*b - c`.  (The
`Value * Vector` overload delegates to `Vector.smul` below, as in the
source.) -/
def Value.mul (self other : Value) (s : EPState) : Except Err Value × EPState :=
  Value.integer_valued_binary_operation
    (fun a b c _ => .ok (a.str ++ "*" ++ b.str ++ " - " ++ c.str))
    (fun a b => a * b) (fun a b => .ok (.fmul a b)) self other s

/-- The float transform of `Value.__truediv__` (`lambda a, b: a / b`):
Python raises `ZeroDivisionError` on a zero divisor; the symbolic model
detects this through `evalQ` where the divisor is rational. -/
def fdivE (a b : FloatV) : Except Err FloatV :=
  match evalQ b with
  | some y => if y = 0 then .error .divisionByZero else .ok (.fdiv a b)
  | none => .ok (.fdiv a b)

/-- `Value.__truediv__`: non-integer-valued; equation template `a - b*c`
(the quotient is defined implicitly). -/
def Value.div (self other : Value) (s : EPState) : Except Err Value × EPState :=
  Value.non_integer_valued_binary_operation
    (fun a b c _ => .ok (a.str ++ " - " ++ b.str ++ "*" ++ c.str))
    fdivE self other s

/-- `Value.abs`: equation template `a^2 - b^2`, exact transform `|a|`. -/
def Value.abs (self : Value) (s : EPState) : Except Err Value × EPState :=
  Value.integer_valued_operation
    (fun a b _ => .ok (a.str ++ "^2 - " ++ b.str ++ "^2"))
    (fun a => |a|) (fun a => .ok (.fabs a)) self s

/-- `Value.__pow__`.  A `RationalValue` exponent `n/d` dispatches on the sign
of `n`; otherwise only a literal integer exponent is accepted (a symbolic
exponent raises), dispatching on its sign.  In the negative-literal branch
the Python template evaluates `-power` at append time; `power` is a literal
there, so that negation folds without touching the state, and the template
accordingly discards the state returned by the fold. -/
def Value.pow (self power : Value) (s : EPState) : Except Err Value × EPState :=
  let vf : FloatV → Except Err FloatV :=
    fun a => (power.float_initial_as_float).bind (fun p => .ok (.fpow a p))
  match power.ratND with
  | some nd =>
    if nd.1 > 0 then
      Value.non_integer_valued_operation
        (fun a b _ =>
          match a.var with
          | some _ =>
            .ok (a.str ++ "^" ++ toString nd.1 ++ " - " ++ b.str ++ "^" ++
              toString nd.2)
          | none =>
            (a.initial_as_int).map (fun x =>
              toString (x ^ nd.1.toNat) ++ " - " ++ b.str ++ "^" ++
                toString nd.2))
        vf self s
    else
      Value.non_integer_valued_operation
        (fun a b _ =>
          match a.var with
          | some _ =>
            .ok ("1 - " ++ a.str ++ "^" ++ toString (-nd.1) ++ "*" ++ b.str ++
              "^" ++ toString nd.2)
          | none =>
            (a.initial_as_int).map (fun x =>
              "1 - " ++ toString (x ^ (-nd.1).toNat) ++ "*" ++ b.str ++ "^" ++
                toString nd.2))
        vf self s
  | none =>
    match power.var with
    | some _ => (.error .unsupportedPower, s)
    | none =>
      match power.initial_as_int with
      | .error e => (.error e, s)
      | .ok pn =>
        if pn > 0 then
          Value.integer_valued_operation
            (fun a b _ => .ok (a.str ++ "^" ++ power.str ++ " - " ++ b.str))
            (fun a => a ^ pn.toNat) vf self s
        else
          Value.non_integer_valued_operation
            (fun a b st =>
              match a.var with
              | some _ =>
                match Value.neg power st with
                | (.ok np, _) =>
                  .ok ("1 - " ++ a.str ++ "^" ++ np.str ++ "*" ++ b.str)
                | (.error e, _) => .error e
              | none =>
                (a.initial_as_int).bind (fun x =>
                  (power.initial_as_int).map (fun pe =>
                    "1 - " ++ toString (x ^ (-pe).toNat) ++ "*" ++ b.str)))
            vf self s

/-- `RationalValue.__init__(n, d)`: allocates an unknown (the counter is
advanced before Python evaluates `n / d`), sets `float_initial = n / d`
unconditionally (raising `ZeroDivisionError` for `d = 0` before anything is
appended), records `n` and `d`, and appends the governing equation
`d*<var> - n`. -/
def RationalValue (n d : Int) (s : EPState) : Except Err Value × EPState :=
  let p := next_var s
  if d = 0 then (.error .divisionByZero, p.2)
  else
    let rv := Value.mk (some p.1) none (some (.ratDiv n d)) (some (n, d))
    (.ok rv,
      { p.2 with
        equations := p.2.equations ++
          [toString d ++ "*" ++ rv.str ++ " - " ++ toString n] })

/-- `q(n, d)`. -/
def q (n d : Int) (s : EPState) : Except Err Value × EPState :=
  RationalValue n d s

/-- `sqrt(x) = x ** q(1, 2)` (the later definition in the source, which
overrides the earlier `math.sqrt`-based one). -/
def sqrt (x : Value) (s : EPState) : Except Err Value × EPState :=
  match q 1 2 s with
  | (.error e, s1) => (.error e, s1)
  | (.ok p, s1) => Value.pow x p s1

/-- A 2-D point: two `Value` components, purely structural. -/
structure Point : Type where
  x : Value
  y : Value
  deriving DecidableEq, Repr

/-- A 2-D vector: two `Value` components, purely structural. -/
structure Vector : Type where
  x : Value
  y : Value
  deriving DecidableEq, Repr

/-- `Point.__sub__`: componentwise difference, producing a `Vector` (the x
component is computed first). -/
def Point.sub (self other : Point) (s : EPState) :
    Except Err Vector × EPState :=
  match Value.sub self.x other.x s with
  | (.error e, s1) => (.error e, s1)
  | (.ok vx, s1) =>
    match Value.sub self.y other.y s1 with
    | (.error e, s2) => (.error e, s2)
    | (.ok vy, s2) => (.ok ⟨vx, vy⟩, s2)

/-- `Point.__add__`: point plus vector. -/
def Point.add (self : Point) (other : Vector) (s : EPState) :
    Except Err Point × EPState :=
  match Value.add self.x other.x s with
  | (.error e, s1) => (.error e, s1)
  | (.ok vx, s1) =>
    match Value.add self.y other.y s1 with
    | (.error e, s2) => (.error e, s2)
    | (.ok vy, s2) => (.ok ⟨vx, vy⟩, s2)

/-- `Vector.__add__`. -/
def Vector.add (self other : Vector) (s : EPState) :
    Except Err Vector × EPState :=
  match Value.add self.x other.x s with
  | (.error e, s1) => (.error e, s1)
  | (.ok vx, s1) =>
    match Value.add self.y other.y s1 with
    | (.error e, s2) => (.error e, s2)
    | (.ok vy, s2) => (.ok ⟨vx, vy⟩, s2)

/-- `Vector.__sub__`. -/
def Vector.sub (self other : Vector) (s : EPState) :
    Except Err Vector × EPState :=
  match Value.sub self.x other.x s with
  | (.error e, s1) => (.error e, s1)
  | (.ok vx, s1) =>
    match Value.sub self.y other.y s1 with
    | (.error e, s2) => (.error e, s2)
    | (.ok vy, s2) => (.ok ⟨vx, vy⟩, s2)

/-- `Vector.__mul__` with a scalar: componentwise scaling (x first). -/
def Vector.smul (self : Vector) (other : Value) (s : EPState) :
    Except Err Vector × EPState :=
  match Value.mul self.x other s with
  | (.error e, s1) => (.error e, s1)
  | (.ok vx, s1) =>
    match Value.mul self.y other s1 with
    | (.error e, s2) => (.error e, s2)
    | (.ok vy, s2) => (.ok ⟨vx, vy⟩, s2)

/-- `Vector.__mul__` with a vector: the dot product
`self.x * other.x + self.y * other.y` (left-to-right evaluation). -/
def Vector.dot (self other : Vector) (s : EPState) :
    Except Err Value × EPState :=
  match Value.mul self.x other.x s with
  | (.error e, s1) => (.error e, s1)
  | (.ok t1, s1) =>
    match Value.mul self.y other.y s1 with
    | (.error e, s2) => (.error e, s2)
    | (.ok t2, s2) => Value.add t1 t2 s2

/-- `Vector.rotated90`: `(y, -x)`. -/
def Vector.rotated90 (self : Vector) (s : EPState) :
    Except Err Vector × EPState :=
  match Value.neg self.x s with
  | (.error e, s1) => (.error e, s1)
  | (.ok nx, s1) => (.ok ⟨self.y, nx⟩, s1)

/-- `Vector.length_sqr`: self-dot. -/
def Vector.length_sqr (self : Vector) (s : EPState) :
    Except Err Value × EPState :=
  Vector.dot self self s

/-- `Vector.length`: `sqrt(length_sqr)`. -/
def Vector.length (self : Vector) (s : EPState) :
    Except Err Value × EPState :=
  match Vector.length_sqr self s with
  | (.error e, s1) => (.error e, s1)
  | (.ok l, s1) => sqrt l s1

/-- `FixedPoint(x, y)`: two literal components, no allocation. -/
def FixedPoint (x y : Int) (s : EPState) : Point :=
  ⟨i (.inl x) s, i (.inl y) s⟩

/-- `FreePoint(x, y)`: two fresh unknowns with the given literal samples. -/
def FreePoint (x y : Int) (s : EPState) : Point × EPState :=
  let px := new_var x s
  let py := new_var y px.2
  (⟨px.1, py.1⟩, py.2)

/-- `FixedVector(x, y)`. -/
def FixedVector (x y : Int) (s : EPState) : Vector :=
  ⟨i (.inl x) s, i (.inl y) s⟩

/-- `FreeVector(x, y)`. -/
def FreeVector (x y : Int) (s : EPState) : Vector × EPState :=
  let px := new_var x s
  let py := new_var y px.2
  (⟨px.1, py.1⟩, py.2)

/-- A line through origin point `o` with normal vector `n`. -/
structure Line : Type where
  o : Point
  n : Vector
  deriving DecidableEq, Repr

/-- `Line.contains(p)`: computes `v = (p - self.o) * self.n`, appends
`f"{v}"`, and, whenever `v.initial` is not `None` (literal or symbolic),
additionally appends `f"{v.initial}"`. -/
def Line.contains (self : Line) (p : Point) (s : EPState) :
    Except Err Unit × EPState :=
  match Point.sub p self.o s with
  | (.error e, s1) => (.error e, s1)
  | (.ok d1, s1) =>
    match Vector.dot d1 self.n s1 with
    | (.error e, s2) => (.error e, s2)
    | (.ok v, s2) =>
      let s3 := { s2 with equations := s2.equations ++ [v.str] }
      match v.initial with
      | none => (.ok (), s3)
      | some ini =>
        (.ok (),
          { s3 with equations := s3.equations ++ [strInitial (some ini)] })

/-- Whether the sample is an integer known to be non-zero
(`isinstance(x.initial, int) and x.initial_as_int() != 0`). -/
def Value.nonzeroIntSample (x : Value) : Bool :=
  match x.initial with
  | some (.inl n) => n != 0
  | _ => false

/-- `is_constant(x)`: no-op for a literal; for an unknown with a sample,
appends `f"{x} - {x.initial}"`; raises for an unknown without a sample. -/
def is_constant (x : Value) (s : EPState) : Except Err Unit × EPState :=
  match x.var with
  | none => (.ok (), s)
  | some _ =>
    match x.initial with
    | none => (.error .unknownWithoutSample, s)
    | some ini =>
      (.ok (),
        { s with
          equations := s.equations ++ [x.str ++ " - " ++ strInitial (some ini)] })

/-- `is_zero(x)`: raises for a non-zero integer sample; no-op for a literal;
for an unknown appends `f"{x}"` and, when the sample is not an integer
(symbolic or absent), additionally appends `f"{x.initial}"`. -/
def is_zero (x : Value) (s : EPState) : Except Err Unit × EPState :=
  if x.nonzeroIntSample then (.error .inconsistentConstant, s)
  else
    match x.var with
    | none => (.ok (), s)
    | some _ =>
      let s1 := { s with equations := s.equations ++ [x.str] }
      match x.initial with
      | some (.inl _) => (.ok (), s1)
      | ini => (.ok (), { s1 with equations := s1.equations ++ [strInitial ini] })

/-- `is_zero_vector(v)`: `is_zero` on both components (x first). -/
def is_zero_vector (v : Vector) (s : EPState) : Except Err Unit × EPState :=
  match is_zero v.x s with
  | (.error e, s1) => (.error e, s1)
  | (.ok _, s1) => is_zero v.y s1

/-! ### Helpers for claim statements -/

/-- A pure integer literal `Value` as produced by `i(n)` with the witness
toggle disabled. -/
def litV (n : Int) : Value :=
  .mk none (some (.inl n)) none none

/-- An "unknown constant": an unknown with no sample. -/
def unknownV (k : Nat) : Value :=
  .mk (some k) none none none

/-- An unknown with an integer sample. -/
def sampledV (k : Nat) (n : Int) : Value :=
  .mk (some k) (some (.inl n)) none none

theorem str_unknown (k : Nat) (ini : Option (Int ⊕ Value))
    (fi : Option FloatV) (nd : Option (Int × Int)) :
    (Value.mk (some k) ini fi nd).str = nameOf k := by
  simp [Value.str, nameOf]

theorem str_lit (n : Int) (fi : Option FloatV) (nd : Option (Int × Int)) :
    (Value.mk none (some (.inl n)) fi nd).str = toString n := by
  simp [Value.str]

/-! ### Claims -/

/-- **C10** (confirmed).  For every integer `n`, `RationalValue(n, 0)` raises
(Python's `ZeroDivisionError` from evaluating `n / 0`) before the governing
equation is appended, so the equation store is unchanged, but `next_var()`
has already run: the allocator counter has been incremented.  Allocator and
equation store diverge on this error. -/
theorem claim_C10 (n : Int) (s : EPState) :
    (RationalValue n 0 s).1 = .error .divisionByZero ∧
    (RationalValue n 0 s).2.equations = s.equations ∧
    (RationalValue n 0 s).2.currentVar = s.currentVar + 1 := by
  refine ⟨?_, ?_, ?_⟩ <;> simp [RationalValue, next_var]

/-- **C1** (refuted as stated): dividing the two pure integer literals `2`
and `3` does *not* fold to a literal: it allocates a fresh unknown (the
result's `var` is present and its sample absent) and appends the equation
`2 - 3*a` to the store. -/
theorem claim_C1_counterexample :
    Value.div (i (.inl 2) ⟨0, [], false⟩) (i (.inl 3) ⟨0, [], false⟩)
        ⟨0, [], false⟩ =
      (.ok (Value.mk (some 0) none none none), ⟨1, ["2 - 3*a"], false⟩) ∧
    (Value.mk (some 0) none none none).var ≠ none ∧
    (["2 - 3*a"] : List String) ≠ ([] : List String) := by
  refine ⟨?_, by decide, by decide⟩
  simp [Value.div, Value.non_integer_valued_binary_operation, elevate,
    Value.init, maybe_float_initial, i, Value.var, Value.initial,
    Value.floatInitial, next_var, Value.maybe_int, Value.str]
  decide

/-- **C1** (amended).  With the witness toggle disabled, `add`, `subtract`
and `multiply` between two pure integer literals fold to a literal equal to
the exact arithmetic result, allocate no unknown and append no equation;
`divide` between two literals instead always allocates one fresh unknown
with an absent sample and appends exactly one equation `x - y*<result>`. -/
theorem claim_C1 (x y : Int) (fi1 fi2 : Option FloatV)
    (nd1 nd2 : Option (Int × Int)) (s : EPState)
    (htog : s.computeFloatInitial = false) :
    Value.add (Value.mk none (some (.inl x)) fi1 nd1)
        (Value.mk none (some (.inl y)) fi2 nd2) s =
      (.ok (Value.mk none (some (.inl (x + y))) none none), s) ∧
    Value.sub (Value.mk none (some (.inl x)) fi1 nd1)
        (Value.mk none (some (.inl y)) fi2 nd2) s =
      (.ok (Value.mk none (some (.inl (x - y))) none none), s) ∧
    Value.mul (Value.mk none (some (.inl x)) fi1 nd1)
        (Value.mk none (some (.inl y)) fi2 nd2) s =
      (.ok (Value.mk none (some (.inl (x * y))) none none), s) ∧
    Value.div (Value.mk none (some (.inl x)) fi1 nd1)
        (Value.mk none (some (.inl y)) fi2 nd2) s =
      (.ok (Value.mk (some s.currentVar) none none none),
        { s with
          currentVar := s.currentVar + 1,
          equations := s.equations ++
            [toString x ++ " - " ++ toString y ++ "*" ++ nameOf s.currentVar] }) := by
  refine ⟨?_, ?_, ?_, ?_⟩ <;>
    simp [Value.add, Value.sub, Value.mul, Value.div,
      Value.integer_valued_binary_operation,
      Value.non_integer_valued_binary_operation, elevate, Value.init,
      maybe_float_initial, i, Value.var, Value.initial, Value.floatInitial,
      Value.initial_as_int, next_var, Value.maybe_int, htog,
      str_unknown, str_lit]

/-- Witness for `claim_C1` at `x = 2`, `y = 3`, the empty toggle-off state. -/
theorem claim_C1_witness :
    (⟨0, [], false⟩ : EPState).computeFloatInitial = false ∧
    Value.div (Value.mk none (some (.inl 2)) none none)
        (Value.mk none (some (.inl 3)) none none) ⟨0, [], false⟩ =
      (.ok (Value.mk (some 0) none none none),
        { currentVar := 1, equations := ["2 - 3*" ++ nameOf 0],
          computeFloatInitial := false }) :=
  ⟨rfl, (claim_C1 2 3 none none none none ⟨0, [], false⟩ rfl).2.2.2⟩

/-- **C4** (refuted as stated).  `sqrt` on an unknown (`a`) with integer
sample 5 *does* append a secondary sample equation: the run appends three
equations — the governing equation `2*b - 1` of the rational exponent 1/2,
the sample equation `5 - c^2`, and the main equation `a^1 - d^2` — while the
claim allows no sample equation. -/
theorem claim_C4_counterexample :
    sqrt (Value.mk (some 0) (some (.inl 5)) none none) ⟨1, [], false⟩ =
      (.ok (Value.mk (some 3)
          (some (.inr (Value.mk (some 2) none none none))) none none),
        ⟨4, ["2*b - 1", "5 - c^2", "a^1 - d^2"], false⟩) ∧
    "5 - c^2" ∈ ["2*b - 1", "5 - c^2", "a^1 - d^2"] := by
  refine ⟨?_, by decide⟩
  simp [sqrt, q, RationalValue, next_var, Value.pow,
    Value.non_integer_valued_operation, maybe_float_initial, i, Value.var,
    Value.initial, Value.floatInitial, Value.ratND, Value.initial_as_int,
    Value.maybe_int, Value.float_initial_as_float, Value.str,
    Except.map, Except.bind]
  decide

/-- **C4** (amended).  With the witness toggle disabled, `sqrt` on an
unknown with integer sample 5 appends three equations: the governing
equation of the fresh rational exponent 1/2, the secondary sample equation
`5 - <w>^2` for a fresh sample unknown `w`, and the main equation
`<v>^1 - <result>^2`; the result's sample is the fresh unknown `w`, not a
literal. -/
theorem claim_C4 (k : Nat) (s : EPState)
    (htog : s.computeFloatInitial = false) :
    sqrt (Value.mk (some k) (some (.inl 5)) none none) s =
      (.ok (Value.mk (some (s.currentVar + 2))
          (some (.inr (Value.mk (some (s.currentVar + 1)) none none none)))
          none none),
        { s with
          currentVar := s.currentVar + 3,
          equations := s.equations ++
            [toString (2 : Int) ++ "*" ++ nameOf s.currentVar ++ " - " ++
               toString (1 : Int),
             toString (5 : Int) ++ " - " ++ nameOf (s.currentVar + 1) ++
               "^" ++ toString (2 : Int),
             nameOf k ++ "^" ++ toString (1 : Int) ++ " - " ++
               nameOf (s.currentVar + 2) ++ "^" ++ toString (2 : Int)] }) := by
  simp [sqrt, q, RationalValue, next_var, Value.pow,
    Value.non_integer_valued_operation, maybe_float_initial, i, Value.var,
    Value.initial, Value.floatInitial, Value.ratND, Value.initial_as_int,
    Value.maybe_int, Value.float_initial_as_float, htog, str_unknown,
    str_lit, Except.map, Except.bind]

/-- Witness for `claim_C4` at `k = 0` and the toggle-off state `⟨1, [], _⟩`
(so the unknown is `a` and the three fresh unknowns are `b`, `c`, `d`). -/
theorem claim_C4_witness :
    (⟨1, [], false⟩ : EPState).computeFloatInitial = false ∧
    sqrt (Value.mk (some 0) (some (.inl 5)) none none) ⟨1, [], false⟩ =
      (.ok (Value.mk (some 3)
          (some (.inr (Value.mk (some 2) none none none))) none none),
        { currentVar := 4,
          equations := ([] : List String) ++
            [toString (2 : Int) ++ "*" ++ nameOf 1 ++ " - " ++
               toString (1 : Int),
             toString (5 : Int) ++ " - " ++ nameOf 2 ++ "^" ++
               toString (2 : Int),
             nameOf 0 ++ "^" ++ toString (1 : Int) ++ " - " ++ nameOf 3 ++
               "^" ++ toString (2 : Int)],
          computeFloatInitial := false }) :=
  ⟨rfl, claim_C4 0 ⟨1, [], false⟩ rfl⟩

/-- **C5** (refuted as stated).  A `Line.contains` call whose dot-product
value is a *literal* with sample 3 still appends that sample's rendering:
the run appends `3` twice (the expression and its sample), although the
sample is not a symbolic `Value`, so the sample text is not appended
"exactly when the sample is symbolic". -/
theorem claim_C5_counterexample :
    Line.contains ⟨⟨litV 0, litV 0⟩, ⟨litV 1, litV 0⟩⟩ ⟨litV 3, litV 4⟩
        ⟨0, [], false⟩ =
      (.ok (), ⟨0, ["3", "3"], false⟩) ∧
    (["3", "3"] : List String) ≠ ["3"] := by
  refine ⟨?_, by decide⟩
  simp [Line.contains, Point.sub, Vector.dot, Value.sub, Value.mul, Value.add,
    Value.integer_valued_binary_operation, elevate, Value.init, litV,
    maybe_float_initial, i, Value.var, Value.initial, Value.floatInitial,
    Value.initial_as_int, next_var, Value.maybe_int, Value.str, strInitial]
  decide

/-- **C5** (amended).  `Line.contains(p)` appends the dot-product expression
`(p − origin)·normal` as an equation and additionally appends the rendering
of that value's sample exactly when the sample is *present* — whether the
sample is a symbolic `Value` or a literal integer (the source has no
integer-literal check here, unlike `is_zero`). -/
theorem claim_C5 (l : Line) (p : Point) (s s1 s2 : EPState) (d1 : Vector)
    (v : Value) (hsub : Point.sub p l.o s = (.ok d1, s1))
    (hdot : Vector.dot d1 l.n s1 = (.ok v, s2)) :
    Line.contains l p s =
      (.ok (),
        { s2 with
          equations := s2.equations ++ [v.str] ++
            (match v.initial with
             | none => []
             | some ini => [strInitial (some ini)]) }) := by
  rw [Line.contains, hsub]
  dsimp only
  rw [hdot]
  dsimp only
  cases hv : v.initial with
  | none => simp [hv]
  | some ini => simp [hv]

/-- Witness for `claim_C5`: a concrete run with literal components, with
both hypotheses discharged on concrete states. -/
theorem claim_C5_witness :
    Line.contains ⟨⟨litV 0, litV 0⟩, ⟨litV 1, litV 0⟩⟩ ⟨litV 4, litV 4⟩
        ⟨0, [], false⟩ =
      (.ok (),
        { currentVar := 0,
          equations := ([] : List String) ++ [(litV 4).str] ++
            [strInitial (some (.inl 4))],
          computeFloatInitial := false }) := by
  refine claim_C5 _ _ ⟨0, [], false⟩ ⟨0, [], false⟩ ⟨0, [], false⟩
    ⟨litV 4, litV 4⟩ (litV 4) ?_ ?_ <;>
    simp [Point.sub, Vector.dot, Value.sub, Value.mul, Value.add,
      Value.integer_valued_binary_operation, elevate, Value.init, litV,
      maybe_float_initial, i, Value.var, Value.initial, Value.floatInitial,
      Value.initial_as_int, next_var, Value.maybe_int]

/-- **C6** (refuted as stated).  Two concrete refutations: `is_zero` on the
unknown `a` with an *absent* sample appends two equations (`a` and the text
`None`), although the sample is not a symbolic unknown; and `is_zero` on an
unknown with the non-zero integer sample 3 raises `InconsistentConstant`
instead of appending `a`. -/
theorem claim_C6_counterexample :
    is_zero (Value.mk (some 0) none none none) ⟨1, [], false⟩ =
      (.ok (), ⟨1, ["a", "None"], false⟩) ∧
    is_zero (Value.mk (some 0) (some (.inl 3)) none none) ⟨1, [], false⟩ =
      (.error .inconsistentConstant, ⟨1, [], false⟩) := by
  constructor <;> (simp [is_zero, Value.nonzeroIntSample, Value.var,
    Value.initial, strInitial, Value.str]; try decide)

/-- **C6** (amended).  `is_zero(v)` fails with `InconsistentConstant` and
appends nothing whenever `v`'s sample is a non-zero integer — literal *or*
unknown; a literal otherwise is a no-op; an unknown otherwise appends `v`,
and additionally appends the rendering of its sample exactly when the sample
is not an integer: the sample's own text when it is symbolic, the text
`None` when it is absent. -/
theorem claim_C6 (x : Value) (s : EPState) :
    (∀ n : Int, x.initial = some (.inl n) → n ≠ 0 →
      is_zero x s = (.error .inconsistentConstant, s)) ∧
    (x.var = none → (∀ n : Int, x.initial = some (.inl n) → n = 0) →
      is_zero x s = (.ok (), s)) ∧
    (∀ k, x.var = some k → x.initial = some (.inl 0) →
      is_zero x s = (.ok (), { s with equations := s.equations ++ [x.str] })) ∧
    (∀ k, x.var = some k → x.initial = none →
      is_zero x s =
        (.ok (), { s with equations := s.equations ++ [x.str, "None"] })) ∧
    (∀ k w, x.var = some k → x.initial = some (.inr w) →
      is_zero x s =
        (.ok (), { s with equations := s.equations ++ [x.str, w.str] })) := by
  refine ⟨?_, ?_, ?_, ?_, ?_⟩
  · intro n hn hnz
    simp [is_zero, Value.nonzeroIntSample, hn, hnz]
  · intro hv hz
    cases hi : x.initial with
    | none => simp [is_zero, Value.nonzeroIntSample, hi, hv]
    | some ini =>
      cases ini with
      | inl n =>
        have := hz n hi
        subst this
        simp [is_zero, Value.nonzeroIntSample, hi, hv]
      | inr w => simp [is_zero, Value.nonzeroIntSample, hi, hv]
  · intro k hv hi
    simp [is_zero, Value.nonzeroIntSample, hi, hv]
  · intro k hv hi
    simp [is_zero, Value.nonzeroIntSample, hi, hv, strInitial]
  · intro k w hv hi
    simp [is_zero, Value.nonzeroIntSample, hi, hv, strInitial]

/-- Witness for `claim_C6`: the absent-sample branch applied to the unknown
`a` in a concrete state. -/
theorem claim_C6_witness :
    (Value.mk (some 0) none none none).var = some 0 ∧
    (Value.mk (some 0) none none none).initial = none ∧
    is_zero (Value.mk (some 0) none none none) ⟨1, ["x - 1"], false⟩ =
      (.ok (),
        { currentVar := 1,
          equations := ["x - 1"] ++
            [(Value.mk (some 0) none none none).str, "None"],
          computeFloatInitial := false }) :=
  ⟨rfl, rfl,
    (claim_C6 (Value.mk (some 0) none none none)
      ⟨1, ["x - 1"], false⟩).2.2.2.1 0 rfl rfl⟩

/-- **C7** (refuted as stated).  In `a + b` with `a` the sample-less unknown
`a` and `b` the unknown `b` whose sample is the *literal* 5 (not a symbolic
sample), the re-wrap still fires: the run derives a sample for the result
(the extra equation `a + 5 - c` and the result's non-absent sample witness
it), although the partner's sample is not a symbolic, non-literal Value. -/
theorem claim_C7_counterexample :
    Value.add (unknownV 0) (sampledV 1 5) ⟨2, [], false⟩ =
      (.ok (Value.mk (some 3)
          (some (.inr (Value.mk (some 2) none none none))) none none),
        ⟨4, ["a + 5 - c", "a + b - d"], false⟩) ∧
    (some (Sum.inr (Value.mk (some 2) none none none)) :
      Option (Int ⊕ Value)) ≠ none := by
  refine ⟨?_, by decide⟩
  simp [Value.add, Value.integer_valued_binary_operation, elevate, Value.init,
    unknownV, sampledV, maybe_float_initial, i, Value.var, Value.initial,
    Value.floatInitial, Value.initial_as_int, next_var, Value.maybe_int,
    Value.str]
  decide

/-- **C7** (amended).  In both binary-operation combinators, an operand with
an absent sample is re-wrapped before combination exactly when the partner
*has a sample* (literal or symbolic) *and is itself an unknown* (`var`
present); the rule is applied to both operands in turn, so it is effectively
symmetric.  Observably: with the re-wrap the operation emits a second
(sample-derivation) equation and the result carries a sample; in the
no-re-wrap situations (partner sample-less, or partner a literal — even
though a literal always has a sample) exactly one equation is emitted and
the result's sample is absent. -/
theorem claim_C7 (eqT : Value → Value → Value → EPState → Except Err String)
    (v : Int → Int → Int) (vf : FloatV → FloatV → Except Err FloatV)
    (s : EPState) (k1 k2 : Nat) (m : Int)
    (htog : s.computeFloatInitial = false)
    (hE : ∀ a b c st, ∃ e, eqT a b c st = .ok e) :
    ((∃ r s', Value.integer_valued_binary_operation eqT v vf
        (unknownV k1) (sampledV k2 m) s = (.ok r, s') ∧
      s'.equations.length = s.equations.length + 2 ∧ r.initial ≠ none) ∧
    (∃ r s', Value.integer_valued_binary_operation eqT v vf
        (sampledV k1 m) (unknownV k2) s = (.ok r, s') ∧
      s'.equations.length = s.equations.length + 2 ∧ r.initial ≠ none) ∧
    (∃ r s', Value.integer_valued_binary_operation eqT v vf
        (unknownV k1) (unknownV k2) s = (.ok r, s') ∧
      s'.equations.length = s.equations.length + 1 ∧ r.initial = none) ∧
    (∃ r s', Value.integer_valued_binary_operation eqT v vf
        (unknownV k1) (litV m) s = (.ok r, s') ∧
      s'.equations.length = s.equations.length + 1 ∧ r.initial = none) ∧
    (∃ r s', Value.integer_valued_binary_operation eqT v vf
        (litV m) (unknownV k2) s = (.ok r, s') ∧
      s'.equations.length = s.equations.length + 1 ∧ r.initial = none)) ∧
    ((∃ r s', Value.non_integer_valued_binary_operation eqT vf
        (unknownV k1) (sampledV k2 m) s = (.ok r, s') ∧
      s'.equations.length = s.equations.length + 2 ∧ r.initial ≠ none) ∧
    (∃ r s', Value.non_integer_valued_binary_operation eqT vf
        (sampledV k1 m) (unknownV k2) s = (.ok r, s') ∧
      s'.equations.length = s.equations.length + 2 ∧ r.initial ≠ none) ∧
    (∃ r s', Value.non_integer_valued_binary_operation eqT vf
        (unknownV k1) (unknownV k2) s = (.ok r, s') ∧
      s'.equations.length = s.equations.length + 1 ∧ r.initial = none) ∧
    (∃ r s', Value.non_integer_valued_binary_operation eqT vf
        (unknownV k1) (litV m) s = (.ok r, s') ∧
      s'.equations.length = s.equations.length + 1 ∧ r.initial = none) ∧
    (∃ r s', Value.non_integer_valued_binary_operation eqT vf
        (litV m) (unknownV k2) s = (.ok r, s') ∧
      s'.equations.length = s.equations.length + 1 ∧ r.initial = none)) := by
  refine ⟨⟨?_, ?_, ?_, ?_, ?_⟩, ⟨?_, ?_, ?_, ?_, ?_⟩⟩
  · obtain ⟨e1, he1⟩ := hE (Value.mk (some k1) none none none)
      (Value.mk none (some (.inl m)) none none)
      (Value.mk (some s.currentVar) none none none)
      ⟨s.currentVar + 1, s.equations, false⟩
    obtain ⟨e2, he2⟩ := hE (Value.mk (some k1) none none none)
      (Value.mk (some k2) (some (.inl m)) none none)
      (Value.mk (some (s.currentVar + 1))
        (some (.inr (Value.mk (some s.currentVar) none none none))) none none)
      ⟨s.currentVar + 1 + 1, s.equations ++ [e1], false⟩
    simp [Value.integer_valued_binary_operation, elevate, Value.init,
      unknownV, sampledV, litV, maybe_float_initial, i, Value.var,
      Value.initial, Value.floatInitial, Value.initial_as_int, next_var,
      Value.maybe_int, htog, he1, he2]
    refine ⟨_, _, ⟨rfl, rfl⟩, by simp, by simp⟩
  · obtain ⟨e1, he1⟩ := hE (Value.mk none (some (.inl m)) none none)
      (Value.mk (some k2) none none none)
      (Value.mk (some s.currentVar) none none none)
      ⟨s.currentVar + 1, s.equations, false⟩
    obtain ⟨e2, he2⟩ := hE (Value.mk (some k1) (some (.inl m)) none none)
      (Value.mk (some k2) none none none)
      (Value.mk (some (s.currentVar + 1))
        (some (.inr (Value.mk (some s.currentVar) none none none))) none none)
      ⟨s.currentVar + 1 + 1, s.equations ++ [e1], false⟩
    simp [Value.integer_valued_binary_operation, elevate, Value.init,
      unknownV, sampledV, litV, maybe_float_initial, i, Value.var,
      Value.initial, Value.floatInitial, Value.initial_as_int, next_var,
      Value.maybe_int, htog, he1, he2]
    refine ⟨_, _, ⟨rfl, rfl⟩, by simp, by simp⟩
  · obtain ⟨e1, he1⟩ := hE (Value.mk (some k1) none none none)
      (Value.mk (some k2) none none none)
      (Value.mk (some s.currentVar) none none none)
      ⟨s.currentVar + 1, s.equations, false⟩
    simp [Value.integer_valued_binary_operation, elevate, Value.init,
      unknownV, maybe_float_initial, i, Value.var, Value.initial,
      Value.floatInitial, Value.initial_as_int, next_var, Value.maybe_int,
      htog, he1]
    refine ⟨_, _, ⟨rfl, rfl⟩, by simp, by simp⟩
  · obtain ⟨e1, he1⟩ := hE (Value.mk (some k1) none none none)
      (Value.mk none (some (.inl m)) none none)
      (Value.mk (some s.currentVar) none none none)
      ⟨s.currentVar + 1, s.equations, false⟩
    simp [Value.integer_valued_binary_operation, elevate, Value.init,
      unknownV, litV, maybe_float_initial, i, Value.var, Value.initial,
      Value.floatInitial, Value.initial_as_int, next_var, Value.maybe_int,
      htog, he1]
    refine ⟨_, _, ⟨rfl, rfl⟩, by simp, by simp⟩
  · obtain ⟨e1, he1⟩ := hE (Value.mk none (some (.inl m)) none none)
      (Value.mk (some k2) none none none)
      (Value.mk (some s.currentVar) none none none)
      ⟨s.currentVar + 1, s.equations, false⟩
    simp [Value.integer_valued_binary_operation, elevate, Value.init,
      unknownV, litV, maybe_float_initial, i, Value.var, Value.initial,
      Value.floatInitial, Value.initial_as_int, next_var, Value.maybe_int,
      htog, he1]
    refine ⟨_, _, ⟨rfl, rfl⟩, by simp, by simp⟩
  · obtain ⟨e1, he1⟩ := hE (Value.mk (some k1) none none none)
      (Value.mk none (some (.inl m)) none none)
      (Value.mk (some s.currentVar) none none none)
      ⟨s.currentVar + 1, s.equations, false⟩
    obtain ⟨e2, he2⟩ := hE
      (Value.mk (some k1) (some (.inr (Value.mk (some k1) none none none)))
        none none)
      (Value.mk (some k2) (some (.inl m)) none none)
      (Value.mk (some (s.currentVar + 1))
        (some (.inr (Value.mk (some s.currentVar) none none none))) none none)
      ⟨s.currentVar + 1 + 1, s.equations ++ [e1], false⟩
    simp [Value.non_integer_valued_binary_operation, elevate, Value.init,
      unknownV, sampledV, litV, maybe_float_initial, i, Value.var,
      Value.initial, Value.floatInitial, Value.initial_as_int, next_var,
      Value.maybe_int, htog, he1, he2]
    refine ⟨_, _, ⟨rfl, rfl⟩, by simp, by simp⟩
  · obtain ⟨e1, he1⟩ := hE (Value.mk none (some (.inl m)) none none)
      (Value.mk (some k2) none none none)
      (Value.mk (some s.currentVar) none none none)
      ⟨s.currentVar + 1, s.equations, false⟩
    obtain ⟨e2, he2⟩ := hE (Value.mk (some k1) (some (.inl m)) none none)
      (Value.mk (some k2) (some (.inr (Value.mk (some k2) none none none)))
        none none)
      (Value.mk (some (s.currentVar + 1))
        (some (.inr (Value.mk (some s.currentVar) none none none))) none none)
      ⟨s.currentVar + 1 + 1, s.equations ++ [e1], false⟩
    simp [Value.non_integer_valued_binary_operation, elevate, Value.init,
      unknownV, sampledV, litV, maybe_float_initial, i, Value.var,
      Value.initial, Value.floatInitial, Value.initial_as_int, next_var,
      Value.maybe_int, htog, he1, he2]
    refine ⟨_, _, ⟨rfl, rfl⟩, by simp, by simp⟩
  · obtain ⟨e1, he1⟩ := hE (Value.mk (some k1) none none none)
      (Value.mk (some k2) none none none)
      (Value.mk (some s.currentVar) none none none)
      ⟨s.currentVar + 1, s.equations, false⟩
    simp [Value.non_integer_valued_binary_operation, elevate, Value.init,
      unknownV, maybe_float_initial, i, Value.var, Value.initial,
      Value.floatInitial, Value.initial_as_int, next_var, Value.maybe_int,
      htog, he1]
    refine ⟨_, _, ⟨rfl, rfl⟩, by simp, by simp⟩
  · obtain ⟨e1, he1⟩ := hE (Value.mk (some k1) none none none)
      (Value.mk none (some (.inl m)) none none)
      (Value.mk (some s.currentVar) none none none)
      ⟨s.currentVar + 1, s.equations, false⟩
    simp [Value.non_integer_valued_binary_operation, elevate, Value.init,
      unknownV, litV, maybe_float_initial, i, Value.var, Value.initial,
      Value.floatInitial, Value.initial_as_int, next_var, Value.maybe_int,
      htog, he1]
    refine ⟨_, _, ⟨rfl, rfl⟩, by simp, by simp⟩
  · obtain ⟨e1, he1⟩ := hE (Value.mk none (some (.inl m)) none none)
      (Value.mk (some k2) none none none)
      (Value.mk (some s.currentVar) none none none)
      ⟨s.currentVar + 1, s.equations, false⟩
    simp [Value.non_integer_valued_binary_operation, elevate, Value.init,
      unknownV, litV, maybe_float_initial, i, Value.var, Value.initial,
      Value.floatInitial, Value.initial_as_int, next_var, Value.maybe_int,
      htog, he1]
    refine ⟨_, _, ⟨rfl, rfl⟩, by simp, by simp⟩

/-- Witness for `claim_C7`, projected to its first conjunct, at a constant
equation template, exact transform `+`, the toggle-off empty state, unknowns
0 and 1 and sample 5. -/
theorem claim_C7_witness :
    ∃ r s', Value.integer_valued_binary_operation
        (fun _ _ _ _ => (.ok "E" : Except Err String))
        (fun a b => a + b) (fun a b => .ok (.fadd a b))
        (unknownV 0) (sampledV 1 5) ⟨0, [], false⟩ = (.ok r, s') ∧
      s'.equations.length = ([] : List String).length + 2 ∧
      r.initial ≠ none :=
  (claim_C7 (fun _ _ _ _ => .ok "E") (fun a b => a + b)
    (fun a b => .ok (.fadd a b)) ⟨0, [], false⟩ 0 1 5 rfl
    (fun _ _ _ _ => ⟨"E", rfl⟩)).1.1

/-! ### Allocation/equation pairing infrastructure (claims C2 and C8) -/

/-- The display name of unknown `k` occurs in the equation text `e`. -/
def refsName (k : Nat) (e : String) : Prop :=
  (nameOf k).data <:+: e.data

/-- `paired cv E`: the equations of `E`, in order, reference the unknowns
`cv`, `cv + 1`, …, `cv + E.length - 1` — each allocation is accompanied by
its own equation. -/
def paired (cv : Nat) : List String → Prop
  | [] => True
  | e :: rest => refsName cv e ∧ paired (cv + 1) rest

theorem paired_append {A B : List String} {cv : Nat}
    (hA : paired cv A) (hB : paired (cv + A.length) B) :
    paired cv (A ++ B) := by
  induction A generalizing cv with
  | nil => simpa using hB
  | cons e rest ih =>
    refine ⟨hA.1, ih hA.2 ?_⟩
    have h2 : cv + (e :: rest).length = cv + 1 + rest.length := by
      simp
      omega
    rw [h2] at hB
    exact hB

/-- Template hypothesis (unary combinators): an equation text produced by
the template references the display name of the result's unknown. -/
def eqTRefs1 (eqT : Value → Value → EPState → Except Err String) : Prop :=
  ∀ a b st e, eqT a b st = .ok e → ∀ kk, b.var = some kk → refsName kk e

/-- Template hypothesis (binary combinators). -/
def eqTRefs2 (eqT : Value → Value → Value → EPState → Except Err String) :
    Prop :=
  ∀ a b c st e, eqT a b c st = .ok e → ∀ kk, c.var = some kk → refsName kk e

/-- Full characterization of a successful `non_integer_valued_operation`
run: some block `E` of sample-derivation equations is appended, then exactly
one defining equation `e` produced by the template on the result; the
counter advances once per appended equation; the result is the
last-allocated unknown; and each appended equation references its own
allocated unknown. -/
theorem nivo_spec (eqT : Value → Value → EPState → Except Err String)
    (vf : FloatV → Except Err FloatV) (hE : eqTRefs1 eqT) :
    ∀ (self : Value) (s : EPState) (r : Value) (s' : EPState),
      Value.non_integer_valued_operation eqT vf self s = (.ok r, s') →
      ∃ (E : List String) (e : String) (ini : Option (Int ⊕ Value))
        (fo : Option FloatV),
        s'.equations = s.equations ++ E ++ [e] ∧
        s'.currentVar = s.currentVar + E.length + 1 ∧
        s'.computeFloatInitial = s.computeFloatInitial ∧
        r = Value.mk (some (s.currentVar + E.length)) ini fo none ∧
        eqT self r ⟨s.currentVar + E.length + 1, s.equations ++ E,
          s.computeFloatInitial⟩ = .ok e ∧
        paired s.currentVar (E ++ [e]) := by
  suffices H : ∀ (N : Nat) (self : Value), self.meas ≤ N →
      ∀ s r s', Value.non_integer_valued_operation eqT vf self s = (.ok r, s') →
      ∃ E e ini fo,
        s'.equations = s.equations ++ E ++ [e] ∧
        s'.currentVar = s.currentVar + E.length + 1 ∧
        s'.computeFloatInitial = s.computeFloatInitial ∧
        r = Value.mk (some (s.currentVar + E.length)) ini fo none ∧
        eqT self r ⟨s.currentVar + E.length + 1, s.equations ++ E,
          s.computeFloatInitial⟩ = .ok e ∧
        paired s.currentVar (E ++ [e]) by
    exact fun self s r s' h => H self.meas self le_rfl s r s' h
  intro N
  induction N using Nat.strong_induction_on with
  | _ N ih =>
  intro self hm s r s' h
  rw [Value.non_integer_valued_operation] at h
  split at h
  · exact absurd h (by simp)
  · rename_i x1 fo hmf
    split at h
    · exact absurd h (by simp)
    · rename_i x2 ini s1 hinner
      simp only [next_var] at h
      split at h
      · exact absurd h (by simp)
      · rename_i eqs heqT
        simp only [Prod.mk.injEq, Except.ok.injEq] at h
        obtain ⟨hr, hs⟩ := h
        subst hr
        subst hs
        split at hinner
        · -- self.var = none: no sample recursion, E = []
          rename_i hv
          simp only [Prod.mk.injEq, Except.ok.injEq] at hinner
          obtain ⟨hini, hs1⟩ := hinner
          subst hini
          subst hs1
          refine ⟨[], eqs, none, fo, by simp, by simp, rfl, by simp,
            by simpa using heqT, ?_⟩
          simp only [List.nil_append, paired]
          exact ⟨hE _ _ _ _ heqT s.currentVar rfl, trivial⟩
        · -- self.var present, sample absent: E = []
          rename_i val hv hi
          simp only [Prod.mk.injEq, Except.ok.injEq] at hinner
          obtain ⟨hini, hs1⟩ := hinner
          subst hini
          subst hs1
          refine ⟨[], eqs, none, fo, by simp, by simp, rfl, by simp,
            by simpa using heqT, ?_⟩
          simp only [List.nil_append, paired]
          exact ⟨hE _ _ _ _ heqT s.currentVar rfl, trivial⟩
        · -- recursive sample derivation
          rename_i val iniv hv hi
          split at hinner
          · exact absurd hinner (by simp)
          · rename_i rr s1rec hrec
            split at hinner
            · exact absurd hinner (by simp)
            · rename_i x hmi
              simp only [Prod.mk.injEq, Except.ok.injEq] at hinner
              obtain ⟨hini, hs1⟩ := hinner
              subst hini
              subst hs1
              have hlt : (i iniv s).meas < self.meas :=
                meas_i_lt iniv self s val hv hi
              obtain ⟨E1, e1, ini1, fo1, hB1, hB2, hB3, hB4, hB5, hB6⟩ :=
                ih ((i iniv s).meas) (lt_of_lt_of_le hlt hm) (i iniv s)
                  le_rfl s rr s1rec hrec
              refine ⟨E1 ++ [e1], eqs, some x, fo, ?_, ?_, ?_, ?_, ?_, ?_⟩
              · show s1rec.equations ++ [eqs] = _
                rw [hB1]
                simp [List.append_assoc]
              · show s1rec.currentVar + 1 = _
                rw [hB2]
                simp only [List.length_append, List.length_cons,
                  List.length_nil]
                omega
              · exact hB3
              · have : s.currentVar + (E1 ++ [e1]).length = s1rec.currentVar := by
                  rw [hB2]
                  simp only [List.length_append, List.length_cons,
                    List.length_nil]
                  omega
                rw [this]
              · have hlen2 : s1rec.currentVar =
                    s.currentVar + (E1 ++ [e1]).length := by
                  rw [hB2]
                  simp only [List.length_append, List.length_cons,
                    List.length_nil]
                  omega
                nth_rewrite 2 [hB2] at heqT
                rw [hB1, hB3] at heqT
                simpa [List.append_assoc, Nat.add_assoc] using heqT
              · refine paired_append hB6 ?_
                have hrefs := hE _ _ _ _ heqT s1rec.currentVar rfl
                have hlen : s.currentVar + (E1 ++ [e1]).length = s1rec.currentVar := by
                  rw [hB2]
                  simp only [List.length_append, List.length_cons,
                    List.length_nil]
                  omega
                rw [hlen]
                exact ⟨hrefs, trivial⟩

/-- Pairing characterization of a successful `integer_valued_operation` run:
the appended equations (none at all in the literal-fold case) are in
one-to-one correspondence with the allocated unknowns, each referencing its
own unknown. -/
theorem ivo_spec (eqT : Value → Value → EPState → Except Err String)
    (v : Int → Int) (vf : FloatV → Except Err FloatV) (hE : eqTRefs1 eqT) :
    ∀ (self : Value) (s : EPState) (r : Value) (s' : EPState),
      Value.integer_valued_operation eqT v vf self s = (.ok r, s') →
      ∃ E : List String,
        s'.equations = s.equations ++ E ∧
        s'.currentVar = s.currentVar + E.length ∧
        s'.computeFloatInitial = s.computeFloatInitial ∧
        paired s.currentVar E := by
  suffices H : ∀ (N : Nat) (self : Value), self.meas ≤ N →
      ∀ s r s', Value.integer_valued_operation eqT v vf self s = (.ok r, s') →
      ∃ E : List String,
        s'.equations = s.equations ++ E ∧
        s'.currentVar = s.currentVar + E.length ∧
        s'.computeFloatInitial = s.computeFloatInitial ∧
        paired s.currentVar E by
    exact fun self s r s' h => H self.meas self le_rfl s r s' h
  intro N
  induction N using Nat.strong_induction_on with
  | _ N ih =>
  intro self hm s r s' h
  rw [Value.integer_valued_operation] at h
  split at h
  · exact absurd h (by simp)
  · rename_i x1 fo hmf
    split at h
    · -- literal fold: no allocation, no equation
      rename_i hv
      split at h
      · exact absurd h (by simp)
      · rename_i n hn
        simp only [Prod.mk.injEq, Except.ok.injEq] at h
        obtain ⟨hr, hs⟩ := h
        subst hs
        exact ⟨[], by simp, by simp, rfl, trivial⟩
    · rename_i val hv
      split at h
      · -- unknown without sample: one allocation, one equation
        rename_i hi
        simp only [next_var] at h
        split at h
        · exact absurd h (by simp)
        · rename_i eqs heqT
          simp only [Prod.mk.injEq, Except.ok.injEq] at h
          obtain ⟨hr, hs⟩ := h
          subst hs
          exact ⟨[eqs], by simp, by simp, rfl,
            ⟨hE _ _ _ _ heqT s.currentVar rfl, trivial⟩⟩
      · -- sample recursion, then one allocation and one equation
        rename_i ini hi
        split at h
        · exact absurd h (by simp)
        · rename_i rr s1 hrec
          split at h
          · exact absurd h (by simp)
          · rename_i x hmi
            simp only [next_var] at h
            split at h
            · exact absurd h (by simp)
            · rename_i eqs heqT
              simp only [Prod.mk.injEq, Except.ok.injEq] at h
              obtain ⟨hr, hs⟩ := h
              subst hs
              have hlt : (i ini s).meas < self.meas :=
                meas_i_lt ini self s val hv hi
              obtain ⟨E1, hB1, hB2, hB3, hB6⟩ :=
                ih ((i ini s).meas) (lt_of_lt_of_le hlt hm) (i ini s)
                  le_rfl s rr s1 hrec
              refine ⟨E1 ++ [eqs], ?_, ?_, hB3, ?_⟩
              · show s1.equations ++ [eqs] = _
                rw [hB1]
                simp [List.append_assoc]
              · show s1.currentVar + 1 = _
                rw [hB2]
                simp only [List.length_append, List.length_cons,
                  List.length_nil]
                omega
              · refine paired_append hB6 ?_
                have hrefs := hE _ _ _ _ heqT s1.currentVar rfl
                rw [show s.currentVar + E1.length = s1.currentVar from
                  hB2.symm]
                exact ⟨hrefs, trivial⟩

/-- Pairing characterization of a successful `integer_valued_binary_operation`
run. -/
theorem ivbo_spec (eqT : Value → Value → Value → EPState → Except Err String)
    (v : Int → Int → Int) (vf : FloatV → FloatV → Except Err FloatV)
    (hE : eqTRefs2 eqT) :
    ∀ (self other : Value) (s : EPState) (r : Value) (s' : EPState),
      Value.integer_valued_binary_operation eqT v vf self other s =
        (.ok r, s') →
      ∃ E : List String,
        s'.equations = s.equations ++ E ∧
        s'.currentVar = s.currentVar + E.length ∧
        s'.computeFloatInitial = s.computeFloatInitial ∧
        paired s.currentVar E := by
  suffices H : ∀ (N : Nat) (self other : Value),
      self.meas + other.meas ≤ N →
      ∀ s r s', Value.integer_valued_binary_operation eqT v vf self other s =
        (.ok r, s') →
      ∃ E : List String,
        s'.equations = s.equations ++ E ∧
        s'.currentVar = s.currentVar + E.length ∧
        s'.computeFloatInitial = s.computeFloatInitial ∧
        paired s.currentVar E by
    exact fun self other s r s' h =>
      H (self.meas + other.meas) self other le_rfl s r s' h
  intro N
  induction N using Nat.strong_induction_on with
  | _ N ih =>
  intro self other hm s r s' h
  rw [Value.integer_valued_binary_operation] at h
  split at h
  · exact absurd h (by simp)
  · rename_i x1 fo hmf
    split at h
    · -- two literals: fold, nothing appended
      rename_i hb
      split at h
      · exact absurd h (by simp)
      · rename_i a ha
        split at h
        · exact absurd h (by simp)
        · rename_i b hbint
          simp only [Prod.mk.injEq, Except.ok.injEq] at h
          obtain ⟨hr, hs⟩ := h
          subst hs
          exact ⟨[], by simp, by simp, rfl, trivial⟩
    · rename_i hb
      split at h
      · exact absurd h (by simp)
      · rename_i arg1 he1
        split at h
        · exact absurd h (by simp)
        · rename_i arg2 he2
          split at h
          · exact absurd h (by simp)
          · rename_i x2 ini s1 hinner
            simp only [next_var] at h
            split at h
            · exact absurd h (by simp)
            · rename_i eqs heqT
              simp only [Prod.mk.injEq, Except.ok.injEq] at h
              obtain ⟨hr, hs⟩ := h
              subst hs
              -- analyze the sample computation
              split at hinner
              · -- arg1 has no sample
                simp only [Prod.mk.injEq, Except.ok.injEq] at hinner
                obtain ⟨hini, hs1⟩ := hinner
                subst hs1
                exact ⟨[eqs], by simp, by simp, rfl,
                  ⟨hE _ _ _ _ _ heqT s.currentVar rfl, trivial⟩⟩
              · -- arg2 has no sample
                simp only [Prod.mk.injEq, Except.ok.injEq] at hinner
                obtain ⟨hini, hs1⟩ := hinner
                subst hs1
                exact ⟨[eqs], by simp, by simp, rfl,
                  ⟨hE _ _ _ _ _ heqT s.currentVar rfl, trivial⟩⟩
              · -- both samples present: recursion
                rename_i x1v x2v h1 h2
                split at hinner
                · exact absurd hinner (by simp)
                · rename_i rr s1rec hrec
                  split at hinner
                  · exact absurd hinner (by simp)
                  · rename_i x hmi
                    simp only [Prod.mk.injEq, Except.ok.injEq] at hinner
                    obtain ⟨hini, hs1⟩ := hinner
                    subst hs1
                    have hbelev : ¬(arg1.var = none ∧ arg2.var = none) := by
                      rw [elevate_var self other arg1 he1,
                        elevate_var other arg1 arg2 he2]
                      exact fun hc => hb ⟨hc.1, hc.2⟩
                    have hlt :
                        (i x1v s).meas + (i x2v s).meas <
                          self.meas + other.meas :=
                      meas_rec_lt self other arg1 arg2 x1v x2v s s hbelev
                        he1 he2 h1 h2
                    obtain ⟨E1, hB1, hB2, hB3, hB6⟩ :=
                      ih ((i x1v s).meas + (i x2v s).meas)
                        (lt_of_lt_of_le hlt hm) (i x1v s) (i x2v s)
                        le_rfl s rr s1rec hrec
                    refine ⟨E1 ++ [eqs], ?_, ?_, hB3, ?_⟩
                    · show s1rec.equations ++ [eqs] = _
                      rw [hB1]
                      simp [List.append_assoc]
                    · show s1rec.currentVar + 1 = _
                      rw [hB2]
                      simp only [List.length_append, List.length_cons,
                        List.length_nil]
                      omega
                    · refine paired_append hB6 ?_
                      have hrefs := hE _ _ _ _ _ heqT s1rec.currentVar rfl
                      rw [show s.currentVar + E1.length = s1rec.currentVar
                        from hB2.symm]
                      exact ⟨hrefs, trivial⟩

/-- Pairing characterization of a successful
`non_integer_valued_binary_operation` run. -/
theorem nivbo_spec
    (eqT : Value → Value → Value → EPState → Except Err String)
    (vf : FloatV → FloatV → Except Err FloatV) (hE : eqTRefs2 eqT) :
    ∀ (self other : Value) (s : EPState) (r : Value) (s' : EPState),
      Value.non_integer_valued_binary_operation eqT vf self other s =
        (.ok r, s') →
      ∃ E : List String,
        s'.equations = s.equations ++ E ∧
        s'.currentVar = s.currentVar + E.length ∧
        s'.computeFloatInitial = s.computeFloatInitial ∧
        paired s.currentVar E := by
  suffices H : ∀ (N : Nat) (self other : Value),
      self.meas + other.meas ≤ N →
      ∀ s r s',
        Value.non_integer_valued_binary_operation eqT vf self other s =
          (.ok r, s') →
      ∃ E : List String,
        s'.equations = s.equations ++ E ∧
        s'.currentVar = s.currentVar + E.length ∧
        s'.computeFloatInitial = s.computeFloatInitial ∧
        paired s.currentVar E by
    exact fun self other s r s' h =>
      H (self.meas + other.meas) self other le_rfl s r s' h
  intro N
  induction N using Nat.strong_induction_on with
  | _ N ih =>
  intro self other hm s r s' h
  rw [Value.non_integer_valued_binary_operation] at h
  split at h
  · exact absurd h (by simp)
  · rename_i x1 fo hmf
    split at h
    · exact absurd h (by simp)
    · rename_i arg1 he1
      split at h
      · exact absurd h (by simp)
      · rename_i arg2 he2
        split at h
        · exact absurd h (by simp)
        · rename_i x2 ini s1 hinner
          simp only [next_var] at h
          split at h
          · exact absurd h (by simp)
          · rename_i eqs heqT
            simp only [Prod.mk.injEq, Except.ok.injEq] at h
            obtain ⟨hr, hs⟩ := h
            subst hs
            split at hinner
            · -- arg1 has no sample
              simp only [Prod.mk.injEq, Except.ok.injEq] at hinner
              obtain ⟨hini, hs1⟩ := hinner
              subst hs1
              exact ⟨[eqs], by simp, by simp, rfl,
                ⟨hE _ _ _ _ _ heqT s.currentVar rfl, trivial⟩⟩
            · -- arg2 has no sample
              simp only [Prod.mk.injEq, Except.ok.injEq] at hinner
              obtain ⟨hini, hs1⟩ := hinner
              subst hs1
              exact ⟨[eqs], by simp, by simp, rfl,
                ⟨hE _ _ _ _ _ heqT s.currentVar rfl, trivial⟩⟩
            · -- both samples present
              rename_i x1v x2v h1 h2
              split at hinner
              · -- both elevated operands literal: no sample derivation
                simp only [Prod.mk.injEq, Except.ok.injEq] at hinner
                obtain ⟨hini, hs1⟩ := hinner
                subst hs1
                exact ⟨[eqs], by simp, by simp, rfl,
                  ⟨hE _ _ _ _ _ heqT s.currentVar rfl, trivial⟩⟩
              · -- recursion
                rename_i hbelev
                split at hinner
                · exact absurd hinner (by simp)
                · rename_i rr s1rec hrec
                  split at hinner
                  · exact absurd hinner (by simp)
                  · rename_i x hmi
                    simp only [Prod.mk.injEq, Except.ok.injEq] at hinner
                    obtain ⟨hini, hs1⟩ := hinner
                    subst hs1
                    have hlt :
                        (i x1v s).meas + (i x2v s).meas <
                          self.meas + other.meas :=
                      meas_rec_lt self other arg1 arg2 x1v x2v s s hbelev
                        he1 he2 h1 h2
                    obtain ⟨E1, hB1, hB2, hB3, hB6⟩ :=
                      ih ((i x1v s).meas + (i x2v s).meas)
                        (lt_of_lt_of_le hlt hm) (i x1v s) (i x2v s)
                        le_rfl s rr s1rec hrec
                    refine ⟨E1 ++ [eqs], ?_, ?_, hB3, ?_⟩
                    · show s1rec.equations ++ [eqs] = _
                      rw [hB1]
                      simp [List.append_assoc]
                    · show s1rec.currentVar + 1 = _
                      rw [hB2]
                      simp only [List.length_append, List.length_cons,
                        List.length_nil]
                      omega
                    · refine paired_append hB6 ?_
                      have hrefs := hE _ _ _ _ _ heqT s1rec.currentVar rfl
                      rw [show s.currentVar + E1.length = s1rec.currentVar
                        from hB2.symm]
                      exact ⟨hrefs, trivial⟩

theorem str_of_var (b : Value) (kk : Nat) (h : b.var = some kk) :
    b.str = nameOf kk := by
  cases b with
  | mk var ini fi nd =>
    simp only [Value.var] at h
    subst h
    exact str_unknown kk ini fi nd

/-- **C2** (refuted as stated).  `FreePoint(3, 4)` allocates two fresh
unknowns through `new_var` but appends no equation at all: the equation
store is unchanged while the allocator advanced by two. -/
theorem claim_C2_counterexample :
    FreePoint 3 4 ⟨0, [], false⟩ =
      (⟨Value.mk (some 0) (some (.inl 3)) none none,
        Value.mk (some 1) (some (.inl 4)) none none⟩,
       ⟨2, [], false⟩) ∧
    (⟨2, [], false⟩ : EPState).equations = [] := by
  exact ⟨rfl, rfl⟩

/-- **C2** (amended).  Every fresh unknown allocated during an *arithmetic
operation* (any of the four combinators) or a `RationalValue` construction
is accompanied by exactly one newly appended equation whose text contains
that unknown's display name (the i-th new equation references the i-th new
unknown); but the bare fresh-unknown constructor `new_var` — used by
`FreePoint` and `FreeVector` — allocates a fresh unknown and appends no
equation. -/
theorem claim_C2 :
    (∀ (x : Int) (s : EPState),
      (new_var x s).2.equations = s.equations ∧
      (new_var x s).2.currentVar = s.currentVar + 1 ∧
      (new_var x s).1.var = some s.currentVar) ∧
    (∀ (x y : Int) (s : EPState),
      (FreePoint x y s).2.equations = s.equations ∧
      (FreePoint x y s).2.currentVar = s.currentVar + 2) ∧
    (∀ (x y : Int) (s : EPState),
      (FreeVector x y s).2.equations = s.equations ∧
      (FreeVector x y s).2.currentVar = s.currentVar + 2) ∧
    (∀ (n d : Int) (s : EPState) (r : Value) (s' : EPState),
      RationalValue n d s = (.ok r, s') →
      ∃ e, s'.equations = s.equations ++ [e] ∧
        s'.currentVar = s.currentVar + 1 ∧
        refsName s.currentVar e ∧ r.var = some s.currentVar) ∧
    (∀ (eqT : Value → Value → EPState → Except Err String) (v : Int → Int)
      (vf : FloatV → Except Err FloatV) (self : Value) (s : EPState)
      (r : Value) (s' : EPState), eqTRefs1 eqT →
      Value.integer_valued_operation eqT v vf self s = (.ok r, s') →
      ∃ E : List String, s'.equations = s.equations ++ E ∧
        s'.currentVar = s.currentVar + E.length ∧
        paired s.currentVar E) ∧
    (∀ (eqT : Value → Value → EPState → Except Err String)
      (vf : FloatV → Except Err FloatV) (self : Value) (s : EPState)
      (r : Value) (s' : EPState), eqTRefs1 eqT →
      Value.non_integer_valued_operation eqT vf self s = (.ok r, s') →
      ∃ E : List String, s'.equations = s.equations ++ E ∧
        s'.currentVar = s.currentVar + E.length ∧
        paired s.currentVar E) ∧
    (∀ (eqT : Value → Value → Value → EPState → Except Err String)
      (v : Int → Int → Int) (vf : FloatV → FloatV → Except Err FloatV)
      (self other : Value) (s : EPState) (r : Value) (s' : EPState),
      eqTRefs2 eqT →
      Value.integer_valued_binary_operation eqT v vf self other s =
        (.ok r, s') →
      ∃ E : List String, s'.equations = s.equations ++ E ∧
        s'.currentVar = s.currentVar + E.length ∧
        paired s.currentVar E) ∧
    (∀ (eqT : Value → Value → Value → EPState → Except Err String)
      (vf : FloatV → FloatV → Except Err FloatV)
      (self other : Value) (s : EPState) (r : Value) (s' : EPState),
      eqTRefs2 eqT →
      Value.non_integer_valued_binary_operation eqT vf self other s =
        (.ok r, s') →
      ∃ E : List String, s'.equations = s.equations ++ E ∧
        s'.currentVar = s.currentVar + E.length ∧
        paired s.currentVar E) := by
  refine ⟨?_, ?_, ?_, ?_, ?_, ?_, ?_, ?_⟩
  · intro x s
    refine ⟨rfl, rfl, rfl⟩
  · intro x y s
    refine ⟨rfl, rfl⟩
  · intro x y s
    refine ⟨rfl, rfl⟩
  · intro n d s r s' h
    rw [RationalValue] at h
    split at h
    · exact absurd h (by simp)
    · rename_i hd
      simp only [next_var, Prod.mk.injEq, Except.ok.injEq] at h
      obtain ⟨hr, hs⟩ := h
      subst hs
      refine ⟨toString d ++ "*" ++
          (Value.mk (some s.currentVar) none
            (some (.ratDiv n d)) (some (n, d))).str ++ " - " ++ toString n,
        rfl, rfl, ?_, by rw [← hr]; rfl⟩
      rw [str_unknown]
      refine ⟨(toString d ++ "*").data, (" - " ++ toString n).data, ?_⟩
      simp [String.data_append, List.append_assoc]
  · intro eqT v vf self s r s' hE h
    obtain ⟨E, h1, h2, h3, h4⟩ := ivo_spec eqT v vf hE self s r s' h
    exact ⟨E, h1, h2, h4⟩
  · intro eqT vf self s r s' hE h
    obtain ⟨E, e, ini, fo, h1, h2, h3, h4, h5, h6⟩ :=
      nivo_spec eqT vf hE self s r s' h
    refine ⟨E ++ [e], by simpa [List.append_assoc] using h1, ?_, h6⟩
    rw [h2]
    simp only [List.length_append, List.length_cons, List.length_nil]
    omega
  · intro eqT v vf self other s r s' hE h
    obtain ⟨E, h1, h2, h3, h4⟩ := ivbo_spec eqT v vf hE self other s r s' h
    exact ⟨E, h1, h2, h4⟩
  · intro eqT vf self other s r s' hE h
    obtain ⟨E, h1, h2, h3, h4⟩ := nivbo_spec eqT vf hE self other s r s' h
    exact ⟨E, h1, h2, h4⟩

/-- Witness for `claim_C2`: its `RationalValue` conjunct applied to the
concrete run `RationalValue(2, 3)` from the toggle-off empty state. -/
theorem claim_C2_witness :
    ∃ e, (⟨1, ["3*a - 2"], false⟩ : EPState).equations =
        (⟨0, [], false⟩ : EPState).equations ++ [e] ∧
      (⟨1, ["3*a - 2"], false⟩ : EPState).currentVar =
        (⟨0, [], false⟩ : EPState).currentVar + 1 ∧
      refsName (⟨0, [], false⟩ : EPState).currentVar e ∧
      (Value.mk (some 0) none (some (.ratDiv 2 3)) (some (2, 3))).var =
        some (⟨0, [], false⟩ : EPState).currentVar :=
  claim_C2.2.2.2.1 2 3 ⟨0, [], false⟩
    (Value.mk (some 0) none (some (.ratDiv 2 3)) (some (2, 3)))
    ⟨1, ["3*a - 2"], false⟩
    (by simp [RationalValue, next_var, Value.str]; decide)

/-- **C8** (confirmed).  Exponentiation by a `RationalValue` exponent `n/d`
emits, as the final (defining) equation of the operation, the shape
`base^n - result^d` when `n > 0` — with the base power folded to its integer
value when the base is a literal — and `1 - base^(-n)*result^d` when
`n < 0`; exponentiation by an exponent that is neither a `RationalValue` nor
a literal (a symbolic unknown) raises `UnsupportedPower` and changes
nothing. -/
theorem claim_C8 :
    (∀ (self p : Value) (n d : Int) (s : EPState) (r : Value) (s' : EPState),
      p.ratND = some (n, d) → 0 < n →
      Value.pow self p s = (.ok r, s') →
      ∃ E e, s'.equations = s.equations ++ E ++ [e] ∧
        (∀ k, self.var = some k →
          e = nameOf k ++ "^" ++ toString n ++ " - " ++ r.str ++ "^" ++
            toString d) ∧
        (self.var = none → ∃ x, self.initial_as_int = .ok x ∧
          e = toString (x ^ n.toNat) ++ " - " ++ r.str ++ "^" ++
            toString d)) ∧
    (∀ (self p : Value) (n d : Int) (s : EPState) (r : Value) (s' : EPState),
      p.ratND = some (n, d) → n < 0 →
      Value.pow self p s = (.ok r, s') →
      ∃ E e, s'.equations = s.equations ++ E ++ [e] ∧
        (∀ k, self.var = some k →
          e = "1 - " ++ nameOf k ++ "^" ++ toString (-n) ++ "*" ++ r.str ++
            "^" ++ toString d) ∧
        (self.var = none → ∃ x, self.initial_as_int = .ok x ∧
          e = "1 - " ++ toString (x ^ (-n).toNat) ++ "*" ++ r.str ++ "^" ++
            toString d)) ∧
    (∀ (self p : Value) (s : EPState) (k : Nat),
      p.ratND = none → p.var = some k →
      Value.pow self p s = (.error .unsupportedPower, s)) := by
  refine ⟨?_, ?_, ?_⟩
  · intro self p n d s r s' hrat hn h
    simp only [Value.pow, hrat] at h
    rw [if_pos hn] at h
    have hEp : eqTRefs1 (fun a b _ =>
        match a.var with
        | some _ => Except.ok (a.str ++ "^" ++ toString n ++ " - " ++
            b.str ++ "^" ++ toString d)
        | none => Except.map (fun x => toString (x ^ n.toNat) ++ " - " ++
            b.str ++ "^" ++ toString d) a.initial_as_int) := by
      intro a b st e he kk hbk
      simp only [] at he
      rw [str_of_var b kk hbk] at he
      cases hav : a.var with
      | some k0 =>
        rw [hav] at he
        simp only [Except.ok.injEq] at he
        subst he
        refine ⟨(a.str ++ "^" ++ toString n ++ " - ").data,
          ("^" ++ toString d).data, ?_⟩
        simp [refsName, String.data_append, List.append_assoc]
      | none =>
        rw [hav] at he
        cases hx : a.initial_as_int with
        | error err => rw [hx] at he; simp [Except.map] at he
        | ok x =>
          rw [hx] at he
          simp only [Except.map, Except.ok.injEq] at he
          subst he
          refine ⟨(toString (x ^ n.toNat) ++ " - ").data,
            ("^" ++ toString d).data, ?_⟩
          simp [refsName, String.data_append, List.append_assoc]
    obtain ⟨E, e, ini, fo, hB1, hB2, hB3, hB4, hB5, hB6⟩ :=
      nivo_spec _ _ hEp self s r s' h
    refine ⟨E, e, hB1, ?_, ?_⟩
    · intro k hk
      rw [hk] at hB5
      simp only [Except.ok.injEq] at hB5
      rw [← hB5, str_of_var self k hk]
    · intro hk
      rw [hk] at hB5
      cases hx : self.initial_as_int with
      | error err => rw [hx] at hB5; simp [Except.map] at hB5
      | ok x =>
        rw [hx] at hB5
        simp only [Except.map, Except.ok.injEq] at hB5
        exact ⟨x, rfl, hB5.symm⟩
  · intro self p n d s r s' hrat hn h
    simp only [Value.pow, hrat] at h
    rw [if_neg (by omega)] at h
    have hEp : eqTRefs1 (fun a b _ =>
        match a.var with
        | some _ => Except.ok ("1 - " ++ a.str ++ "^" ++ toString (-n) ++
            "*" ++ b.str ++ "^" ++ toString d)
        | none => Except.map (fun x => "1 - " ++ toString (x ^ (-n).toNat) ++
            "*" ++ b.str ++ "^" ++ toString d) a.initial_as_int) := by
      intro a b st e he kk hbk
      simp only [] at he
      rw [str_of_var b kk hbk] at he
      cases hav : a.var with
      | some k0 =>
        rw [hav] at he
        simp only [Except.ok.injEq] at he
        subst he
        refine ⟨("1 - " ++ a.str ++ "^" ++ toString (-n) ++ "*").data,
          ("^" ++ toString d).data, ?_⟩
        simp [refsName, String.data_append, List.append_assoc]
      | none =>
        rw [hav] at he
        cases hx : a.initial_as_int with
        | error err => rw [hx] at he; simp [Except.map] at he
        | ok x =>
          rw [hx] at he
          simp only [Except.map, Except.ok.injEq] at he
          subst he
          refine ⟨("1 - " ++ toString (x ^ (-n).toNat) ++ "*").data,
            ("^" ++ toString d).data, ?_⟩
          simp [refsName, String.data_append, List.append_assoc]
    obtain ⟨E, e, ini, fo, hB1, hB2, hB3, hB4, hB5, hB6⟩ :=
      nivo_spec _ _ hEp self s r s' h
    refine ⟨E, e, hB1, ?_, ?_⟩
    · intro k hk
      rw [hk] at hB5
      simp only [Except.ok.injEq] at hB5
      rw [← hB5, str_of_var self k hk]
    · intro hk
      rw [hk] at hB5
      cases hx : self.initial_as_int with
      | error err => rw [hx] at hB5; simp [Except.map] at hB5
      | ok x =>
        rw [hx] at hB5
        simp only [Except.map, Except.ok.injEq] at hB5
        exact ⟨x, rfl, hB5.symm⟩
  · intro self p s k hrat hk
    simp [Value.pow, hrat, hk]

/-- Witness for `claim_C8`: its rejection conjunct at a literal base and the
symbolic (non-rational) exponent `a`. -/
theorem claim_C8_witness :
    Value.pow (Value.mk none (some (.inl 2)) none none)
        (Value.mk (some 0) none none none) ⟨1, [], false⟩ =
      (.error .unsupportedPower, ⟨1, [], false⟩) :=
  claim_C8.2.2 (Value.mk none (some (.inl 2)) none none)
    (Value.mk (some 0) none none none) ⟨1, [], false⟩ 0 rfl rfl

/-! ### Display-name bijectivity (claim C9) -/

theorem tdc_append : ∀ (fuel n : Nat) (ds : List Char),
    Nat.toDigitsCore 10 fuel n ds = Nat.toDigitsCore 10 fuel n [] ++ ds := by
  intro fuel
  induction fuel with
  | zero => intro n ds; simp [Nat.toDigitsCore]
  | succ fuel ih =>
    intro n ds
    simp only [Nat.toDigitsCore]
    by_cases h : n / 10 = 0
    · simp [h]
    · simp only [h, if_false]
      rw [ih (n / 10) (Nat.digitChar (n % 10) :: ds),
        ih (n / 10) [Nat.digitChar (n % 10)]]
      simp

theorem tdc_fuel : ∀ (n fuel1 fuel2 : Nat), n < fuel1 → n < fuel2 →
    Nat.toDigitsCore 10 fuel1 n [] = Nat.toDigitsCore 10 fuel2 n [] := by
  intro n
  induction n using Nat.strong_induction_on with
  | _ n ih =>
    intro fuel1 fuel2 h1 h2
    match fuel1, fuel2 with
    | f1 + 1, f2 + 1 =>
      simp only [Nat.toDigitsCore]
      by_cases h : n / 10 = 0
      · simp [h]
      · simp only [h, if_false]
        rw [tdc_append f1, tdc_append f2]
        have hn : 0 < n := by
          rcases Nat.eq_zero_or_pos n with h0 | h0
          · exact absurd (by rw [h0]) h
          · exact h0
        have hd : n / 10 < n := Nat.div_lt_self hn (by omega)
        rw [ih (n / 10) hd f1 f2 (by omega) (by omega)]

/-- The digit-list rendering of `n` unfolds as: last decimal digit appended
to the rendering of `n / 10`. -/
theorem toDigits_eq (n : Nat) :
    Nat.toDigits 10 n =
      if n < 10 then [Nat.digitChar n]
      else Nat.toDigits 10 (n / 10) ++ [Nat.digitChar (n % 10)] := by
  rw [Nat.toDigits]
  conv_lhs => rw [Nat.toDigitsCore]
  by_cases h : n < 10
  · have h0 : n / 10 = 0 := Nat.div_eq_of_lt h
    simp [h0, h, Nat.mod_eq_of_lt h]
  · have h0 : n / 10 ≠ 0 := by omega
    simp only [h0, if_false, h]
    rw [tdc_append n]
    have hn : 0 < n := by omega
    rw [tdc_fuel (n / 10) n (n / 10 + 1) (Nat.div_lt_self hn (by omega))
      (Nat.lt_succ_self _)]
    rfl

theorem toDigits_ne_nil (n : Nat) : Nat.toDigits 10 n ≠ [] := by
  rw [toDigits_eq]
  split <;> simp

theorem digitChar_toNat (a : Nat) (h : a < 10) :
    (Nat.digitChar a).toNat = a + 48 := by
  interval_cases a <;> rfl

theorem digitChar_inj (a b : Nat) (ha : a < 10) (hb : b < 10)
    (h : Nat.digitChar a = Nat.digitChar b) : a = b := by
  have := congrArg Char.toNat h
  rw [digitChar_toNat a ha, digitChar_toNat b hb] at this
  omega

theorem toDigits_inj : ∀ m n : Nat,
    Nat.toDigits 10 m = Nat.toDigits 10 n → m = n := by
  intro m
  induction m using Nat.strong_induction_on with
  | _ m ih =>
    intro n h
    rw [toDigits_eq m, toDigits_eq n] at h
    by_cases hm : m < 10 <;> by_cases hn : n < 10
    · simp only [hm, hn, if_true, List.cons.injEq] at h
      exact digitChar_inj m n hm hn h.1
    · simp only [hm, hn, if_true, if_false] at h
      have hlen := congrArg List.length h
      simp only [List.length_cons, List.length_append,
        List.length_nil] at hlen
      exact absurd (List.eq_nil_of_length_eq_zero (by omega))
        (toDigits_ne_nil (n / 10))
    · simp only [hm, hn, if_true, if_false] at h
      have hlen := congrArg List.length h
      simp only [List.length_cons, List.length_append,
        List.length_nil] at hlen
      exact absurd (List.eq_nil_of_length_eq_zero (by omega))
        (toDigits_ne_nil (m / 10))
    · simp only [hm, hn, if_false] at h
      obtain ⟨h1, h2⟩ := List.append_inj' h rfl
      simp only [List.cons.injEq] at h2
      have hdiv : m / 10 = n / 10 := ih (m / 10)
        (Nat.div_lt_self (by omega) (by omega)) (n / 10) h1
      have hmod : m % 10 = n % 10 :=
        digitChar_inj _ _ (Nat.mod_lt m (by omega)) (Nat.mod_lt n (by omega))
          h2.1
      omega

theorem repr_inj (m n : Nat) (h : Nat.repr m = Nat.repr n) : m = n := by
  apply toDigits_inj
  have := congrArg String.data h
  simpa [Nat.repr, List.asString] using this

theorem repr_data (n : Nat) : (Nat.repr n).data = Nat.toDigits 10 n := rfl

theorem repr_ne_empty (n : Nat) : (Nat.repr n).data ≠ [] := by
  rw [repr_data]
  exact toDigits_ne_nil n

theorem letterChar_toNat (b : Nat) (h : b < 26) :
    (Char.ofNat (97 + b)).toNat = 97 + b := by
  interval_cases b <;> rfl

theorem letterChar_inj (a b : Nat) (ha : a < 26) (hb : b < 26)
    (h : Char.ofNat (97 + a) = Char.ofNat (97 + b)) : a = b := by
  have := congrArg Char.toNat h
  rw [letterChar_toNat a ha, letterChar_toNat b hb] at this
  omega

theorem nameOf_data (n : Nat) :
    (nameOf n).data =
      Char.ofNat (97 + n % 26) ::
        (if n / 26 = 0 then [] else (Nat.repr (n / 26)).data) := by
  rw [nameOf, Value.str]
  by_cases h : n / 26 = 0 <;>
    simp [h, String.singleton, String.data_append, String.push]

/-- **C9** (confirmed).  The display-name mapping of `Value.__str__` is
injective on the non-negative identifiers (a bijection onto its image of
names); identifiers 0, 25, 26, 51, 52 map to `a`, `z`, `a1`, `z1`, `a2`;
and for every `k`, the names of identifiers `26k` through `26k + 25` cycle
the alphabet with decimal suffix `k` (empty when `k = 0`). -/
theorem claim_C9 :
    Function.Injective nameOf ∧
    nameOf 0 = "a" ∧ nameOf 25 = "z" ∧ nameOf 26 = "a1" ∧
    nameOf 51 = "z1" ∧ nameOf 52 = "a2" ∧
    ∀ k j, j < 26 → nameOf (26 * k + j) =
      String.singleton (Char.ofNat (97 + j)) ++
        (if k = 0 then "" else Nat.repr k) := by
  refine ⟨?_, by decide, by decide, by decide, by decide, by decide, ?_⟩
  · intro m n h
    have hd := congrArg String.data h
    rw [nameOf_data, nameOf_data] at hd
    simp only [List.cons.injEq] at hd
    obtain ⟨hc, ht⟩ := hd
    have hmod : m % 26 = n % 26 :=
      letterChar_inj _ _ (Nat.mod_lt m (by omega)) (Nat.mod_lt n (by omega))
        hc
    by_cases hm : m / 26 = 0 <;> by_cases hn : n / 26 = 0
    · omega
    · rw [if_pos hm, if_neg hn] at ht
      exact absurd ht.symm (repr_ne_empty (n / 26))
    · rw [if_neg hm, if_pos hn] at ht
      exact absurd ht (repr_ne_empty (m / 26))
    · rw [if_neg hm, if_neg hn] at ht
      have hdiv : m / 26 = n / 26 :=
        repr_inj _ _ (by
          apply congrArg List.asString at ht
          simpa [Nat.repr, List.asString] using ht)
      omega
  · intro k j hj
    have hmod : (26 * k + j) % 26 = j := by
      omega
    have hdiv : (26 * k + j) / 26 = k := by
      omega
    apply String.ext
    rw [nameOf_data, hmod, hdiv]
    by_cases hk : k = 0
    · subst hk
      simp [String.singleton, String.data_append, String.push]
    · simp [hk, String.singleton, String.data_append, String.push]

/-- Witness for `claim_C9`: injectivity applied at 3 = 3 and the cycle law
at `k = 2`, `j = 0` (identifier 52). -/
theorem claim_C9_witness :
    (3 : Nat) = 3 ∧
    nameOf (26 * 2 + 0) = String.singleton (Char.ofNat (97 + 0)) ++
      (if (2 : Nat) = 0 then "" else Nat.repr 2) :=
  ⟨claim_C9.1 (rfl : nameOf 3 = nameOf 3),
   claim_C9.2.2.2.2.2.2 2 0 (by decide)⟩

/-! ### Witness-toggle independence (claim C3) -/

/-- Erase every float witness from a `Value`, recursively through its sample
chain.  Two values with the same erasure carry the same equation-relevant
data (`var`, integer samples, sample shape, rational marker). -/
def eraseF : Value → Value
  | .mk var none _ nd => .mk var none none nd
  | .mk var (some (.inl n)) _ nd => .mk var (some (.inl n)) none nd
  | .mk var (some (.inr w)) _ nd => .mk var (some (.inr (eraseF w))) none nd

/-- Erasure on sample entries. -/
def eraseS : Int ⊕ Value → Int ⊕ Value
  | .inl n => .inl n
  | .inr w => .inr (eraseF w)

theorem eraseF_mk (var : Option Nat) (ini : Option (Int ⊕ Value))
    (fi : Option FloatV) (nd : Option (Int × Int)) :
    eraseF (.mk var ini fi nd) = .mk var (ini.map eraseS) none nd := by
  cases ini with
  | none => rfl
  | some x => cases x <;> rfl

theorem eraseF_var (v : Value) : (eraseF v).var = v.var := by
  cases v with
  | mk var ini fi nd => rw [eraseF_mk]; rfl

theorem eraseF_ratND (v : Value) : (eraseF v).ratND = v.ratND := by
  cases v with
  | mk var ini fi nd => rw [eraseF_mk]; rfl

theorem eraseF_initial (v : Value) :
    (eraseF v).initial = v.initial.map eraseS := by
  cases v with
  | mk var ini fi nd => rw [eraseF_mk]; rfl

theorem rel_var {a a' : Value} (h : eraseF a = eraseF a') :
    a.var = a'.var := by
  rw [← eraseF_var a, ← eraseF_var a', h]

theorem rel_ratND {a a' : Value} (h : eraseF a = eraseF a') :
    a.ratND = a'.ratND := by
  rw [← eraseF_ratND a, ← eraseF_ratND a', h]

theorem rel_initial {a a' : Value} (h : eraseF a = eraseF a') :
    a.initial.map eraseS = a'.initial.map eraseS := by
  rw [← eraseF_initial a, ← eraseF_initial a', h]

theorem rel_initial_none {a a' : Value} (h : eraseF a = eraseF a') :
    a.initial = none ↔ a'.initial = none := by
  have hrel := rel_initial h
  constructor
  · intro hx
    rw [hx] at hrel
    cases hb : a'.initial with
    | none => rfl
    | some y => rw [hb] at hrel; simp at hrel
  · intro hx
    rw [hx] at hrel
    cases hb : a.initial with
    | none => rfl
    | some y => rw [hb] at hrel; simp at hrel

theorem rel_initial_some {a a' : Value} {x : Int ⊕ Value}
    (h : eraseF a = eraseF a') (hx : a.initial = some x) :
    ∃ x', a'.initial = some x' ∧ eraseS x = eraseS x' := by
  have hrel := rel_initial h
  rw [hx] at hrel
  cases hb : a'.initial with
  | none => rw [hb] at hrel; simp at hrel
  | some y =>
    rw [hb] at hrel
    simp only [Option.map_some', Option.some.injEq] at hrel
    exact ⟨y, rfl, hrel⟩

theorem initial_as_int_def (v : Value) :
    v.initial_as_int =
      (match v.initial with
       | some (.inl n) => .ok n
       | _ => .error .integerInitialNotFound) := rfl

theorem rel_initial_as_int {a a' : Value} (h : eraseF a = eraseF a') :
    a.initial_as_int = a'.initial_as_int := by
  have hrel := rel_initial h
  rw [initial_as_int_def, initial_as_int_def]
  cases ha : a.initial with
  | none =>
    cases hb : a'.initial with
    | none => rfl
    | some y => rw [ha, hb] at hrel; simp at hrel
  | some x =>
    cases hb : a'.initial with
    | none => rw [ha, hb] at hrel; simp at hrel
    | some y =>
      rw [ha, hb] at hrel
      simp only [Option.map_some', Option.some.injEq] at hrel
      cases x with
      | inl m =>
        cases y with
        | inl m2 =>
          simp only [eraseS, Sum.inl.injEq] at hrel
          rw [hrel]
        | inr w => simp [eraseS] at hrel
      | inr w =>
        cases y with
        | inl m2 => simp [eraseS] at hrel
        | inr w2 => rfl

theorem str_none_inr (w : Value) (fi : Option FloatV)
    (nd : Option (Int × Int)) :
    (Value.mk none (some (.inr w)) fi nd).str = w.str := by
  simp [Value.str]

/-- Erasure preserves the rendered text. -/
theorem eraseF_str : ∀ v : Value, (eraseF v).str = v.str := by
  suffices H : ∀ (n : Nat) (v : Value), v.depth ≤ n →
      (eraseF v).str = v.str by
    exact fun v => H v.depth v le_rfl
  intro n
  induction n with
  | zero =>
    rintro ⟨var, ini, fi, nd⟩ h
    match var, ini with
    | none, none => rfl
    | none, some (.inl m) => rfl
    | none, some (.inr w) => simp [Value.depth] at h
    | some k, none => rfl
    | some k, some (.inl m) => rfl
    | some k, some (.inr w) => simp [Value.depth] at h
  | succ n ih =>
    rintro ⟨var, ini, fi, nd⟩ h
    match var, ini with
    | none, none => rfl
    | none, some (.inl m) => rfl
    | none, some (.inr w) =>
      have hw : w.depth ≤ n := by
        simp only [Value.depth] at h
        omega
      show (Value.mk none (some (.inr (eraseF w))) none nd).str =
        (Value.mk none (some (.inr w)) fi nd).str
      rw [str_none_inr, str_none_inr]
      exact ih w hw
    | some k, none => rfl
    | some k, some (.inl m) => rfl
    | some k, some (.inr w) =>
      show (Value.mk (some k) (some (.inr (eraseF w))) none nd).str = _
      rw [str_unknown, str_unknown]

theorem rel_str {a a' : Value} (h : eraseF a = eraseF a') :
    a.str = a'.str := by
  rw [← eraseF_str a, ← eraseF_str a', h]

theorem rel_maybe_int_ok {v v' : Value} {x : Int ⊕ Value}
    (h : eraseF v = eraseF v') (hm : v.maybe_int = .ok x) :
    ∃ x', v'.maybe_int = .ok x' ∧ eraseS x = eraseS x' := by
  cases v with
  | mk var ini fi nd =>
    cases v' with
    | mk var' ini' fi' nd' =>
      have hv : var = var' := rel_var h
      subst hv
      cases var with
      | none =>
        cases hini : ini with
        | none =>
          rw [hini] at hm
          simp [Value.maybe_int] at hm
        | some x0 =>
          rw [hini] at hm
          simp only [Value.maybe_int, Except.ok.injEq] at hm
          subst hm
          have hin : (Value.mk none ini fi nd).initial = some x0 := by
            rw [hini]
            rfl
          obtain ⟨x0', hx0', hrelx⟩ := rel_initial_some h hin
          have hini' : ini' = some x0' := hx0'
          refine ⟨x0', ?_, hrelx⟩
          rw [hini']
          rfl
      | some k =>
        simp only [Value.maybe_int, Except.ok.injEq] at hm
        subst hm
        refine ⟨.inr (.mk (some k) ini' fi' nd'), rfl, ?_⟩
        simpa [eraseS] using h

theorem rel_elevate {a a' p p' arg : Value}
    (ha : eraseF a = eraseF a') (hp : eraseF p = eraseF p')
    (h : elevate a p = .ok arg) :
    ∃ arg', elevate a' p' = .ok arg' ∧ eraseF arg = eraseF arg' := by
  have hcond : (a.initial = none ∧ p.initial ≠ none ∧ p.var ≠ none) ↔
      (a'.initial = none ∧ p'.initial ≠ none ∧ p'.var ≠ none) := by
    simp only [ne_eq, rel_initial_none ha, rel_initial_none hp, rel_var hp]
  by_cases hc : a.initial = none ∧ p.initial ≠ none ∧ p.var ≠ none
  · rw [elevate, if_pos hc] at h
    cases hav : a.var with
    | none => rw [hav] at h; simp [Value.init] at h
    | some k =>
      rw [hav] at h
      simp only [Value.init, Except.ok.injEq] at h
      have hav' : a'.var = some k := by rw [← rel_var ha, hav]
      refine ⟨Value.mk (some k) (some (.inr a')) a'.floatInitial none, ?_, ?_⟩
      · rw [elevate, if_pos (hcond.mp hc), hav']
        rfl
      · rw [← h, eraseF_mk, eraseF_mk]
        simp [eraseS, ha]
  · rw [elevate, if_neg hc] at h
    simp only [Except.ok.injEq] at h
    refine ⟨a', ?_, by rw [← h]; exact ha⟩
    rw [elevate, if_neg (fun hc' => hc (hcond.mpr hc'))]

theorem rel_i {x x' : Int ⊕ Value} {s s' : EPState}
    (h : eraseS x = eraseS x') : eraseF (i x s) = eraseF (i x' s') := by
  cases x with
  | inl n =>
    cases x' with
    | inl n' =>
      simp only [eraseS, Sum.inl.injEq] at h
      subst h
      show eraseF (.mk none (some (.inl n)) _ none) =
        eraseF (.mk none (some (.inl n)) _ none)
      rw [eraseF_mk, eraseF_mk]
    | inr w => simp [eraseS] at h
  | inr w =>
    cases x' with
    | inl n' => simp [eraseS] at h
    | inr w' =>
      simpa [eraseS] using h

theorem maybe_float_off (f : Unit → Except Err FloatV) {s : EPState}
    (h : s.computeFloatInitial = false) :
    maybe_float_initial f s = .ok none := by
  simp [maybe_float_initial, h]

/-- The toggle-off variant of a state: same counter and equation store, float
witness computation disabled (`compute_float_initial[0] = False`). -/
def off (s : EPState) : EPState :=
  { s with computeFloatInitial := false }

theorem off_def (s : EPState) :
    off s = ⟨s.currentVar, s.equations, false⟩ := rfl

theorem maybe_int_fix {r : Value} {x : Int ⊕ Value} (hfix : eraseF r = r)
    (h : r.maybe_int = .ok x) : eraseS x = x := by
  cases r with
  | mk var ini fi nd =>
    cases var with
    | none =>
      cases hini : ini with
      | none =>
        rw [hini] at h
        simp [Value.maybe_int] at h
      | some x0 =>
        rw [hini] at h
        simp only [Value.maybe_int, Except.ok.injEq] at h
        subst h
        rw [eraseF_mk, hini] at hfix
        simp only [Option.map_some', Value.mk.injEq, Option.some.injEq]
          at hfix
        exact hfix.2.1
    | some k =>
      simp only [Value.maybe_int, Except.ok.injEq] at h
      subst h
      simp only [eraseS, Sum.inr.injEq]
      exact hfix

theorem fix_floatInitial {v : Value} (h : eraseF v = v) :
    v.floatInitial = none := by
  cases v with
  | mk var ini fi nd =>
    rw [eraseF_mk] at h
    simp only [Value.mk.injEq] at h
    rw [Value.floatInitial]
    exact h.2.2.1.symm

theorem rel_strInitial {a a' : Value} (h : eraseF a = eraseF a') :
    strInitial a.initial = strInitial a'.initial := by
  have hrel := rel_initial h
  cases ha : a.initial with
  | none =>
    cases hb : a'.initial with
    | none => rfl
    | some y => rw [ha, hb] at hrel; simp at hrel
  | some x =>
    cases hb : a'.initial with
    | none => rw [ha, hb] at hrel; simp at hrel
    | some y =>
      rw [ha, hb] at hrel
      simp only [Option.map_some', Option.some.injEq] at hrel
      cases x with
      | inl n =>
        cases y with
        | inl m =>
          simp only [eraseS, Sum.inl.injEq] at hrel
          rw [hrel]
        | inr w => simp [eraseS] at hrel
      | inr w =>
        cases y with
        | inl m => simp [eraseS] at hrel
        | inr w2 =>
          simp only [eraseS, Sum.inr.injEq] at hrel
          show w.str = w2.str
          exact rel_str hrel

theorem rel_nonzeroIntSample {a a' : Value} (h : eraseF a = eraseF a') :
    a.nonzeroIntSample = a'.nonzeroIntSample := by
  have hrel := rel_initial h
  rw [Value.nonzeroIntSample, Value.nonzeroIntSample]
  cases ha : a.initial with
  | none =>
    cases hb : a'.initial with
    | none => rfl
    | some y => rw [ha, hb] at hrel; simp at hrel
  | some x =>
    cases hb : a'.initial with
    | none => rw [ha, hb] at hrel; simp at hrel
    | some y =>
      rw [ha, hb] at hrel
      simp only [Option.map_some', Option.some.injEq] at hrel
      cases x with
      | inl n =>
        cases y with
        | inl m =>
          simp only [eraseS, Sum.inl.injEq] at hrel
          rw [hrel]
        | inr w => simp [eraseS] at hrel
      | inr w =>
        cases y with
        | inl m => simp [eraseS] at hrel
        | inr w2 => rfl

/-- Relating an equation template under the witness toggle: whenever the
enabled-side template succeeds on erase-related arguments, the disabled-side
template succeeds with the *same* equation text. -/
def eqTRel1 (eqTOn eqTOff : Value → Value → EPState → Except Err String) :
    Prop :=
  ∀ a a' b b' s e, eraseF a = eraseF a' → eraseF b = eraseF b' →
    eqTOn a b s = .ok e → eqTOff a' b' (off s) = .ok e

/-- Binary-template version of `eqTRel1`. -/
def eqTRel2
    (eqTOn eqTOff : Value → Value → Value → EPState → Except Err String) :
    Prop :=
  ∀ a a' b b' c c' s e, eraseF a = eraseF a' → eraseF b = eraseF b' →
    eraseF c = eraseF c' → eqTOn a b c s = .ok e →
    eqTOff a' b' c' (off s) = .ok e

/-- Forward evaluation of `integer_valued_operation` on a literal operand:
the exact fold. -/
theorem ivo_fold (eqT : Value → Value → EPState → Except Err String)
    (v : Int → Int) (vf : FloatV → Except Err FloatV)
    (self : Value) (s : EPState) (fo : Option FloatV) (n : Int)
    (hmf : maybe_float_initial
      (fun _ => (self.float_initial_as_float).bind vf) s = .ok fo)
    (hv : self.var = none) (hn : self.initial_as_int = .ok n) :
    Value.integer_valued_operation eqT v vf self s =
      (.ok (Value.mk none (some (.inl (v n))) fo none), s) := by
  rcases hg : Value.integer_valued_operation eqT v vf self s with ⟨er, st⟩
  rw [Value.integer_valued_operation] at hg
  split at hg
  · rename_i e he
    rw [hmf] at he
    simp at he
  · rename_i fo2 hfo2
    rw [hmf] at hfo2
    simp only [Except.ok.injEq] at hfo2
    subst hfo2
    split at hg
    · split at hg
      · rename_i e he
        rw [hn] at he
        simp at he
      · rename_i n2 hn2
        rw [hn] at hn2
        simp only [Except.ok.injEq] at hn2
        subst hn2
        exact hg.symm
    · rename_i k hk
      rw [hv] at hk
      simp at hk

/-- Forward evaluation of `integer_valued_operation` on an unknown without a
sample: one allocation, one equation. -/
theorem ivo_alloc (eqT : Value → Value → EPState → Except Err String)
    (v : Int → Int) (vf : FloatV → Except Err FloatV)
    (self : Value) (s : EPState) (fo : Option FloatV) (eqs : String) (k : Nat)
    (hmf : maybe_float_initial
      (fun _ => (self.float_initial_as_float).bind vf) s = .ok fo)
    (hv : self.var = some k) (hi : self.initial = none)
    (heqT : eqT self (Value.mk (some s.currentVar) none fo none)
      ⟨s.currentVar + 1, s.equations, s.computeFloatInitial⟩ = .ok eqs) :
    Value.integer_valued_operation eqT v vf self s =
      (.ok (Value.mk (some s.currentVar) none fo none),
       ⟨s.currentVar + 1, s.equations ++ [eqs], s.computeFloatInitial⟩) := by
  rcases hg : Value.integer_valued_operation eqT v vf self s with ⟨er, st⟩
  rw [Value.integer_valued_operation] at hg
  split at hg
  · rename_i e he
    rw [hmf] at he
    simp at he
  · rename_i fo2 hfo2
    rw [hmf] at hfo2
    simp only [Except.ok.injEq] at hfo2
    subst hfo2
    split at hg
    · rename_i hvn
      rw [hv] at hvn
      simp at hvn
    · rename_i k2 hk2
      rw [hv] at hk2
      simp only [Option.some.injEq] at hk2
      subst hk2
      split at hg
      · simp only [next_var] at hg
        split at hg
        · rename_i e he
          rw [heqT] at he
          simp at he
        · rename_i eqs2 heq2
          rw [heqT] at heq2
          simp only [Except.ok.injEq] at heq2
          subst heq2
          exact hg.symm
      · rename_i x hi2
        rw [hi] at hi2
        simp at hi2

/-- Forward evaluation of `integer_valued_operation` on an unknown with a
sample, given the result of the sample recursion. -/
theorem ivo_rec (eqT : Value → Value → EPState → Except Err String)
    (v : Int → Int) (vf : FloatV → Except Err FloatV)
    (self : Value) (s t : EPState) (fo : Option FloatV)
    (ini : Int ⊕ Value) (r : Value) (x : Int ⊕ Value) (eqs : String) (k : Nat)
    (hmf : maybe_float_initial
      (fun _ => (self.float_initial_as_float).bind vf) s = .ok fo)
    (hv : self.var = some k) (hi : self.initial = some ini)
    (hrec : Value.integer_valued_operation eqT v vf (i ini s) s = (.ok r, t))
    (hmi : r.maybe_int = .ok x)
    (heqT : eqT self (Value.mk (some t.currentVar) (some x) fo none)
      ⟨t.currentVar + 1, t.equations, t.computeFloatInitial⟩ = .ok eqs) :
    Value.integer_valued_operation eqT v vf self s =
      (.ok (Value.mk (some t.currentVar) (some x) fo none),
       ⟨t.currentVar + 1, t.equations ++ [eqs], t.computeFloatInitial⟩) := by
  rcases hg : Value.integer_valued_operation eqT v vf self s with ⟨er, st⟩
  rw [Value.integer_valued_operation] at hg
  split at hg
  · rename_i e he
    rw [hmf] at he
    simp at he
  · rename_i fo2 hfo2
    rw [hmf] at hfo2
    simp only [Except.ok.injEq] at hfo2
    subst hfo2
    split at hg
    · rename_i hvn
      rw [hv] at hvn
      simp at hvn
    · rename_i k2 hk2
      rw [hv] at hk2
      simp only [Option.some.injEq] at hk2
      subst hk2
      split at hg
      · rename_i hi2
        rw [hi] at hi2
        simp at hi2
      · rename_i ini2 hi2
        rw [hi] at hi2
        simp only [Option.some.injEq] at hi2
        subst hi2
        split at hg
        · rename_i e t2 hrec2
          rw [hrec] at hrec2
          simp at hrec2
        · rename_i r2 t2 hrec2
          rw [hrec] at hrec2
          simp only [Prod.mk.injEq, Except.ok.injEq] at hrec2
          obtain ⟨hr2, ht2⟩ := hrec2
          subst hr2
          subst ht2
          split at hg
          · rename_i e he
            rw [hmi] at he
            simp at he
          · rename_i x2 hx2
            rw [hmi] at hx2
            simp only [Except.ok.injEq] at hx2
            subst hx2
            simp only [next_var] at hg
            split at hg
            · rename_i e he
              rw [heqT] at he
              simp at he
            · rename_i eqs2 heq2
              rw [heqT] at heq2
              simp only [Except.ok.injEq] at heq2
              subst heq2
              exact hg.symm

/-- A successful `integer_valued_operation` run on a literal operand is the
exact fold. -/
theorem ivo_ok_fold (eqT : Value → Value → EPState → Except Err String)
    (v : Int → Int) (vf : FloatV → Except Err FloatV)
    (self : Value) (s : EPState) (r : Value) (s1 : EPState) (n : Int)
    (hv : self.var = none) (hn : self.initial_as_int = .ok n)
    (h : Value.integer_valued_operation eqT v vf self s = (.ok r, s1)) :
    ∃ fo, r = Value.mk none (some (.inl (v n))) fo none ∧ s1 = s := by
  rw [Value.integer_valued_operation] at h
  split at h
  · exact absurd h (by simp)
  · rename_i fo hfo
    split at h
    · split at h
      · exact absurd h (by simp)
      · rename_i n2 hn2
        rw [hn] at hn2
        simp only [Except.ok.injEq] at hn2
        subst hn2
        simp only [Prod.mk.injEq, Except.ok.injEq] at h
        exact ⟨fo, h.1.symm, h.2.symm⟩
    · rename_i k hk
      rw [hv] at hk
      simp at hk

/-- Forward evaluation of `non_integer_valued_operation` when no sample
recursion runs (literal operand, or unknown without a sample): one
allocation, one equation, result sample absent. -/
theorem nivo_alloc (eqT : Value → Value → EPState → Except Err String)
    (vf : FloatV → Except Err FloatV)
    (self : Value) (s : EPState) (fo : Option FloatV) (eqs : String)
    (hmf : maybe_float_initial
      (fun _ => (self.float_initial_as_float).bind vf) s = .ok fo)
    (hni : self.var = none ∨ self.initial = none)
    (heqT : eqT self (Value.mk (some s.currentVar) none fo none)
      ⟨s.currentVar + 1, s.equations, s.computeFloatInitial⟩ = .ok eqs) :
    Value.non_integer_valued_operation eqT vf self s =
      (.ok (Value.mk (some s.currentVar) none fo none),
       ⟨s.currentVar + 1, s.equations ++ [eqs], s.computeFloatInitial⟩) := by
  rcases hg : Value.non_integer_valued_operation eqT vf self s with ⟨er, st⟩
  rw [Value.non_integer_valued_operation] at hg
  split at hg
  · rename_i e he
    rw [hmf] at he
    simp at he
  · rename_i fo2 hfo2
    rw [hmf] at hfo2
    simp only [Except.ok.injEq] at hfo2
    subst hfo2
    split at hg
    · rename_i e s2 hinner
      split at hinner
      · simp at hinner
      · simp at hinner
      · rename_i ini2 hv2 hi2
        rcases hni with h1 | h1
        · rw [h1] at hv2
          simp at hv2
        · rw [h1] at hi2
          simp at hi2
    · rename_i ini s2 hinner
      split at hinner
      · simp only [Prod.mk.injEq, Except.ok.injEq] at hinner
        obtain ⟨hini, hs2⟩ := hinner
        subst hini
        subst hs2
        simp only [next_var] at hg
        split at hg
        · rename_i e he
          rw [heqT] at he
          simp at he
        · rename_i eqs2 heq2
          rw [heqT] at heq2
          simp only [Except.ok.injEq] at heq2
          subst heq2
          exact hg.symm
      · simp only [Prod.mk.injEq, Except.ok.injEq] at hinner
        obtain ⟨hini, hs2⟩ := hinner
        subst hini
        subst hs2
        simp only [next_var] at hg
        split at hg
        · rename_i e he
          rw [heqT] at he
          simp at he
        · rename_i eqs2 heq2
          rw [heqT] at heq2
          simp only [Except.ok.injEq] at heq2
          subst heq2
          exact hg.symm
      · rename_i ini2 hv2 hi2
        rcases hni with h1 | h1
        · rw [h1] at hv2
          simp at hv2
        · rw [h1] at hi2
          simp at hi2

/-- Forward evaluation of `non_integer_valued_operation` on an unknown with a
sample, given the result of the sample recursion. -/
theorem nivo_rec (eqT : Value → Value → EPState → Except Err String)
    (vf : FloatV → Except Err FloatV)
    (self : Value) (s t : EPState) (fo : Option FloatV)
    (ini : Int ⊕ Value) (r : Value) (x : Int ⊕ Value) (eqs : String) (k : Nat)
    (hmf : maybe_float_initial
      (fun _ => (self.float_initial_as_float).bind vf) s = .ok fo)
    (hv : self.var = some k) (hi : self.initial = some ini)
    (hrec : Value.non_integer_valued_operation eqT vf (i ini s) s = (.ok r, t))
    (hmi : r.maybe_int = .ok x)
    (heqT : eqT self (Value.mk (some t.currentVar) (some x) fo none)
      ⟨t.currentVar + 1, t.equations, t.computeFloatInitial⟩ = .ok eqs) :
    Value.non_integer_valued_operation eqT vf self s =
      (.ok (Value.mk (some t.currentVar) (some x) fo none),
       ⟨t.currentVar + 1, t.equations ++ [eqs], t.computeFloatInitial⟩) := by
  rcases hg : Value.non_integer_valued_operation eqT vf self s with ⟨er, st⟩
  rw [Value.non_integer_valued_operation] at hg
  split at hg
  · rename_i e he
    rw [hmf] at he
    simp at he
  · rename_i fo2 hfo2
    rw [hmf] at hfo2
    simp only [Except.ok.injEq] at hfo2
    subst hfo2
    split at hg
    · rename_i e s2 hinner
      split at hinner
      · rename_i hv2
        rw [hv] at hv2
        simp at hv2
      · rename_i hi2
        rw [hi] at hi2
        simp at hi2
      · rename_i ini2 hv2 hi2
        rw [hi] at hi2
        simp only [Option.some.injEq] at hi2
        subst hi2
        split at hinner
        · rename_i e2 t2 hrec2
          rw [hrec] at hrec2
          simp at hrec2
        · rename_i r2 t2 hrec2
          rw [hrec] at hrec2
          simp only [Prod.mk.injEq, Except.ok.injEq] at hrec2
          obtain ⟨hr2, ht2⟩ := hrec2
          subst hr2
          subst ht2
          split at hinner
          · rename_i e2 he2
            rw [hmi] at he2
            simp at he2
          · rename_i x2 hx2
            rw [hmi] at hx2
            simp only [Except.ok.injEq] at hx2
            subst hx2
            simp at hinner
    · rename_i ini3 s2 hinner
      split at hinner
      · rename_i hv2
        rw [hv] at hv2
        simp at hv2
      · rename_i hi2
        rw [hi] at hi2
        simp at hi2
      · rename_i ini2 hv2 hi2
        rw [hi] at hi2
        simp only [Option.some.injEq] at hi2
        subst hi2
        split at hinner
        · rename_i e2 t2 hrec2
          rw [hrec] at hrec2
          simp at hrec2
        · rename_i r2 t2 hrec2
          rw [hrec] at hrec2
          simp only [Prod.mk.injEq, Except.ok.injEq] at hrec2
          obtain ⟨hr2, ht2⟩ := hrec2
          subst hr2
          subst ht2
          split at hinner
          · rename_i e2 he2
            rw [hmi] at he2
            simp at he2
          · rename_i x2 hx2
            rw [hmi] at hx2
            simp only [Except.ok.injEq] at hx2
            subst hx2
            simp only [Prod.mk.injEq, Except.ok.injEq] at hinner
            obtain ⟨hini3, hs2⟩ := hinner
            subst hini3
            subst hs2
            simp only [next_var] at hg
            split at hg
            · rename_i e he
              rw [heqT] at he
              simp at he
            · rename_i eqs2 heq2
              rw [heqT] at heq2
              simp only [Except.ok.injEq] at heq2
              subst heq2
              exact hg.symm

/-- Forward evaluation of `integer_valued_binary_operation` on two literals:
the exact fold. -/
theorem ivbo_fold
    (eqT : Value → Value → Value → EPState → Except Err String)
    (v : Int → Int → Int) (vf : FloatV → FloatV → Except Err FloatV)
    (self other : Value) (s : EPState) (fo : Option FloatV) (a b : Int)
    (hmf : maybe_float_initial
      (fun _ => (self.float_initial_as_float).bind (fun x =>
        (other.float_initial_as_float).bind (fun y => vf x y))) s = .ok fo)
    (hv : self.var = none) (ho : other.var = none)
    (ha : self.initial_as_int = .ok a) (hb : other.initial_as_int = .ok b) :
    Value.integer_valued_binary_operation eqT v vf self other s =
      (.ok (Value.mk none (some (.inl (v a b))) fo none), s) := by
  rcases hg : Value.integer_valued_binary_operation eqT v vf self other s
    with ⟨er, st⟩
  rw [Value.integer_valued_binary_operation] at hg
  split at hg
  · rename_i e he
    rw [hmf] at he
    simp at he
  · rename_i fo2 hfo2
    rw [hmf] at hfo2
    simp only [Except.ok.injEq] at hfo2
    subst hfo2
    split at hg
    · split at hg
      · rename_i e he
        rw [ha] at he
        simp at he
      · rename_i a2 ha2
        rw [ha] at ha2
        simp only [Except.ok.injEq] at ha2
        subst ha2
        split at hg
        · rename_i e he
          rw [hb] at he
          simp at he
        · rename_i b2 hb2
          rw [hb] at hb2
          simp only [Except.ok.injEq] at hb2
          subst hb2
          exact hg.symm
    · rename_i hnb
      exact absurd ⟨hv, ho⟩ hnb

/-- Forward evaluation of `integer_valued_binary_operation` in the
no-literal-fold case when at least one elevated operand has no sample. -/
theorem ivbo_alloc
    (eqT : Value → Value → Value → EPState → Except Err String)
    (v : Int → Int → Int) (vf : FloatV → FloatV → Except Err FloatV)
    (self other arg1 arg2 : Value) (s : EPState) (fo : Option FloatV)
    (eqs : String)
    (hmf : maybe_float_initial
      (fun _ => (self.float_initial_as_float).bind (fun x =>
        (other.float_initial_as_float).bind (fun y => vf x y))) s = .ok fo)
    (hnb : ¬(self.var = none ∧ other.var = none))
    (e1 : elevate self other = .ok arg1)
    (e2 : elevate other arg1 = .ok arg2)
    (hni : arg1.initial = none ∨ arg2.initial = none)
    (heqT : eqT self other (Value.mk (some s.currentVar) none fo none)
      ⟨s.currentVar + 1, s.equations, s.computeFloatInitial⟩ = .ok eqs) :
    Value.integer_valued_binary_operation eqT v vf self other s =
      (.ok (Value.mk (some s.currentVar) none fo none),
       ⟨s.currentVar + 1, s.equations ++ [eqs], s.computeFloatInitial⟩) := by
  rcases hg : Value.integer_valued_binary_operation eqT v vf self other s
    with ⟨er, st⟩
  rw [Value.integer_valued_binary_operation] at hg
  split at hg
  · rename_i e he
    rw [hmf] at he
    simp at he
  · rename_i fo2 hfo2
    rw [hmf] at hfo2
    simp only [Except.ok.injEq] at hfo2
    subst hfo2
    split at hg
    · rename_i hbb
      exact absurd hbb hnb
    · split at hg
      · rename_i e he
        rw [e1] at he
        simp at he
      · rename_i arg1b harg1
        rw [e1] at harg1
        simp only [Except.ok.injEq] at harg1
        subst harg1
        split at hg
        · rename_i e he
          rw [e2] at he
          simp at he
        · rename_i arg2b harg2
          rw [e2] at harg2
          simp only [Except.ok.injEq] at harg2
          subst harg2
          split at hg
          · rename_i e s2 hinner
            split at hinner
            · simp at hinner
            · simp at hinner
            · rename_i x1 x2 h1 h2
              rcases hni with h3 | h3
              · rw [h3] at h1
                simp at h1
              · rw [h3] at h2
                simp at h2
          · rename_i ini s2 hinner
            split at hinner
            · simp only [Prod.mk.injEq, Except.ok.injEq] at hinner
              obtain ⟨hini, hs2⟩ := hinner
              subst hini
              subst hs2
              simp only [next_var] at hg
              split at hg
              · rename_i e he
                rw [heqT] at he
                simp at he
              · rename_i eqs2 heq2
                rw [heqT] at heq2
                simp only [Except.ok.injEq] at heq2
                subst heq2
                exact hg.symm
            · simp only [Prod.mk.injEq, Except.ok.injEq] at hinner
              obtain ⟨hini, hs2⟩ := hinner
              subst hini
              subst hs2
              simp only [next_var] at hg
              split at hg
              · rename_i e he
                rw [heqT] at he
                simp at he
              · rename_i eqs2 heq2
                rw [heqT] at heq2
                simp only [Except.ok.injEq] at heq2
                subst heq2
                exact hg.symm
            · rename_i x1 x2 h1 h2
              rcases hni with h3 | h3
              · rw [h3] at h1
                simp at h1
              · rw [h3] at h2
                simp at h2

/-- Forward evaluation of `integer_valued_binary_operation` with both
elevated samples present, given the result of the sample recursion. -/
theorem ivbo_rec
    (eqT : Value → Value → Value → EPState → Except Err String)
    (v : Int → Int → Int) (vf : FloatV → FloatV → Except Err FloatV)
    (self other arg1 arg2 : Value) (s t : EPState) (fo : Option FloatV)
    (x1 x2 x : Int ⊕ Value) (r : Value) (eqs : String)
    (hmf : maybe_float_initial
      (fun _ => (self.float_initial_as_float).bind (fun x =>
        (other.float_initial_as_float).bind (fun y => vf x y))) s = .ok fo)
    (hnb : ¬(self.var = none ∧ other.var = none))
    (e1 : elevate self other = .ok arg1)
    (e2 : elevate other arg1 = .ok arg2)
    (h1 : arg1.initial = some x1) (h2 : arg2.initial = some x2)
    (hrec : Value.integer_valued_binary_operation eqT v vf
      (i x1 s) (i x2 s) s = (.ok r, t))
    (hmi : r.maybe_int = .ok x)
    (heqT : eqT self other (Value.mk (some t.currentVar) (some x) fo none)
      ⟨t.currentVar + 1, t.equations, t.computeFloatInitial⟩ = .ok eqs) :
    Value.integer_valued_binary_operation eqT v vf self other s =
      (.ok (Value.mk (some t.currentVar) (some x) fo none),
       ⟨t.currentVar + 1, t.equations ++ [eqs], t.computeFloatInitial⟩) := by
  rcases hg : Value.integer_valued_binary_operation eqT v vf self other s
    with ⟨er, st⟩
  rw [Value.integer_valued_binary_operation] at hg
  split at hg
  · rename_i e he
    rw [hmf] at he
    simp at he
  · rename_i fo2 hfo2
    rw [hmf] at hfo2
    simp only [Except.ok.injEq] at hfo2
    subst hfo2
    split at hg
    · rename_i hbb
      exact absurd hbb hnb
    · split at hg
      · rename_i e he
        rw [e1] at he
        simp at he
      · rename_i arg1b harg1
        rw [e1] at harg1
        simp only [Except.ok.injEq] at harg1
        subst harg1
        split at hg
        · rename_i e he
          rw [e2] at he
          simp at he
        · rename_i arg2b harg2
          rw [e2] at harg2
          simp only [Except.ok.injEq] at harg2
          subst harg2
          split at hg
          · rename_i e s2 hinner
            split at hinner
            · rename_i h1b
              rw [h1] at h1b
              simp at h1b
            · rename_i h2b hno1
              rw [h2] at h2b
              simp at h2b
            · rename_i x1b x2b h1b h2b
              rw [h1] at h1b
              rw [h2] at h2b
              simp only [Option.some.injEq] at h1b h2b
              subst h1b
              subst h2b
              split at hinner
              · rename_i e2b t2 hrec2
                rw [hrec] at hrec2
                simp at hrec2
              · rename_i r2 t2 hrec2
                rw [hrec] at hrec2
                simp only [Prod.mk.injEq, Except.ok.injEq] at hrec2
                obtain ⟨hr2, ht2⟩ := hrec2
                subst hr2
                subst ht2
                split at hinner
                · rename_i e2b he2
                  rw [hmi] at he2
                  simp at he2
                · rename_i xb hxb
                  rw [hmi] at hxb
                  simp only [Except.ok.injEq] at hxb
                  subst hxb
                  simp at hinner
          · rename_i ini s2 hinner
            split at hinner
            · rename_i h1b
              rw [h1] at h1b
              simp at h1b
            · rename_i h2b hno1
              rw [h2] at h2b
              simp at h2b
            · rename_i x1b x2b h1b h2b
              rw [h1] at h1b
              rw [h2] at h2b
              simp only [Option.some.injEq] at h1b h2b
              subst h1b
              subst h2b
              split at hinner
              · rename_i e2b t2 hrec2
                rw [hrec] at hrec2
                simp at hrec2
              · rename_i r2 t2 hrec2
                rw [hrec] at hrec2
                simp only [Prod.mk.injEq, Except.ok.injEq] at hrec2
                obtain ⟨hr2, ht2⟩ := hrec2
                subst hr2
                subst ht2
                split at hinner
                · rename_i e2b he2
                  rw [hmi] at he2
                  simp at he2
                · rename_i xb hxb
                  rw [hmi] at hxb
                  simp only [Except.ok.injEq] at hxb
                  subst hxb
                  simp only [Prod.mk.injEq, Except.ok.injEq] at hinner
                  obtain ⟨hini, hs2⟩ := hinner
                  subst hini
                  subst hs2
                  simp only [next_var] at hg
                  split at hg
                  · rename_i e he
                    rw [heqT] at he
                    simp at he
                  · rename_i eqs2 heq2
                    rw [heqT] at heq2
                    simp only [Except.ok.injEq] at heq2
                    subst heq2
                    exact hg.symm

/-- Forward evaluation of `non_integer_valued_binary_operation` when at least
one elevated operand has no sample: allocation with an absent sample. -/
theorem nivbo_alloc
    (eqT : Value → Value → Value → EPState → Except Err String)
    (vf : FloatV → FloatV → Except Err FloatV)
    (self other arg1 arg2 : Value) (s : EPState) (fo : Option FloatV)
    (eqs : String)
    (hmf : maybe_float_initial
      (fun _ => (self.float_initial_as_float).bind (fun x =>
        (other.float_initial_as_float).bind (fun y => vf x y))) s = .ok fo)
    (e1 : elevate self other = .ok arg1)
    (e2 : elevate other arg1 = .ok arg2)
    (hni : arg1.initial = none ∨ arg2.initial = none)
    (heqT : eqT arg1 arg2 (Value.mk (some s.currentVar) none fo none)
      ⟨s.currentVar + 1, s.equations, s.computeFloatInitial⟩ = .ok eqs) :
    Value.non_integer_valued_binary_operation eqT vf self other s =
      (.ok (Value.mk (some s.currentVar) none fo none),
       ⟨s.currentVar + 1, s.equations ++ [eqs], s.computeFloatInitial⟩) := by
  rcases hg : Value.non_integer_valued_binary_operation eqT vf self other s
    with ⟨er, st⟩
  rw [Value.non_integer_valued_binary_operation] at hg
  split at hg
  · rename_i e he
    rw [hmf] at he
    simp at he
  · rename_i fo2 hfo2
    rw [hmf] at hfo2
    simp only [Except.ok.injEq] at hfo2
    subst hfo2
    split at hg
    · rename_i e he
      rw [e1] at he
      simp at he
    · rename_i arg1b harg1
      rw [e1] at harg1
      simp only [Except.ok.injEq] at harg1
      subst harg1
      split at hg
      · rename_i e he
        rw [e2] at he
        simp at he
      · rename_i arg2b harg2
        rw [e2] at harg2
        simp only [Except.ok.injEq] at harg2
        subst harg2
        split at hg
        · rename_i e s2 hinner
          split at hinner
          · simp at hinner
          · simp at hinner
          · rename_i x1 x2 h1 h2
            rcases hni with h3 | h3
            · rw [h3] at h1
              simp at h1
            · rw [h3] at h2
              simp at h2
        · rename_i ini s2 hinner
          split at hinner
          · simp only [Prod.mk.injEq, Except.ok.injEq] at hinner
            obtain ⟨hini, hs2⟩ := hinner
            subst hini
            subst hs2
            simp only [next_var] at hg
            split at hg
            · rename_i e he
              rw [heqT] at he
              simp at he
            · rename_i eqs2 heq2
              rw [heqT] at heq2
              simp only [Except.ok.injEq] at heq2
              subst heq2
              exact hg.symm
          · simp only [Prod.mk.injEq, Except.ok.injEq] at hinner
            obtain ⟨hini, hs2⟩ := hinner
            subst hini
            subst hs2
            simp only [next_var] at hg
            split at hg
            · rename_i e he
              rw [heqT] at he
              simp at he
            · rename_i eqs2 heq2
              rw [heqT] at heq2
              simp only [Except.ok.injEq] at heq2
              subst heq2
              exact hg.symm
          · rename_i x1 x2 h1 h2
            rcases hni with h3 | h3
            · rw [h3] at h1
              simp at h1
            · rw [h3] at h2
              simp at h2

/-- Forward evaluation of `non_integer_valued_binary_operation` when both
elevated operands have samples but both are literals: no sample recursion
(the result sample is absent). -/
theorem nivbo_const
    (eqT : Value → Value → Value → EPState → Except Err String)
    (vf : FloatV → FloatV → Except Err FloatV)
    (self other arg1 arg2 : Value) (s : EPState) (fo : Option FloatV)
    (x1 x2 : Int ⊕ Value) (eqs : String)
    (hmf : maybe_float_initial
      (fun _ => (self.float_initial_as_float).bind (fun x =>
        (other.float_initial_as_float).bind (fun y => vf x y))) s = .ok fo)
    (e1 : elevate self other = .ok arg1)
    (e2 : elevate other arg1 = .ok arg2)
    (h1 : arg1.initial = some x1) (h2 : arg2.initial = some x2)
    (hvars : arg1.var = none ∧ arg2.var = none)
    (heqT : eqT arg1 arg2 (Value.mk (some s.currentVar) none fo none)
      ⟨s.currentVar + 1, s.equations, s.computeFloatInitial⟩ = .ok eqs) :
    Value.non_integer_valued_binary_operation eqT vf self other s =
      (.ok (Value.mk (some s.currentVar) none fo none),
       ⟨s.currentVar + 1, s.equations ++ [eqs], s.computeFloatInitial⟩) := by
  rcases hg : Value.non_integer_valued_binary_operation eqT vf self other s
    with ⟨er, st⟩
  rw [Value.non_integer_valued_binary_operation] at hg
  split at hg
  · rename_i e he
    rw [hmf] at he
    simp at he
  · rename_i fo2 hfo2
    rw [hmf] at hfo2
    simp only [Except.ok.injEq] at hfo2
    subst hfo2
    split at hg
    · rename_i e he
      rw [e1] at he
      simp at he
    · rename_i arg1b harg1
      rw [e1] at harg1
      simp only [Except.ok.injEq] at harg1
      subst harg1
      split at hg
      · rename_i e he
        rw [e2] at he
        simp at he
      · rename_i arg2b harg2
        rw [e2] at harg2
        simp only [Except.ok.injEq] at harg2
        subst harg2
        split at hg
        · rename_i e s2 hinner
          split at hinner
          · simp at hinner
          · simp at hinner
          · rename_i x1b x2b h1b h2b
            split at hinner
            · simp at hinner
            · rename_i hnb2
              exact absurd hvars hnb2
        · rename_i ini s2 hinner
          split at hinner
          · simp only [Prod.mk.injEq, Except.ok.injEq] at hinner
            obtain ⟨hini, hs2⟩ := hinner
            subst hini
            subst hs2
            simp only [next_var] at hg
            split at hg
            · rename_i e he
              rw [heqT] at he
              simp at he
            · rename_i eqs2 heq2
              rw [heqT] at heq2
              simp only [Except.ok.injEq] at heq2
              subst heq2
              exact hg.symm
          · simp only [Prod.mk.injEq, Except.ok.injEq] at hinner
            obtain ⟨hini, hs2⟩ := hinner
            subst hini
            subst hs2
            simp only [next_var] at hg
            split at hg
            · rename_i e he
              rw [heqT] at he
              simp at he
            · rename_i eqs2 heq2
              rw [heqT] at heq2
              simp only [Except.ok.injEq] at heq2
              subst heq2
              exact hg.symm
          · rename_i x1b x2b h1b h2b
            split at hinner
            · simp only [Prod.mk.injEq, Except.ok.injEq] at hinner
              obtain ⟨hini, hs2⟩ := hinner
              subst hini
              subst hs2
              simp only [next_var] at hg
              split at hg
              · rename_i e he
                rw [heqT] at he
                simp at he
              · rename_i eqs2 heq2
                rw [heqT] at heq2
                simp only [Except.ok.injEq] at heq2
                subst heq2
                exact hg.symm
            · rename_i hnb2
              exact absurd hvars hnb2

/-- Forward evaluation of `non_integer_valued_binary_operation` with both
elevated samples present and at least one elevated operand an unknown, given
the result of the sample recursion. -/
theorem nivbo_rec
    (eqT : Value → Value → Value → EPState → Except Err String)
    (vf : FloatV → FloatV → Except Err FloatV)
    (self other arg1 arg2 : Value) (s t : EPState) (fo : Option FloatV)
    (x1 x2 x : Int ⊕ Value) (r : Value) (eqs : String)
    (hmf : maybe_float_initial
      (fun _ => (self.float_initial_as_float).bind (fun x =>
        (other.float_initial_as_float).bind (fun y => vf x y))) s = .ok fo)
    (e1 : elevate self other = .ok arg1)
    (e2 : elevate other arg1 = .ok arg2)
    (h1 : arg1.initial = some x1) (h2 : arg2.initial = some x2)
    (hnb : ¬(arg1.var = none ∧ arg2.var = none))
    (hrec : Value.non_integer_valued_binary_operation eqT vf
      (i x1 s) (i x2 s) s = (.ok r, t))
    (hmi : r.maybe_int = .ok x)
    (heqT : eqT arg1 arg2 (Value.mk (some t.currentVar) (some x) fo none)
      ⟨t.currentVar + 1, t.equations, t.computeFloatInitial⟩ = .ok eqs) :
    Value.non_integer_valued_binary_operation eqT vf self other s =
      (.ok (Value.mk (some t.currentVar) (some x) fo none),
       ⟨t.currentVar + 1, t.equations ++ [eqs], t.computeFloatInitial⟩) := by
  rcases hg : Value.non_integer_valued_binary_operation eqT vf self other s
    with ⟨er, st⟩
  rw [Value.non_integer_valued_binary_operation] at hg
  split at hg
  · rename_i e he
    rw [hmf] at he
    simp at he
  · rename_i fo2 hfo2
    rw [hmf] at hfo2
    simp only [Except.ok.injEq] at hfo2
    subst hfo2
    split at hg
    · rename_i e he
      rw [e1] at he
      simp at he
    · rename_i arg1b harg1
      rw [e1] at harg1
      simp only [Except.ok.injEq] at harg1
      subst harg1
      split at hg
      · rename_i e he
        rw [e2] at he
        simp at he
      · rename_i arg2b harg2
        rw [e2] at harg2
        simp only [Except.ok.injEq] at harg2
        subst harg2
        split at hg
        · rename_i e s2 hinner
          split at hinner
          · rename_i h1b
            rw [h1] at h1b
            simp at h1b
          · rename_i h2b hno1
            rw [h2] at h2b
            simp at h2b
          · rename_i x1b x2b h1b h2b
            rw [h1] at h1b
            rw [h2] at h2b
            simp only [Option.some.injEq] at h1b h2b
            subst h1b
            subst h2b
            split at hinner
            · rename_i hbb
              exact absurd hbb hnb
            · split at hinner
              · rename_i e2b t2 hrec2
                rw [hrec] at hrec2
                simp at hrec2
              · rename_i r2 t2 hrec2
                rw [hrec] at hrec2
                simp only [Prod.mk.injEq, Except.ok.injEq] at hrec2
                obtain ⟨hr2, ht2⟩ := hrec2
                subst hr2
                subst ht2
                split at hinner
                · rename_i e2b he2
                  rw [hmi] at he2
                  simp at he2
                · rename_i xb hxb
                  rw [hmi] at hxb
                  simp only [Except.ok.injEq] at hxb
                  subst hxb
                  simp at hinner
        · rename_i ini s2 hinner
          split at hinner
          · rename_i h1b
            rw [h1] at h1b
            simp at h1b
          · rename_i h2b hno1
            rw [h2] at h2b
            simp at h2b
          · rename_i x1b x2b h1b h2b
            rw [h1] at h1b
            rw [h2] at h2b
            simp only [Option.some.injEq] at h1b h2b
            subst h1b
            subst h2b
            split at hinner
            · rename_i hbb
              exact absurd hbb hnb
            · split at hinner
              · rename_i e2b t2 hrec2
                rw [hrec] at hrec2
                simp at hrec2
              · rename_i r2 t2 hrec2
                rw [hrec] at hrec2
                simp only [Prod.mk.injEq, Except.ok.injEq] at hrec2
                obtain ⟨hr2, ht2⟩ := hrec2
                subst hr2
                subst ht2
                split at hinner
                · rename_i e2b he2
                  rw [hmi] at he2
                  simp at he2
                · rename_i xb hxb
                  rw [hmi] at hxb
                  simp only [Except.ok.injEq] at hxb
                  subst hxb
                  simp only [Prod.mk.injEq, Except.ok.injEq] at hinner
                  obtain ⟨hini, hs2⟩ := hinner
                  subst hini
                  subst hs2
                  simp only [next_var] at hg
                  split at hg
                  · rename_i e he
                    rw [heqT] at he
                    simp at he
                  · rename_i eqs2 heq2
                    rw [heqT] at heq2
                    simp only [Except.ok.injEq] at heq2
                    subst heq2
                    exact hg.symm

/-- Toggle-off simulation for the unary integer-valued combinator: a
successful run is replayed by the toggle-off run on an erase-related operand,
reaching the toggle-off image of the same final state (same counter, same
equation texts), with an erase-related result that carries no float witness
anywhere. -/
theorem ivo_sim (eqTOn eqTOff : Value → Value → EPState → Except Err String)
    (v : Int → Int) (vf vf' : FloatV → Except Err FloatV)
    (hT : eqTRel1 eqTOn eqTOff) :
    ∀ (self self' : Value) (s : EPState) (res : Value) (s1 : EPState),
      eraseF self = eraseF self' →
      Value.integer_valued_operation eqTOn v vf self s = (.ok res, s1) →
      ∃ res', Value.integer_valued_operation eqTOff v vf' self' (off s) =
          (.ok res', off s1) ∧ eraseF res = eraseF res' ∧
        eraseF res' = res' := by
  suffices H : ∀ (N : Nat) (self : Value), self.meas ≤ N →
      ∀ self' s res s1, eraseF self = eraseF self' →
      Value.integer_valued_operation eqTOn v vf self s = (.ok res, s1) →
      ∃ res', Value.integer_valued_operation eqTOff v vf' self' (off s) =
          (.ok res', off s1) ∧ eraseF res = eraseF res' ∧
        eraseF res' = res' by
    exact fun self self' s res s1 hrel h =>
      H self.meas self le_rfl self' s res s1 hrel h
  intro N
  induction N using Nat.strong_induction_on with
  | _ N ih =>
  intro self hm self' s res s1 hrel h
  rw [Value.integer_valued_operation] at h
  split at h
  · exact absurd h (by simp)
  · rename_i fo hmf
    split at h
    · rename_i hv
      split at h
      · exact absurd h (by simp)
      · rename_i n hn
        simp only [Prod.mk.injEq, Except.ok.injEq] at h
        obtain ⟨hr, hs⟩ := h
        subst hs
        refine ⟨Value.mk none (some (.inl (v n))) none none, ?_, ?_, rfl⟩
        · exact ivo_fold eqTOff v vf' self' (off s) none n
            (maybe_float_off _ rfl)
            (by rw [← rel_var hrel, hv])
            (by rw [← rel_initial_as_int hrel, hn])
        · rw [← hr, eraseF_mk, eraseF_mk]
    · rename_i k hv
      have hv' : self'.var = some k := by rw [← rel_var hrel, hv]
      split at h
      · rename_i hi
        simp only [next_var] at h
        split at h
        · exact absurd h (by simp)
        · rename_i eqs heqT
          simp only [Prod.mk.injEq, Except.ok.injEq] at h
          obtain ⟨hr, hs⟩ := h
          subst hs
          have hi' : self'.initial = none := (rel_initial_none hrel).mp hi
          have hrelres :
              eraseF (Value.mk (some s.currentVar) none fo none) =
              eraseF (Value.mk (some s.currentVar) none none none) := by
            rw [eraseF_mk, eraseF_mk]
          have heqT' := hT self self' _ _ _ eqs hrel hrelres heqT
          refine ⟨Value.mk (some s.currentVar) none none none, ?_, ?_, rfl⟩
          · exact ivo_alloc eqTOff v vf' self' (off s) none eqs k
              (maybe_float_off _ rfl) hv' hi' heqT'
          · rw [← hr]
            exact hrelres
      · rename_i ini hi
        split at h
        · exact absurd h (by simp)
        · rename_i rr t hrec
          split at h
          · exact absurd h (by simp)
          · rename_i x hmi
            simp only [next_var] at h
            split at h
            · exact absurd h (by simp)
            · rename_i eqs heqT
              simp only [Prod.mk.injEq, Except.ok.injEq] at h
              obtain ⟨hr, hs⟩ := h
              subst hs
              obtain ⟨ini', hi', hrelini⟩ := rel_initial_some hrel hi
              have hrelrec : eraseF (i ini s) = eraseF (i ini' (off s)) :=
                rel_i hrelini
              have hlt : (i ini s).meas < self.meas :=
                meas_i_lt ini self s k hv hi
              obtain ⟨rr', hrec', hrelr, hfixr⟩ :=
                ih ((i ini s).meas) (lt_of_lt_of_le hlt hm) (i ini s) le_rfl
                  (i ini' (off s)) s rr t hrelrec hrec
              obtain ⟨x', hmi', hrelx⟩ := rel_maybe_int_ok hrelr hmi
              have hfixx : eraseS x' = x' := maybe_int_fix hfixr hmi'
              have hrelres :
                  eraseF (Value.mk (some t.currentVar) (some x) fo none) =
                  eraseF (Value.mk (some t.currentVar) (some x') none none) := by
                rw [eraseF_mk, eraseF_mk]
                simp only [Option.map_some', hrelx]
              have heqT' := hT self self' _ _ _ eqs hrel hrelres heqT
              refine ⟨Value.mk (some t.currentVar) (some x') none none,
                ?_, ?_, ?_⟩
              · exact ivo_rec eqTOff v vf' self' (off s) (off t) none
                  ini' rr' x' eqs k (maybe_float_off _ rfl) hv' hi'
                  hrec' hmi' heqT'
              · rw [← hr]
                exact hrelres
              · rw [eraseF_mk]
                simp only [Option.map_some', hfixx]

/-- Toggle-off simulation for the unary non-integer-valued combinator. -/
theorem nivo_sim (eqTOn eqTOff : Value → Value → EPState → Except Err String)
    (vf vf' : FloatV → Except Err FloatV)
    (hT : eqTRel1 eqTOn eqTOff) :
    ∀ (self self' : Value) (s : EPState) (res : Value) (s1 : EPState),
      eraseF self = eraseF self' →
      Value.non_integer_valued_operation eqTOn vf self s = (.ok res, s1) →
      ∃ res', Value.non_integer_valued_operation eqTOff vf' self' (off s) =
          (.ok res', off s1) ∧ eraseF res = eraseF res' ∧
        eraseF res' = res' := by
  suffices H : ∀ (N : Nat) (self : Value), self.meas ≤ N →
      ∀ self' s res s1, eraseF self = eraseF self' →
      Value.non_integer_valued_operation eqTOn vf self s = (.ok res, s1) →
      ∃ res', Value.non_integer_valued_operation eqTOff vf' self' (off s) =
          (.ok res', off s1) ∧ eraseF res = eraseF res' ∧
        eraseF res' = res' by
    exact fun self self' s res s1 hrel h =>
      H self.meas self le_rfl self' s res s1 hrel h
  intro N
  induction N using Nat.strong_induction_on with
  | _ N ih =>
  intro self hm self' s res s1 hrel h
  rw [Value.non_integer_valued_operation] at h
  split at h
  · exact absurd h (by simp)
  · rename_i fo hmf
    split at h
    · exact absurd h (by simp)
    · rename_i ini s2 hinner
      simp only [next_var] at h
      split at h
      · exact absurd h (by simp)
      · rename_i eqs heqT
        simp only [Prod.mk.injEq, Except.ok.injEq] at h
        obtain ⟨hr, hs⟩ := h
        subst hs
        split at hinner
        · rename_i hv
          simp only [Prod.mk.injEq, Except.ok.injEq] at hinner
          obtain ⟨hini, hs2⟩ := hinner
          subst hini
          subst hs2
          have hrelres :
              eraseF (Value.mk (some s.currentVar) none fo none) =
              eraseF (Value.mk (some s.currentVar) none none none) := by
            rw [eraseF_mk, eraseF_mk]
          have heqT' := hT self self' _ _ _ eqs hrel hrelres heqT
          refine ⟨Value.mk (some s.currentVar) none none none, ?_, ?_, rfl⟩
          · exact nivo_alloc eqTOff vf' self' (off s) none eqs
              (maybe_float_off _ rfl)
              (Or.inl (by rw [← rel_var hrel, hv])) heqT'
          · rw [← hr]
            exact hrelres
        · rename_i val hv hi
          simp only [Prod.mk.injEq, Except.ok.injEq] at hinner
          obtain ⟨hini, hs2⟩ := hinner
          subst hini
          subst hs2
          have hrelres :
              eraseF (Value.mk (some s.currentVar) none fo none) =
              eraseF (Value.mk (some s.currentVar) none none none) := by
            rw [eraseF_mk, eraseF_mk]
          have heqT' := hT self self' _ _ _ eqs hrel hrelres heqT
          refine ⟨Value.mk (some s.currentVar) none none none, ?_, ?_, rfl⟩
          · exact nivo_alloc eqTOff vf' self' (off s) none eqs
              (maybe_float_off _ rfl)
              (Or.inr ((rel_initial_none hrel).mp hi)) heqT'
          · rw [← hr]
            exact hrelres
        · rename_i val ini2 hv hi
          split at hinner
          · exact absurd hinner (by simp)
          · rename_i rr t hrec
            split at hinner
            · exact absurd hinner (by simp)
            · rename_i x hmi
              simp only [Prod.mk.injEq, Except.ok.injEq] at hinner
              obtain ⟨hini, hs2⟩ := hinner
              subst hini
              subst hs2
              have hv' : self'.var = some val := by rw [← rel_var hrel, hv]
              obtain ⟨ini', hi', hrelini⟩ := rel_initial_some hrel hi
              have hrelrec : eraseF (i ini2 s) = eraseF (i ini' (off s)) :=
                rel_i hrelini
              have hlt : (i ini2 s).meas < self.meas :=
                meas_i_lt ini2 self s val hv hi
              obtain ⟨rr', hrec', hrelr, hfixr⟩ :=
                ih ((i ini2 s).meas) (lt_of_lt_of_le hlt hm) (i ini2 s)
                  le_rfl (i ini' (off s)) s rr t hrelrec hrec
              obtain ⟨x', hmi', hrelx⟩ := rel_maybe_int_ok hrelr hmi
              have hfixx : eraseS x' = x' := maybe_int_fix hfixr hmi'
              have hrelres :
                  eraseF (Value.mk (some t.currentVar) (some x) fo none) =
                  eraseF (Value.mk (some t.currentVar) (some x') none none) := by
                rw [eraseF_mk, eraseF_mk]
                simp only [Option.map_some', hrelx]
              have heqT' := hT self self' _ _ _ eqs hrel hrelres heqT
              refine ⟨Value.mk (some t.currentVar) (some x') none none,
                ?_, ?_, ?_⟩
              · exact nivo_rec eqTOff vf' self' (off s) (off t) none
                  ini' rr' x' eqs val (maybe_float_off _ rfl) hv' hi'
                  hrec' hmi' heqT'
              · rw [← hr]
                exact hrelres
              · rw [eraseF_mk]
                simp only [Option.map_some', hfixx]

/-- Toggle-off simulation for the binary integer-valued combinator. -/
theorem ivbo_sim
    (eqTOn eqTOff : Value → Value → Value → EPState → Except Err String)
    (v : Int → Int → Int) (vf vf' : FloatV → FloatV → Except Err FloatV)
    (hT : eqTRel2 eqTOn eqTOff) :
    ∀ (self other self' other' : Value) (s : EPState) (res : Value)
      (s1 : EPState),
      eraseF self = eraseF self' → eraseF other = eraseF other' →
      Value.integer_valued_binary_operation eqTOn v vf self other s =
        (.ok res, s1) →
      ∃ res',
        Value.integer_valued_binary_operation eqTOff v vf' self' other'
          (off s) = (.ok res', off s1) ∧ eraseF res = eraseF res' ∧
        eraseF res' = res' := by
  suffices H : ∀ (N : Nat) (self other : Value),
      self.meas + other.meas ≤ N →
      ∀ self' other' s res s1,
      eraseF self = eraseF self' → eraseF other = eraseF other' →
      Value.integer_valued_binary_operation eqTOn v vf self other s =
        (.ok res, s1) →
      ∃ res',
        Value.integer_valued_binary_operation eqTOff v vf' self' other'
          (off s) = (.ok res', off s1) ∧ eraseF res = eraseF res' ∧
        eraseF res' = res' by
    exact fun self other self' other' s res s1 hrelS hrelO h =>
      H (self.meas + other.meas) self other le_rfl self' other' s res s1
        hrelS hrelO h
  intro N
  induction N using Nat.strong_induction_on with
  | _ N ih =>
  intro self other hm self' other' s res s1 hrelS hrelO h
  rw [Value.integer_valued_binary_operation] at h
  split at h
  · exact absurd h (by simp)
  · rename_i fo hmf
    split at h
    · rename_i hb
      split at h
      · exact absurd h (by simp)
      · rename_i a ha
        split at h
        · exact absurd h (by simp)
        · rename_i b hbint
          simp only [Prod.mk.injEq, Except.ok.injEq] at h
          obtain ⟨hr, hs⟩ := h
          subst hs
          refine ⟨Value.mk none (some (.inl (v a b))) none none, ?_, ?_, rfl⟩
          · exact ivbo_fold eqTOff v vf' self' other' (off s) none a b
              (maybe_float_off _ rfl)
              (by rw [← rel_var hrelS]; exact hb.1)
              (by rw [← rel_var hrelO]; exact hb.2)
              (by rw [← rel_initial_as_int hrelS, ha])
              (by rw [← rel_initial_as_int hrelO, hbint])
          · rw [← hr, eraseF_mk, eraseF_mk]
    · rename_i hb
      have hb' : ¬(self'.var = none ∧ other'.var = none) := by
        rw [← rel_var hrelS, ← rel_var hrelO]
        exact hb
      split at h
      · exact absurd h (by simp)
      · rename_i arg1 he1
        obtain ⟨arg1', he1', harg1⟩ := rel_elevate hrelS hrelO he1
        split at h
        · exact absurd h (by simp)
        · rename_i arg2 he2
          obtain ⟨arg2', he2', harg2⟩ := rel_elevate hrelO harg1 he2
          split at h
          · exact absurd h (by simp)
          · rename_i ini s2 hinner
            simp only [next_var] at h
            split at h
            · exact absurd h (by simp)
            · rename_i eqs heqT
              simp only [Prod.mk.injEq, Except.ok.injEq] at h
              obtain ⟨hr, hs⟩ := h
              subst hs
              split at hinner
              · rename_i h1b
                simp only [Prod.mk.injEq, Except.ok.injEq] at hinner
                obtain ⟨hini, hs2⟩ := hinner
                subst hini
                subst hs2
                have hrelres :
                    eraseF (Value.mk (some s.currentVar) none fo none) =
                    eraseF (Value.mk (some s.currentVar) none none none) := by
                  rw [eraseF_mk, eraseF_mk]
                have heqT' := hT self self' other other' _ _ _ eqs
                  hrelS hrelO hrelres heqT
                refine ⟨Value.mk (some s.currentVar) none none none,
                  ?_, ?_, rfl⟩
                · exact ivbo_alloc eqTOff v vf' self' other' arg1' arg2'
                    (off s) none eqs (maybe_float_off _ rfl) hb' he1' he2'
                    (Or.inl ((rel_initial_none harg1).mp h1b)) heqT'
                · rw [← hr]
                  exact hrelres
              · rename_i h2b hno1
                simp only [Prod.mk.injEq, Except.ok.injEq] at hinner
                obtain ⟨hini, hs2⟩ := hinner
                subst hini
                subst hs2
                have hrelres :
                    eraseF (Value.mk (some s.currentVar) none fo none) =
                    eraseF (Value.mk (some s.currentVar) none none none) := by
                  rw [eraseF_mk, eraseF_mk]
                have heqT' := hT self self' other other' _ _ _ eqs
                  hrelS hrelO hrelres heqT
                refine ⟨Value.mk (some s.currentVar) none none none,
                  ?_, ?_, rfl⟩
                · exact ivbo_alloc eqTOff v vf' self' other' arg1' arg2'
                    (off s) none eqs (maybe_float_off _ rfl) hb' he1' he2'
                    (Or.inr ((rel_initial_none harg2).mp h2b)) heqT'
                · rw [← hr]
                  exact hrelres
              · rename_i x1v x2v h1 h2
                split at hinner
                · exact absurd hinner (by simp)
                · rename_i rr t hrec
                  split at hinner
                  · exact absurd hinner (by simp)
                  · rename_i x hmi
                    simp only [Prod.mk.injEq, Except.ok.injEq] at hinner
                    obtain ⟨hini, hs2⟩ := hinner
                    subst hini
                    subst hs2
                    obtain ⟨x1', h1', hrelx1⟩ := rel_initial_some harg1 h1
                    obtain ⟨x2', h2', hrelx2⟩ := rel_initial_some harg2 h2
                    have hbelev : ¬(arg1.var = none ∧ arg2.var = none) := by
                      rw [elevate_var self other arg1 he1,
                        elevate_var other arg1 arg2 he2]
                      exact fun hc => hb ⟨hc.1, hc.2⟩
                    have hlt :
                        (i x1v s).meas + (i x2v s).meas <
                          self.meas + other.meas :=
                      meas_rec_lt self other arg1 arg2 x1v x2v s s hbelev
                        he1 he2 h1 h2
                    obtain ⟨rr', hrec', hrelr, hfixr⟩ :=
                      ih ((i x1v s).meas + (i x2v s).meas)
                        (lt_of_lt_of_le hlt hm) (i x1v s) (i x2v s) le_rfl
                        (i x1' (off s)) (i x2' (off s)) s rr t
                        (rel_i hrelx1) (rel_i hrelx2) hrec
                    obtain ⟨x', hmi', hrelx⟩ := rel_maybe_int_ok hrelr hmi
                    have hfixx : eraseS x' = x' := maybe_int_fix hfixr hmi'
                    have hrelres :
                        eraseF (Value.mk (some t.currentVar) (some x)
                          fo none) =
                        eraseF (Value.mk (some t.currentVar) (some x')
                          none none) := by
                      rw [eraseF_mk, eraseF_mk]
                      simp only [Option.map_some', hrelx]
                    have heqT' := hT self self' other other' _ _ _ eqs
                      hrelS hrelO hrelres heqT
                    refine ⟨Value.mk (some t.currentVar) (some x') none none,
                      ?_, ?_, ?_⟩
                    · exact ivbo_rec eqTOff v vf' self' other' arg1' arg2'
                        (off s) (off t) none x1' x2' x' rr' eqs
                        (maybe_float_off _ rfl) hb' he1' he2' h1' h2'
                        hrec' hmi' heqT'
                    · rw [← hr]
                      exact hrelres
                    · rw [eraseF_mk]
                      simp only [Option.map_some', hfixx]

/-- Toggle-off simulation for the binary non-integer-valued combinator. -/
theorem nivbo_sim
    (eqTOn eqTOff : Value → Value → Value → EPState → Except Err String)
    (vf vf' : FloatV → FloatV → Except Err FloatV)
    (hT : eqTRel2 eqTOn eqTOff) :
    ∀ (self other self' other' : Value) (s : EPState) (res : Value)
      (s1 : EPState),
      eraseF self = eraseF self' → eraseF other = eraseF other' →
      Value.non_integer_valued_binary_operation eqTOn vf self other s =
        (.ok res, s1) →
      ∃ res',
        Value.non_integer_valued_binary_operation eqTOff vf' self' other'
          (off s) = (.ok res', off s1) ∧ eraseF res = eraseF res' ∧
        eraseF res' = res' := by
  suffices H : ∀ (N : Nat) (self other : Value),
      self.meas + other.meas ≤ N →
      ∀ self' other' s res s1,
      eraseF self = eraseF self' → eraseF other = eraseF other' →
      Value.non_integer_valued_binary_operation eqTOn vf self other s =
        (.ok res, s1) →
      ∃ res',
        Value.non_integer_valued_binary_operation eqTOff vf' self' other'
          (off s) = (.ok res', off s1) ∧ eraseF res = eraseF res' ∧
        eraseF res' = res' by
    exact fun self other self' other' s res s1 hrelS hrelO h =>
      H (self.meas + other.meas) self other le_rfl self' other' s res s1
        hrelS hrelO h
  intro N
  induction N using Nat.strong_induction_on with
  | _ N ih =>
  intro self other hm self' other' s res s1 hrelS hrelO h
  rw [Value.non_integer_valued_binary_operation] at h
  split at h
  · exact absurd h (by simp)
  · rename_i fo hmf
    split at h
    · exact absurd h (by simp)
    · rename_i arg1 he1
      obtain ⟨arg1', he1', harg1⟩ := rel_elevate hrelS hrelO he1
      split at h
      · exact absurd h (by simp)
      · rename_i arg2 he2
        obtain ⟨arg2', he2', harg2⟩ := rel_elevate hrelO harg1 he2
        split at h
        · exact absurd h (by simp)
        · rename_i ini s2 hinner
          simp only [next_var] at h
          split at h
          · exact absurd h (by simp)
          · rename_i eqs heqT
            simp only [Prod.mk.injEq, Except.ok.injEq] at h
            obtain ⟨hr, hs⟩ := h
            subst hs
            split at hinner
            · rename_i h1b
              simp only [Prod.mk.injEq, Except.ok.injEq] at hinner
              obtain ⟨hini, hs2⟩ := hinner
              subst hini
              subst hs2
              have hrelres :
                  eraseF (Value.mk (some s.currentVar) none fo none) =
                  eraseF (Value.mk (some s.currentVar) none none none) := by
                rw [eraseF_mk, eraseF_mk]
              have heqT' := hT arg1 arg1' arg2 arg2' _ _ _ eqs
                harg1 harg2 hrelres heqT
              refine ⟨Value.mk (some s.currentVar) none none none,
                ?_, ?_, rfl⟩
              · exact nivbo_alloc eqTOff vf' self' other' arg1' arg2'
                  (off s) none eqs (maybe_float_off _ rfl) he1' he2'
                  (Or.inl ((rel_initial_none harg1).mp h1b)) heqT'
              · rw [← hr]
                exact hrelres
            · rename_i h2b hno1
              simp only [Prod.mk.injEq, Except.ok.injEq] at hinner
              obtain ⟨hini, hs2⟩ := hinner
              subst hini
              subst hs2
              have hrelres :
                  eraseF (Value.mk (some s.currentVar) none fo none) =
                  eraseF (Value.mk (some s.currentVar) none none none) := by
                rw [eraseF_mk, eraseF_mk]
              have heqT' := hT arg1 arg1' arg2 arg2' _ _ _ eqs
                harg1 harg2 hrelres heqT
              refine ⟨Value.mk (some s.currentVar) none none none,
                ?_, ?_, rfl⟩
              · exact nivbo_alloc eqTOff vf' self' other' arg1' arg2'
                  (off s) none eqs (maybe_float_off _ rfl) he1' he2'
                  (Or.inr ((rel_initial_none harg2).mp h2b)) heqT'
              · rw [← hr]
                exact hrelres
            · rename_i x1v x2v h1 h2
              obtain ⟨x1', h1', hrelx1⟩ := rel_initial_some harg1 h1
              obtain ⟨x2', h2', hrelx2⟩ := rel_initial_some harg2 h2
              split at hinner
              · rename_i hvars
                simp only [Prod.mk.injEq, Except.ok.injEq] at hinner
                obtain ⟨hini, hs2⟩ := hinner
                subst hini
                subst hs2
                have hvars' : arg1'.var = none ∧ arg2'.var = none := by
                  rw [← rel_var harg1, ← rel_var harg2]
                  exact hvars
                have hrelres :
                    eraseF (Value.mk (some s.currentVar) none fo none) =
                    eraseF (Value.mk (some s.currentVar) none none none) := by
                  rw [eraseF_mk, eraseF_mk]
                have heqT' := hT arg1 arg1' arg2 arg2' _ _ _ eqs
                  harg1 harg2 hrelres heqT
                refine ⟨Value.mk (some s.currentVar) none none none,
                  ?_, ?_, rfl⟩
                · exact nivbo_const eqTOff vf' self' other' arg1' arg2'
                    (off s) none x1' x2' eqs (maybe_float_off _ rfl)
                    he1' he2' h1' h2' hvars' heqT'
                · rw [← hr]
                  exact hrelres
              · rename_i hbelev
                split at hinner
                · exact absurd hinner (by simp)
                · rename_i rr t hrec
                  split at hinner
                  · exact absurd hinner (by simp)
                  · rename_i x hmi
                    simp only [Prod.mk.injEq, Except.ok.injEq] at hinner
                    obtain ⟨hini, hs2⟩ := hinner
                    subst hini
                    subst hs2
                    have hbelev' : ¬(arg1'.var = none ∧ arg2'.var = none) := by
                      rw [← rel_var harg1, ← rel_var harg2]
                      exact hbelev
                    have hlt :
                        (i x1v s).meas + (i x2v s).meas <
                          self.meas + other.meas :=
                      meas_rec_lt self other arg1 arg2 x1v x2v s s hbelev
                        he1 he2 h1 h2
                    obtain ⟨rr', hrec', hrelr, hfixr⟩ :=
                      ih ((i x1v s).meas + (i x2v s).meas)
                        (lt_of_lt_of_le hlt hm) (i x1v s) (i x2v s) le_rfl
                        (i x1' (off s)) (i x2' (off s)) s rr t
                        (rel_i hrelx1) (rel_i hrelx2) hrec
                    obtain ⟨x', hmi', hrelx⟩ := rel_maybe_int_ok hrelr hmi
                    have hfixx : eraseS x' = x' := maybe_int_fix hfixr hmi'
                    have hrelres :
                        eraseF (Value.mk (some t.currentVar) (some x)
                          fo none) =
                        eraseF (Value.mk (some t.currentVar) (some x')
                          none none) := by
                      rw [eraseF_mk, eraseF_mk]
                      simp only [Option.map_some', hrelx]
                    have heqT' := hT arg1 arg1' arg2 arg2' _ _ _ eqs
                      harg1 harg2 hrelres heqT
                    refine ⟨Value.mk (some t.currentVar) (some x')
                      none none, ?_, ?_, ?_⟩
                    · exact nivbo_rec eqTOff vf' self' other' arg1' arg2'
                        (off s) (off t) none x1' x2' x' rr' eqs
                        (maybe_float_off _ rfl) he1' he2' h1' h2' hbelev'
                        hrec' hmi' heqT'
                    · rw [← hr]
                      exact hrelres
                    · rw [eraseF_mk]
                      simp only [Option.map_some', hfixx]

/-- Toggle-off simulation for `Value.__neg__`. -/
theorem neg_sim {self self' : Value} {s : EPState} {res : Value}
    {s1 : EPState} (hrel : eraseF self = eraseF self')
    (h : Value.neg self s = (.ok res, s1)) :
    ∃ res', Value.neg self' (off s) = (.ok res', off s1) ∧
      eraseF res = eraseF res' ∧ eraseF res' = res' := by
  rw [Value.neg] at h
  rw [Value.neg]
  refine ivo_sim _ _ _ _ _ ?_ self self' s res s1 hrel h
  intro a a' b b' st e hra hrb he
  simp only [Except.ok.injEq] at he
  subst he
  simp only [Except.ok.injEq]
  rw [rel_str hra, rel_str hrb]

/-- Toggle-off simulation for `Value.abs`. -/
theorem abs_sim {self self' : Value} {s : EPState} {res : Value}
    {s1 : EPState} (hrel : eraseF self = eraseF self')
    (h : Value.abs self s = (.ok res, s1)) :
    ∃ res', Value.abs self' (off s) = (.ok res', off s1) ∧
      eraseF res = eraseF res' ∧ eraseF res' = res' := by
  rw [Value.abs] at h
  rw [Value.abs]
  refine ivo_sim _ _ _ _ _ ?_ self self' s res s1 hrel h
  intro a a' b b' st e hra hrb he
  simp only [Except.ok.injEq] at he
  subst he
  simp only [Except.ok.injEq]
  rw [rel_str hra, rel_str hrb]

/-- Toggle-off simulation for `Value.__add__`. -/
theorem add_sim {self other self' other' : Value} {s : EPState} {res : Value}
    {s1 : EPState} (hrelS : eraseF self = eraseF self')
    (hrelO : eraseF other = eraseF other')
    (h : Value.add self other s = (.ok res, s1)) :
    ∃ res', Value.add self' other' (off s) = (.ok res', off s1) ∧
      eraseF res = eraseF res' ∧ eraseF res' = res' := by
  rw [Value.add] at h
  rw [Value.add]
  refine ivbo_sim _ _ _ _ _ ?_ self other self' other' s res s1 hrelS hrelO h
  intro a a' b b' c c' st e hra hrb hrc he
  simp only [Except.ok.injEq] at he
  subst he
  simp only [Except.ok.injEq]
  rw [rel_str hra, rel_str hrb, rel_str hrc]

/-- Toggle-off simulation for `Value.__sub__`. -/
theorem sub_sim {self other self' other' : Value} {s : EPState} {res : Value}
    {s1 : EPState} (hrelS : eraseF self = eraseF self')
    (hrelO : eraseF other = eraseF other')
    (h : Value.sub self other s = (.ok res, s1)) :
    ∃ res', Value.sub self' other' (off s) = (.ok res', off s1) ∧
      eraseF res = eraseF res' ∧ eraseF res' = res' := by
  rw [Value.sub] at h
  rw [Value.sub]
  refine ivbo_sim _ _ _ _ _ ?_ self other self' other' s res s1 hrelS hrelO h
  intro a a' b b' c c' st e hra hrb hrc he
  simp only [Except.ok.injEq] at he
  subst he
  simp only [Except.ok.injEq]
  rw [rel_str hra, rel_str hrb, rel_str hrc]

/-- Toggle-off simulation for `Value.__mul__`. -/
theorem mul_sim {self other self' other' : Value} {s : EPState} {res : Value}
    {s1 : EPState} (hrelS : eraseF self = eraseF self')
    (hrelO : eraseF other = eraseF other')
    (h : Value.mul self other s = (.ok res, s1)) :
    ∃ res', Value.mul self' other' (off s) = (.ok res', off s1) ∧
      eraseF res = eraseF res' ∧ eraseF res' = res' := by
  rw [Value.mul] at h
  rw [Value.mul]
  refine ivbo_sim _ _ _ _ _ ?_ self other self' other' s res s1 hrelS hrelO h
  intro a a' b b' c c' st e hra hrb hrc he
  simp only [Except.ok.injEq] at he
  subst he
  simp only [Except.ok.injEq]
  rw [rel_str hra, rel_str hrb, rel_str hrc]

/-- Toggle-off simulation for `Value.__truediv__`. -/
theorem div_sim {self other self' other' : Value} {s : EPState} {res : Value}
    {s1 : EPState} (hrelS : eraseF self = eraseF self')
    (hrelO : eraseF other = eraseF other')
    (h : Value.div self other s = (.ok res, s1)) :
    ∃ res', Value.div self' other' (off s) = (.ok res', off s1) ∧
      eraseF res = eraseF res' ∧ eraseF res' = res' := by
  rw [Value.div] at h
  rw [Value.div]
  refine nivbo_sim _ _ _ _ ?_ self other self' other' s res s1 hrelS hrelO h
  intro a a' b b' c c' st e hra hrb hrc he
  simp only [Except.ok.injEq] at he
  subst he
  simp only [Except.ok.injEq]
  rw [rel_str hra, rel_str hrb, rel_str hrc]

/-- Forward evaluation of `RationalValue` on a non-zero denominator. -/
theorem RationalValue_run (n d : Int) (s : EPState) (hd : ¬ d = 0) :
    RationalValue n d s =
      (.ok (Value.mk (some s.currentVar) none (some (.ratDiv n d))
        (some (n, d))),
       ⟨s.currentVar + 1,
        s.equations ++ [toString d ++ "*" ++ nameOf s.currentVar ++ " - " ++
          toString n],
        s.computeFloatInitial⟩) := by
  rw [RationalValue]
  simp only [next_var]
  rw [if_neg hd]
  simp [str_unknown]

/-- Toggle-off replay for `RationalValue.__init__`: the toggle is never
consulted, so the disabled run produces the *identical* value — float witness
included — and the same governing equation. -/
theorem rat_sim {n d : Int} {s : EPState} {res : Value} {s1 : EPState}
    (h : RationalValue n d s = (.ok res, s1)) :
    RationalValue n d (off s) = (.ok res, off s1) ∧
      res.ratND = some (n, d) := by
  by_cases hd : d = 0
  · subst hd
    rw [RationalValue] at h
    simp at h
  · rw [RationalValue_run n d s hd] at h
    simp only [Prod.mk.injEq, Except.ok.injEq] at h
    obtain ⟨hr, hs⟩ := h
    subst hr
    subst hs
    refine ⟨?_, rfl⟩
    rw [RationalValue_run n d (off s) hd]
    rfl

theorem rel_strS {a b : Int ⊕ Value} (h : eraseS a = eraseS b) :
    strInitial (some a) = strInitial (some b) := by
  cases a with
  | inl n =>
    cases b with
    | inl m =>
      simp only [eraseS, Sum.inl.injEq] at h
      rw [h]
    | inr w => simp [eraseS] at h
  | inr w =>
    cases b with
    | inl m => simp [eraseS] at h
    | inr w2 =>
      simp only [eraseS, Sum.inr.injEq] at h
      show w.str = w2.str
      exact rel_str h

/-- Toggle-off simulation for `Value.__pow__` on erase-related base and
exponent. -/
theorem pow_sim {self power self' power' : Value} {s : EPState} {res : Value}
    {s1 : EPState} (hrelS : eraseF self = eraseF self')
    (hrelP : eraseF power = eraseF power')
    (h : Value.pow self power s = (.ok res, s1)) :
    ∃ res', Value.pow self' power' (off s) = (.ok res', off s1) ∧
      eraseF res = eraseF res' ∧ eraseF res' = res' := by
  simp only [Value.pow] at h
  simp only [Value.pow]
  cases hnd : power.ratND with
  | some nd =>
    have hnd' : power'.ratND = some nd := by rw [← rel_ratND hrelP, hnd]
    simp only [hnd] at h
    simp only [hnd']
    by_cases hpos : nd.1 > 0
    · rw [if_pos hpos] at h
      rw [if_pos hpos]
      refine nivo_sim _ _ _ _ ?_ self self' s res s1 hrelS h
      intro a a' b b' st e hra hrb he
      cases hva : a.var with
      | some k =>
        have hva' : a'.var = some k := by rw [← rel_var hra, hva]
        simp only [hva, Except.ok.injEq] at he
        subst he
        simp only [hva', Except.ok.injEq]
        rw [rel_str hra, rel_str hrb]
      | none =>
        have hva' : a'.var = none := by rw [← rel_var hra, hva]
        simp only [hva] at he
        cases hia : a.initial_as_int with
        | error e2 =>
          rw [hia] at he
          simp [Except.map] at he
        | ok xv =>
          rw [hia] at he
          simp only [Except.map, Except.ok.injEq] at he
          subst he
          have hia' : a'.initial_as_int = .ok xv := by
            rw [← rel_initial_as_int hra, hia]
          simp only [hva', hia', Except.map, Except.ok.injEq]
          rw [rel_str hrb]
    · rw [if_neg hpos] at h
      rw [if_neg hpos]
      refine nivo_sim _ _ _ _ ?_ self self' s res s1 hrelS h
      intro a a' b b' st e hra hrb he
      cases hva : a.var with
      | some k =>
        have hva' : a'.var = some k := by rw [← rel_var hra, hva]
        simp only [hva, Except.ok.injEq] at he
        subst he
        simp only [hva', Except.ok.injEq]
        rw [rel_str hra, rel_str hrb]
      | none =>
        have hva' : a'.var = none := by rw [← rel_var hra, hva]
        simp only [hva] at he
        cases hia : a.initial_as_int with
        | error e2 =>
          rw [hia] at he
          simp [Except.map] at he
        | ok xv =>
          rw [hia] at he
          simp only [Except.map, Except.ok.injEq] at he
          subst he
          have hia' : a'.initial_as_int = .ok xv := by
            rw [← rel_initial_as_int hra, hia]
          simp only [hva', hia', Except.map, Except.ok.injEq]
          rw [rel_str hrb]
  | none =>
    have hnd' : power'.ratND = none := by rw [← rel_ratND hrelP, hnd]
    simp only [hnd] at h
    simp only [hnd']
    cases hpv : power.var with
    | some k =>
      simp only [hpv] at h
      simp at h
    | none =>
      have hpv' : power'.var = none := by rw [← rel_var hrelP, hpv]
      simp only [hpv] at h
      simp only [hpv']
      cases hpi : power.initial_as_int with
      | error e2 =>
        simp only [hpi] at h
        simp at h
      | ok pn =>
        have hpi' : power'.initial_as_int = .ok pn := by
          rw [← rel_initial_as_int hrelP, hpi]
        simp only [hpi] at h
        simp only [hpi']
        by_cases hsign : pn > 0
        · rw [if_pos hsign] at h
          rw [if_pos hsign]
          refine ivo_sim _ _ _ _ _ ?_ self self' s res s1 hrelS h
          intro a a' b b' st e hra hrb he
          simp only [Except.ok.injEq] at he
          subst he
          simp only [Except.ok.injEq]
          rw [rel_str hra, rel_str hrb, rel_str hrelP]
        · rw [if_neg hsign] at h
          rw [if_neg hsign]
          refine nivo_sim _ _ _ _ ?_ self self' s res s1 hrelS h
          intro a a' b b' st e hra hrb he
          cases hva : a.var with
          | some k =>
            have hva' : a'.var = some k := by rw [← rel_var hra, hva]
            simp only [hva] at he
            rcases hneg : Value.neg power st with ⟨er2, st2⟩
            rw [hneg] at he
            cases er2 with
            | error e2 => simp at he
            | ok np =>
              simp only [Except.ok.injEq] at he
              subst he
              rw [Value.neg] at hneg
              obtain ⟨fo2, hnp, -⟩ :=
                ivo_ok_fold _ _ _ power st np st2 pn hpv hpi hneg
              have hoff : Value.neg power' (off st) =
                  (.ok (Value.mk none (some (.inl (-pn))) none none),
                    off st) := by
                rw [Value.neg]
                exact ivo_fold _ _ _ power' (off st) none pn
                  (maybe_float_off _ rfl) hpv' hpi'
              simp only [hva', hoff, Except.ok.injEq]
              rw [hnp]
              simp only [str_lit]
              rw [rel_str hra, rel_str hrb]
          | none =>
            have hva' : a'.var = none := by rw [← rel_var hra, hva]
            simp only [hva] at he
            cases hia : a.initial_as_int with
            | error e2 =>
              rw [hia] at he
              simp [Except.bind] at he
            | ok xv =>
              rw [hia] at he
              simp only [Except.bind, Except.map, Except.ok.injEq] at he
              subst he
              have hia' : a'.initial_as_int = .ok xv := by
                rw [← rel_initial_as_int hra, hia]
              simp only [hva', hia', hpi', Except.bind, Except.map,
                Except.ok.injEq]
              rw [rel_str hrb]

/-- Toggle-off simulation for `sqrt`. -/
theorem sqrt_sim {x x' : Value} {s : EPState} {res : Value} {s1 : EPState}
    (hrel : eraseF x = eraseF x') (h : sqrt x s = (.ok res, s1)) :
    ∃ res', sqrt x' (off s) = (.ok res', off s1) ∧
      eraseF res = eraseF res' ∧ eraseF res' = res' := by
  rw [sqrt] at h
  split at h
  · exact absurd h (by simp)
  · rename_i p st hq
    obtain ⟨hq', hnd⟩ :=
      rat_sim (show RationalValue 1 2 s = (.ok p, st) from hq)
    obtain ⟨res', hrun, hrel1, hfix⟩ := pow_sim hrel rfl h
    refine ⟨res', ?_, hrel1, hfix⟩
    rw [sqrt]
    rw [show q 1 2 (off s) = (.ok p, off st) from hq']
    exact hrun

/-- Toggle-off simulation for `is_constant`. -/
theorem is_constant_sim {x x' : Value} {s s1 : EPState}
    (hrel : eraseF x = eraseF x') (h : is_constant x s = (.ok (), s1)) :
    is_constant x' (off s) = (.ok (), off s1) := by
  rw [is_constant] at h
  rw [is_constant]
  split at h
  · rename_i hv
    have hv' : x'.var = none := by rw [← rel_var hrel, hv]
    have hs : s = s1 := congrArg Prod.snd h
    subst hs
    rw [hv']
  · rename_i k hv
    have hv' : x'.var = some k := by rw [← rel_var hrel, hv]
    split at h
    · simp at h
    · rename_i ini hxi
      obtain ⟨ini2, hxi', hrelini⟩ := rel_initial_some hrel hxi
      have hs := congrArg Prod.snd h
      subst hs
      simp only [hv', hxi', ← rel_str hrel, ← rel_strS hrelini]
      rfl

/-- Toggle-off simulation for `is_zero`. -/
theorem is_zero_sim {x x' : Value} {s s1 : EPState}
    (hrel : eraseF x = eraseF x') (h : is_zero x s = (.ok (), s1)) :
    is_zero x' (off s) = (.ok (), off s1) := by
  rw [is_zero] at h
  rw [is_zero]
  rw [← rel_nonzeroIntSample hrel]
  split at h
  · simp at h
  · rename_i hnz
    rw [if_neg hnz]
    split at h
    · rename_i hv
      have hv' : x'.var = none := by rw [← rel_var hrel, hv]
      have hs : s = s1 := congrArg Prod.snd h
      subst hs
      rw [hv']
    · rename_i k hv
      have hv' : x'.var = some k := by rw [← rel_var hrel, hv]
      split at h
      · rename_i m hxi
        have hs := congrArg Prod.snd h
        subst hs
        obtain ⟨ini2, hxi', hrelini⟩ := rel_initial_some hrel hxi
        cases ini2 with
        | inr w => simp [eraseS] at hrelini
        | inl m2 =>
          simp only [eraseS, Sum.inl.injEq] at hrelini
          subst hrelini
          simp only [hv', hxi', ← rel_str hrel]
          rfl
      · rename_i junk1 junk2 hno
        have hs := congrArg Prod.snd h
        subst hs
        cases hxi : x.initial with
        | none =>
          have hxin' : x'.initial = none := (rel_initial_none hrel).mp hxi
          simp only [hv', hxi, hxin', ← rel_str hrel]
          rfl
        | some y =>
          cases y with
          | inl m => exact absurd hxi (hno m)
          | inr w =>
            obtain ⟨ini2, hxi', hrelini⟩ := rel_initial_some hrel hxi
            cases ini2 with
            | inl m2 => simp [eraseS] at hrelini
            | inr w2 =>
              simp only [hv', hxi, hxi', ← rel_str hrel,
                ← rel_strS hrelini]
              rfl

/-- A straight-line program over the scalar `Value` API: each instruction
reads its operands from the list of previously produced values (by index; an
out-of-range reference reads the literal 0) and appends its produced value
(the assertions produce none). -/
inductive Instr : Type where
  | lit (n : Int)
  | fresh (n : Int)
  | rat (n d : Int)
  | neg (a : Nat)
  | abs (a : Nat)
  | add (a b : Nat)
  | sub (a b : Nat)
  | mul (a b : Nat)
  | div (a b : Nat)
  | pow (a b : Nat)
  | sqrtI (a : Nat)
  | isZero (a : Nat)
  | isConstant (a : Nat)
  deriving DecidableEq, Repr

/-- One step of the straight-line interpreter. -/
def run1 (c : Instr) (env : List Value) (s : EPState) :
    Except Err (List Value) × EPState :=
  match c with
  | .lit n => (.ok (env ++ [i (.inl n) s]), s)
  | .fresh n =>
    let p := new_var n s
    (.ok (env ++ [p.1]), p.2)
  | .rat n d =>
    match RationalValue n d s with
    | (.error e, s1) => (.error e, s1)
    | (.ok v, s1) => (.ok (env ++ [v]), s1)
  | .neg a =>
    match Value.neg (env.getD a (litV 0)) s with
    | (.error e, s1) => (.error e, s1)
    | (.ok v, s1) => (.ok (env ++ [v]), s1)
  | .abs a =>
    match Value.abs (env.getD a (litV 0)) s with
    | (.error e, s1) => (.error e, s1)
    | (.ok v, s1) => (.ok (env ++ [v]), s1)
  | .add a b =>
    match Value.add (env.getD a (litV 0)) (env.getD b (litV 0)) s with
    | (.error e, s1) => (.error e, s1)
    | (.ok v, s1) => (.ok (env ++ [v]), s1)
  | .sub a b =>
    match Value.sub (env.getD a (litV 0)) (env.getD b (litV 0)) s with
    | (.error e, s1) => (.error e, s1)
    | (.ok v, s1) => (.ok (env ++ [v]), s1)
  | .mul a b =>
    match Value.mul (env.getD a (litV 0)) (env.getD b (litV 0)) s with
    | (.error e, s1) => (.error e, s1)
    | (.ok v, s1) => (.ok (env ++ [v]), s1)
  | .div a b =>
    match Value.div (env.getD a (litV 0)) (env.getD b (litV 0)) s with
    | (.error e, s1) => (.error e, s1)
    | (.ok v, s1) => (.ok (env ++ [v]), s1)
  | .pow a b =>
    match Value.pow (env.getD a (litV 0)) (env.getD b (litV 0)) s with
    | (.error e, s1) => (.error e, s1)
    | (.ok v, s1) => (.ok (env ++ [v]), s1)
  | .sqrtI a =>
    match sqrt (env.getD a (litV 0)) s with
    | (.error e, s1) => (.error e, s1)
    | (.ok v, s1) => (.ok (env ++ [v]), s1)
  | .isZero a =>
    match is_zero (env.getD a (litV 0)) s with
    | (.error e, s1) => (.error e, s1)
    | (.ok _, s1) => (.ok env, s1)
  | .isConstant a =>
    match is_constant (env.getD a (litV 0)) s with
    | (.error e, s1) => (.error e, s1)
    | (.ok _, s1) => (.ok env, s1)

/-- The straight-line interpreter: threads the shared state through the
program, stopping at the first raised error (as the Python module does). -/
def run : List Instr → List Value → EPState →
    Except Err (List Value) × EPState
  | [], env, s => (.ok env, s)
  | c :: P, env, s =>
    match run1 c env s with
    | (.error e, s1) => (.error e, s1)
    | (.ok env1, s1) => run P env1 s1

/-- Pointwise erase-relatedness of two value environments. -/
def envRel : List Value → List Value → Prop
  | [], [] => True
  | a :: as, b :: bs => eraseF a = eraseF b ∧ envRel as bs
  | _, _ => False

/-- The toggle-off environment invariant: every produced value that is not a
`RationalValue` carries no float witness anywhere. -/
def envOff (env : List Value) : Prop :=
  ∀ v ∈ env, v.ratND = none → eraseF v = v

theorem envRel_append {A B : List Value} (h : envRel A B) {v v' : Value}
    (hv : eraseF v = eraseF v') : envRel (A ++ [v]) (B ++ [v']) := by
  induction A generalizing B with
  | nil =>
    cases B with
    | nil => exact ⟨hv, trivial⟩
    | cons b bs => exact h.elim
  | cons a as ihA =>
    cases B with
    | nil => exact h.elim
    | cons b bs =>
      obtain ⟨h1, h2⟩ := h
      exact ⟨h1, ihA h2⟩

theorem envRel_getD {A B : List Value} (h : envRel A B) (k : Nat) :
    eraseF (A.getD k (litV 0)) = eraseF (B.getD k (litV 0)) := by
  induction A generalizing B k with
  | nil =>
    cases B with
    | nil => rfl
    | cons b bs => exact h.elim
  | cons a as ihA =>
    cases B with
    | nil => exact h.elim
    | cons b bs =>
      obtain ⟨h1, h2⟩ := h
      cases k with
      | zero => exact h1
      | succ k2 => exact ihA h2 k2

theorem envOff_append {B : List Value} (h : envOff B) {v : Value}
    (hv : v.ratND = none → eraseF v = v) : envOff (B ++ [v]) := by
  intro w hw
  rcases List.mem_append.mp hw with h1 | h1
  · exact h w h1
  · simp only [List.mem_singleton] at h1
    subst h1
    exact hv

/-- Toggle-off simulation for one interpreter step. -/
theorem run1_sim (c : Instr) {env env' : List Value} {s : EPState}
    {env1 : List Value} {s1 : EPState}
    (hrel : envRel env env') (hoff : envOff env')
    (h : run1 c env s = (.ok env1, s1)) :
    ∃ env1', run1 c env' (off s) = (.ok env1', off s1) ∧
      envRel env1 env1' ∧ envOff env1' := by
  cases c with
  | lit n =>
    simp only [run1, Prod.mk.injEq, Except.ok.injEq] at h
    obtain ⟨he, hs⟩ := h
    subst he
    subst hs
    exact ⟨env' ++ [i (.inl n) (off s)], rfl,
      envRel_append hrel (rel_i rfl), envOff_append hoff (fun _ => rfl)⟩
  | fresh n =>
    simp only [run1, new_var, next_var, Prod.mk.injEq, Except.ok.injEq] at h
    obtain ⟨he, hs⟩ := h
    subst he
    subst hs
    refine ⟨env' ++ [Value.mk (some s.currentVar) (some (.inl n)) none none],
      rfl, envRel_append hrel ?_, envOff_append hoff (fun _ => rfl)⟩
    show eraseF (Value.mk (some s.currentVar) (some (.inl n))
      (if s.computeFloatInitial then some (.ofInt n) else none) none) =
      eraseF (Value.mk (some s.currentVar) (some (.inl n)) none none)
    rw [eraseF_mk, eraseF_mk]
  | rat n d =>
    simp only [run1] at h
    split at h
    · exact absurd h (by simp)
    · rename_i v s2 hrat
      simp only [Prod.mk.injEq, Except.ok.injEq] at h
      obtain ⟨he, hs⟩ := h
      subst he
      subst hs
      obtain ⟨hrat', hnd⟩ := rat_sim hrat
      refine ⟨env' ++ [v], ?_, envRel_append hrel rfl,
        envOff_append hoff ?_⟩
      · simp only [run1]
        rw [hrat']
      · intro hc
        rw [hnd] at hc
        simp at hc
  | neg a =>
    simp only [run1] at h
    split at h
    · exact absurd h (by simp)
    · rename_i v s2 hop
      simp only [Prod.mk.injEq, Except.ok.injEq] at h
      obtain ⟨he, hs⟩ := h
      subst he
      subst hs
      obtain ⟨v', hop', hrelv, hfixv⟩ := neg_sim (envRel_getD hrel a) hop
      refine ⟨env' ++ [v'], ?_, envRel_append hrel hrelv,
        envOff_append hoff (fun _ => hfixv)⟩
      simp only [run1]
      rw [hop']
  | abs a =>
    simp only [run1] at h
    split at h
    · exact absurd h (by simp)
    · rename_i v s2 hop
      simp only [Prod.mk.injEq, Except.ok.injEq] at h
      obtain ⟨he, hs⟩ := h
      subst he
      subst hs
      obtain ⟨v', hop', hrelv, hfixv⟩ := abs_sim (envRel_getD hrel a) hop
      refine ⟨env' ++ [v'], ?_, envRel_append hrel hrelv,
        envOff_append hoff (fun _ => hfixv)⟩
      simp only [run1]
      rw [hop']
  | add a b =>
    simp only [run1] at h
    split at h
    · exact absurd h (by simp)
    · rename_i v s2 hop
      simp only [Prod.mk.injEq, Except.ok.injEq] at h
      obtain ⟨he, hs⟩ := h
      subst he
      subst hs
      obtain ⟨v', hop', hrelv, hfixv⟩ :=
        add_sim (envRel_getD hrel a) (envRel_getD hrel b) hop
      refine ⟨env' ++ [v'], ?_, envRel_append hrel hrelv,
        envOff_append hoff (fun _ => hfixv)⟩
      simp only [run1]
      rw [hop']
  | sub a b =>
    simp only [run1] at h
    split at h
    · exact absurd h (by simp)
    · rename_i v s2 hop
      simp only [Prod.mk.injEq, Except.ok.injEq] at h
      obtain ⟨he, hs⟩ := h
      subst he
      subst hs
      obtain ⟨v', hop', hrelv, hfixv⟩ :=
        sub_sim (envRel_getD hrel a) (envRel_getD hrel b) hop
      refine ⟨env' ++ [v'], ?_, envRel_append hrel hrelv,
        envOff_append hoff (fun _ => hfixv)⟩
      simp only [run1]
      rw [hop']
  | mul a b =>
    simp only [run1] at h
    split at h
    · exact absurd h (by simp)
    · rename_i v s2 hop
      simp only [Prod.mk.injEq, Except.ok.injEq] at h
      obtain ⟨he, hs⟩ := h
      subst he
      subst hs
      obtain ⟨v', hop', hrelv, hfixv⟩ :=
        mul_sim (envRel_getD hrel a) (envRel_getD hrel b) hop
      refine ⟨env' ++ [v'], ?_, envRel_append hrel hrelv,
        envOff_append hoff (fun _ => hfixv)⟩
      simp only [run1]
      rw [hop']
  | div a b =>
    simp only [run1] at h
    split at h
    · exact absurd h (by simp)
    · rename_i v s2 hop
      simp only [Prod.mk.injEq, Except.ok.injEq] at h
      obtain ⟨he, hs⟩ := h
      subst he
      subst hs
      obtain ⟨v', hop', hrelv, hfixv⟩ :=
        div_sim (envRel_getD hrel a) (envRel_getD hrel b) hop
      refine ⟨env' ++ [v'], ?_, envRel_append hrel hrelv,
        envOff_append hoff (fun _ => hfixv)⟩
      simp only [run1]
      rw [hop']
  | pow a b =>
    simp only [run1] at h
    split at h
    · exact absurd h (by simp)
    · rename_i v s2 hop
      simp only [Prod.mk.injEq, Except.ok.injEq] at h
      obtain ⟨he, hs⟩ := h
      subst he
      subst hs
      obtain ⟨v', hop', hrelv, hfixv⟩ :=
        pow_sim (envRel_getD hrel a) (envRel_getD hrel b) hop
      refine ⟨env' ++ [v'], ?_, envRel_append hrel hrelv,
        envOff_append hoff (fun _ => hfixv)⟩
      simp only [run1]
      rw [hop']
  | sqrtI a =>
    simp only [run1] at h
    split at h
    · exact absurd h (by simp)
    · rename_i v s2 hop
      simp only [Prod.mk.injEq, Except.ok.injEq] at h
      obtain ⟨he, hs⟩ := h
      subst he
      subst hs
      obtain ⟨v', hop', hrelv, hfixv⟩ := sqrt_sim (envRel_getD hrel a) hop
      refine ⟨env' ++ [v'], ?_, envRel_append hrel hrelv,
        envOff_append hoff (fun _ => hfixv)⟩
      simp only [run1]
      rw [hop']
  | isZero a =>
    simp only [run1] at h
    split at h
    · exact absurd h (by simp)
    · rename_i u s2 hop
      simp only [Prod.mk.injEq, Except.ok.injEq] at h
      obtain ⟨he, hs⟩ := h
      subst he
      subst hs
      refine ⟨env', ?_, hrel, hoff⟩
      simp only [run1]
      rw [is_zero_sim (envRel_getD hrel a) hop]
  | isConstant a =>
    simp only [run1] at h
    split at h
    · exact absurd h (by simp)
    · rename_i u s2 hop
      simp only [Prod.mk.injEq, Except.ok.injEq] at h
      obtain ⟨he, hs⟩ := h
      subst he
      subst hs
      refine ⟨env', ?_, hrel, hoff⟩
      simp only [run1]
      rw [is_constant_sim (envRel_getD hrel a) hop]

/-- Toggle-off simulation for whole programs. -/
theorem run_sim : ∀ (P : List Instr) (env env' : List Value) (s : EPState)
    (res : List Value) (s1 : EPState),
    envRel env env' → envOff env' →
    run P env s = (.ok res, s1) →
    ∃ res', run P env' (off s) = (.ok res', off s1) ∧ envRel res res' ∧
      envOff res' := by
  intro P
  induction P with
  | nil =>
    intro env env' s res s1 hrel hoff h
    simp only [run, Prod.mk.injEq, Except.ok.injEq] at h
    obtain ⟨he, hs⟩ := h
    subst he
    subst hs
    exact ⟨env', rfl, hrel, hoff⟩
  | cons c P ihP =>
    intro env env' s res s1 hrel hoff h
    simp only [run] at h
    split at h
    · exact absurd h (by simp)
    · rename_i env2 s2 h1
      obtain ⟨env2', h1', hrel2, hoff2⟩ := run1_sim c hrel hoff h1
      obtain ⟨res', hrun, hrel3, hoff3⟩ :=
        ihP env2 env2' s2 res s1 hrel2 hoff2 h
      refine ⟨res', ?_, hrel3, hoff3⟩
      simp only [run]
      rw [h1']
      exact hrun

/-- **C3** (refuted as stated).  Two counterexamples to the literal claim.
First, with the witness toggle disabled, `RationalValue(1, 2)` still computes
and stores a float witness (`float_initial = 1 / 2` is assigned
unconditionally), so not every produced value has an absent `float_initial`.
Second, the same operation `i(1) / i(0)` does not emit the same equations
under the two toggle settings: the enabled run raises `ZeroDivisionError`
while computing the float witness `1.0 / 0.0` and emits nothing, while the
disabled run succeeds and emits `1 - 0*a`. -/
theorem claim_C3_counterexample :
    (q 1 2 ⟨0, [], false⟩).1 =
      .ok (Value.mk (some 0) none (some (.ratDiv 1 2)) (some (1, 2))) ∧
    (Value.mk (some 0) none (some (.ratDiv 1 2))
      (some (1, 2))).floatInitial ≠ none ∧
    Value.div (i (.inl 1) ⟨0, [], true⟩) (i (.inl 0) ⟨0, [], true⟩)
        ⟨0, [], true⟩ =
      (.error .divisionByZero, ⟨0, [], true⟩) ∧
    Value.div (i (.inl 1) ⟨0, [], false⟩) (i (.inl 0) ⟨0, [], false⟩)
        ⟨0, [], false⟩ =
      (.ok (Value.mk (some 0) none none none), ⟨1, ["1 - 0*a"], false⟩) := by
  refine ⟨?_, by decide, ?_, ?_⟩
  · rw [q, RationalValue_run 1 2 _ (by decide)]
  · rw [Value.div, Value.non_integer_valued_binary_operation]
    simp [maybe_float_initial, i, Value.float_initial_as_float,
      Value.floatInitial, fdivE, evalQ, Except.bind, Except.map]
  · simp [Value.div, Value.non_integer_valued_binary_operation, elevate,
      Value.init, maybe_float_initial, i, Value.var, Value.initial,
      Value.floatInitial, next_var, Value.maybe_int, Value.str]
    decide

/-- **C3** (amended).  Replaying with the float-witness toggle disabled any
straight-line program over the `Value` API whose toggle-enabled run succeeds:
the disabled run also succeeds and its final state is exactly the toggle-off
image of the enabled run's final state — in particular the emitted equation
texts and the allocation counter are identical; the produced values agree up
to erasure of float witnesses; and every produced value that is not a
`RationalValue` has an absent `float_initial` (a `RationalValue` stores its
witness `n / d` regardless of the toggle).  The success hypothesis on the
enabled run is necessary: by `claim_C3_counterexample`, the enabled run can
raise `ZeroDivisionError` on float-witness evaluation where the disabled run
emits an equation. -/
theorem claim_C3 (P : List Instr) (s : EPState) (res : List Value)
    (s1 : EPState) (h : run P [] s = (.ok res, s1)) :
    ∃ res', run P [] (off s) = (.ok res', off s1) ∧
      (off s1).equations = s1.equations ∧
      envRel res res' ∧
      ∀ v' ∈ res', v'.ratND = none → v'.floatInitial = none := by
  obtain ⟨res', hrun, hrel, hoff⟩ :=
    run_sim P [] [] s res s1 trivial (fun v hv => absurd hv (by simp)) h
  exact ⟨res', hrun, rfl, hrel,
    fun v' hv' hnd => fix_floatInitial (hoff v' hv' hnd)⟩

set_option maxRecDepth 16384 in
/-- Witness for `claim_C3`: the program `x := i 2; y := i 3; x / y`, replayed
from the enabled initial state; the enabled run emits exactly `2 - 3*a`. -/
theorem claim_C3_witness :
    ∃ res', run [Instr.lit 2, Instr.lit 3, Instr.div 0 1] []
        (off ⟨0, [], true⟩) =
        (.ok res', off ⟨1, ["2 - 3*a"], true⟩) ∧
      (off (⟨1, ["2 - 3*a"], true⟩ : EPState)).equations =
        (⟨1, ["2 - 3*a"], true⟩ : EPState).equations ∧
      envRel [Value.mk none (some (.inl 2)) (some (.ofInt 2)) none,
        Value.mk none (some (.inl 3)) (some (.ofInt 3)) none,
        Value.mk (some 0) none (some (.fdiv (.ofInt 2) (.ofInt 3))) none]
        res' ∧
      ∀ v' ∈ res', v'.ratND = none → v'.floatInitial = none :=
  claim_C3 [Instr.lit 2, Instr.lit 3, Instr.div 0 1] ⟨0, [], true⟩
    [Value.mk none (some (.inl 2)) (some (.ofInt 2)) none,
     Value.mk none (some (.inl 3)) (some (.ofInt 3)) none,
     Value.mk (some 0) none (some (.fdiv (.ofInt 2) (.ofInt 3))) none]
    ⟨1, ["2 - 3*a"], true⟩
    (by
      simp [run, run1, Value.div, Value.non_integer_valued_binary_operation,
        elevate, Value.init, maybe_float_initial, i, Value.var, Value.initial,
        Value.floatInitial, Value.float_initial_as_float, next_var,
        Value.maybe_int, Value.str, fdivE, evalQ, Except.bind, List.getD]
      decide)

end EqProc
